import Mathlib

/-!
# Lock-free stacks with hazard pointers and with reference counting

A shallow embedding of `hazard_ptrs.cpp` and `ref_counting_atomic_stack.cpp`, followed by
theorems about it.

## Conventions of the embedding

* Addresses are natural numbers, a pointer is an `Option Addr` (`none` is `nullptr`).
* A `std::thread::id` is an `Option thread_id`: `none` is the default-constructed id that
  names no thread, `some t` is the id of a running thread.
* The global `hazard_pointers` array is a function on `Fin max_hazard_pointers`.
* Heap objects live in a finite `Heap`; `delete` removes the cell, and an access through a
  pointer to no live object is reported as `Fault.invalid_pointer`.
* The allocator is a parameter `operator_new` of `push`: the address it hands out for a given
  heap. Theorems that need it assume only that this address is not in use. Allocation never
  fails.
* The list `nodes_to_reclaim` is a Lean list of its entries, head first; the cells of the list
  themselves have no address.
* Atomic operations are sequentially consistent (the source uses the default memory order), so
  a compare-and-swap is one state transition. Functions such as `push` and `pop` run one call
  without interference from other threads; their retry loops take a bound `fuel` on the number
  of iterations and report `Fault.out_of_fuel` beyond it. `RegSys` interleaves the single
  atomic operations on the registry of any number of threads.
-/

namespace Mem

/-- A heap address. -/
abbrev Addr := Nat

/-- A raw pointer; `none` is `nullptr`. -/
abbrev Ptr := Option Addr

/-- Ways an operation can fail to return normally. -/
inductive Fault where
  /-- Thrown by `hp_owner()`: `std::runtime_error("No hazrd pointers available")`. -/
  | runtime_error
  /-- Undefined behaviour: a read, write or `delete` through a pointer to no live object. -/
  | invalid_pointer
  /-- A retry loop of the embedding did not finish within the given number of iterations. -/
  | out_of_fuel
deriving DecidableEq, Repr

/-! ## Heap -/

/-- A finite heap: the live objects with their addresses. -/
structure Heap (α : Type) where
  cells : List (Addr × α)
deriving Repr

/-- A heap with no live object. -/
def Heap.empty {α : Type} : Heap α := ⟨[]⟩

/-- The object living at `a`, if any. -/
def Heap.read {α : Type} (h : Heap α) (a : Addr) : Option α :=
  match h.cells.find? (fun c => c.1 == a) with
  | some c => some c.2
  | none => none

/-- Remove the object at `a` (`delete`). -/
def Heap.free {α : Type} (h : Heap α) (a : Addr) : Heap α :=
  ⟨h.cells.filter (fun c => c.1 != a)⟩

/-- Make `v` the object living at `a`. -/
def Heap.write {α : Type} (h : Heap α) (a : Addr) (v : α) : Heap α :=
  ⟨(a, v) :: (h.free a).cells⟩

end Mem

namespace HazardPtrs

open Mem

/-! ## Hazard-pointer registry (`hazard_ptrs.cpp`, lines 11-64) -/

/-- The identity of a running thread (`std::this_thread::get_id()`). -/
abbrev thread_id := Nat

/-- `constexpr size_t max_hazard_pointers = 100;` -/
abbrev max_hazard_pointers : Nat := 100

/-- `struct hazard_pointer { std::atomic<std::thread::id> id; std::atomic<void*> pointer; };` -/
structure hazard_pointer where
  id : Option thread_id
  pointer : Ptr
deriving DecidableEq, Repr

/-- `std::array<hazard_pointer, max_hazard_pointers> hazard_pointers;` -/
abbrev Registry := Fin max_hazard_pointers → hazard_pointer

/-- The zero-initialised global array: no owner, no protected address. -/
def Registry.init : Registry := fun _ => ⟨none, none⟩

/-- `hazard_pointers[i].id.compare_exchange_strong(expected, desired)`: success flag and the
array afterwards. -/
def compare_exchange_id (reg : Registry) (i : Fin max_hazard_pointers)
    (expected desired : Option thread_id) : Bool × Registry :=
  if (reg i).id = expected then
    (true, Function.update reg i { reg i with id := desired })
  else
    (false, reg)

/-- `hazard_pointers[i].pointer.store(p)`. -/
def store_pointer (reg : Registry) (i : Fin max_hazard_pointers) (p : Ptr) : Registry :=
  Function.update reg i { reg i with pointer := p }

/-- `hazard_pointers[i].id.store(t)`. -/
def store_id (reg : Registry) (i : Fin max_hazard_pointers) (t : Option thread_id) : Registry :=
  Function.update reg i { reg i with id := t }

/-- The `for` loop of `hp_owner()` from index `i` on, with `fuel` iterations left: the value
of `hp_` after the loop and the array afterwards. -/
def hp_owner_loop (me : thread_id) :
    Nat → Nat → Registry → Option (Fin max_hazard_pointers) × Registry
  | 0, _, reg => (none, reg)
  | fuel + 1, i, reg =>
    if h : i < max_hazard_pointers then
      match compare_exchange_id reg ⟨i, h⟩ none (some me) with
      | (true, reg1) => (some ⟨i, h⟩, reg1)
      | (false, reg1) => hp_owner_loop me fuel (i + 1) reg1
    else
      (none, reg)

/-- The constructor `hp_owner::hp_owner()` run by thread `me`: the claimed slot (`hp_`) and the
array afterwards, or the thrown `runtime_error`. -/
def hp_owner_ctor (me : thread_id) (reg : Registry) :
    Except Fault (Fin max_hazard_pointers × Registry) :=
  match hp_owner_loop me max_hazard_pointers 0 reg with
  | (some hp_, reg1) => .ok (hp_, reg1)
  | (none, _) => .error .runtime_error

/-- The destructor `hp_owner::~hp_owner()` of an owner whose `hp_` is slot `hp_`. -/
def hp_owner_dtor (hp_ : Fin max_hazard_pointers) (reg : Registry) : Registry :=
  store_id (store_pointer reg hp_ none) hp_ none

/-- The loop of `outstanding_hazard_pointers_for` from index `i` on. -/
def outstanding_loop (reg : Registry) (p : Ptr) : Nat → Nat → Bool
  | 0, _ => false
  | fuel + 1, i =>
    if h : i < max_hazard_pointers then
      if (reg ⟨i, h⟩).pointer = p then true else outstanding_loop reg p fuel (i + 1)
    else
      false

/-- `bool outstanding_hazard_pointers_for(void* p)`; it only loads. -/
def outstanding_hazard_pointers_for (reg : Registry) (p : Ptr) : Bool :=
  outstanding_loop reg p max_hazard_pointers 0

/-- Number of slots whose owner field names a thread. -/
def claimed_count (reg : Registry) : Nat :=
  (Finset.univ.filter (fun i => (reg i).id ≠ none)).card

/-! ## Reclamation list and stack (`hazard_ptrs.cpp`, lines 66-167) -/

/-- `struct node { std::shared_ptr<T> data; node* next; }` of `lockfree_stack<T>`; an empty
`data` handle is `none`. -/
structure node (T : Type) where
  data : Option T
  next : Ptr
deriving Repr

/-- `struct data_to_reclaim`: the retired address. Its `deleter` is always `&do_delete<node>`
(set by the only constructor); its `next` link is the tail of the list holding it. -/
structure data_to_reclaim where
  data : Ptr
deriving DecidableEq, Repr

/-- The program state seen by `lockfree_stack<T>`: the globals, the thread-local owners, the
node heap and the stack's head. -/
structure State (T : Type) where
  /-- The global `hazard_pointers`. -/
  hazard_pointers : Registry
  /-- Per thread, `hp_` of its `thread_local static hp_owner hazard`, `none` while that object
  is not constructed. -/
  hazard : thread_id → Option (Fin max_hazard_pointers)
  /-- The global `nodes_to_reclaim`, head first. -/
  nodes_to_reclaim : List data_to_reclaim
  /-- The live `node` objects. -/
  heap : Heap (node T)
  /-- The member `head_`. -/
  head_ : Ptr
  /-- Ghost history: the addresses `do_delete<node>` destroyed, latest first. -/
  deleted : List Addr

/-- State at program start with a freshly constructed, empty stack. -/
def State.init {T : Type} : State T :=
  { hazard_pointers := Registry.init
    hazard := fun _ => none
    nodes_to_reclaim := []
    heap := Heap.empty
    head_ := none
    deleted := [] }

/-- `get_hazard_pointer_for_current_thread()` called by thread `me`: the slot whose `pointer`
is returned. The thread-local owner is constructed on the first call; when its constructor
throws, the owner stays unconstructed. -/
def get_hazard_pointer_for_current_thread {T : Type} (me : thread_id) (s : State T) :
    Except Fault (Fin max_hazard_pointers × State T) :=
  match s.hazard me with
  | some hp_ => .ok (hp_, s)
  | none =>
    match hp_owner_ctor me s.hazard_pointers with
    | .ok (hp_, reg) =>
      .ok (hp_, { s with hazard_pointers := reg, hazard := Function.update s.hazard me (some hp_) })
    | .error e => .error e

/-- Thread `me` terminates: the destructor of its thread-local owner runs, if it was
constructed. -/
def thread_exit {T : Type} (me : thread_id) (s : State T) : State T :=
  match s.hazard me with
  | some hp_ =>
    { s with hazard_pointers := hp_owner_dtor hp_ s.hazard_pointers
             hazard := Function.update s.hazard me none }
  | none => s

/-- `do_delete<node>(p)`: `delete static_cast<node*>(p)`. Deleting `nullptr` does nothing. -/
def do_delete {T : Type} (p : Ptr) (s : State T) : Except Fault (State T) :=
  match p with
  | none => .ok s
  | some a =>
    match s.heap.read a with
    | none => .error .invalid_pointer
    | some _ => .ok { s with heap := s.heap.free a, deleted := a :: s.deleted }

/-- `add_to_reclaim_list(node)`: the entry becomes the new head of `nodes_to_reclaim`. -/
def add_to_reclaim_list {T : Type} (entry : data_to_reclaim) (s : State T) : State T :=
  { s with nodes_to_reclaim := entry :: s.nodes_to_reclaim }

/-- `reclaim_later(data)`. -/
def reclaim_later {T : Type} (data : Ptr) (s : State T) : State T :=
  add_to_reclaim_list ⟨data⟩ s

/-- The `while (current)` loop of `delete_nodes_with_no_hazards` over the detached list. -/
def delete_nodes_loop {T : Type} : List data_to_reclaim → State T → Except Fault (State T)
  | [], s => .ok s
  | current :: next, s =>
    if !outstanding_hazard_pointers_for s.hazard_pointers current.data then
      match do_delete current.data s with
      | .ok s1 => delete_nodes_loop next s1
      | .error e => .error e
    else
      delete_nodes_loop next (add_to_reclaim_list current s)

/-- `delete_nodes_with_no_hazards()`: detach the whole list, then walk it. -/
def delete_nodes_with_no_hazards {T : Type} (s : State T) : Except Fault (State T) :=
  delete_nodes_loop s.nodes_to_reclaim { s with nodes_to_reclaim := [] }

/-- `bool empty() const`. -/
def empty {T : Type} (s : State T) : Bool := s.head_ == none

/-- `head_.compare_exchange_*(expected, desired)`: success flag, the value left in `expected`,
and the state afterwards. A spurious failure of the weak form only repeats the loop around it
and is not modelled. -/
def compare_exchange_head {T : Type} (s : State T) (expected desired : Ptr) :
    Bool × Ptr × State T :=
  if s.head_ = expected then (true, expected, { s with head_ := desired })
  else (false, s.head_, s)

/-- The `while (!head_.compare_exchange_weak(new_node->next, new_node));` loop of `push`. -/
def push_loop {T : Type} : Nat → Addr → State T → Except Fault (State T)
  | 0, _, _ => .error .out_of_fuel
  | fuel + 1, new_node, s =>
    match s.heap.read new_node with
    | none => .error .invalid_pointer
    | some n =>
      match compare_exchange_head s n.next (some new_node) with
      | (true, _, s1) => .ok s1
      | (false, seen, s1) =>
        push_loop fuel new_node { s1 with heap := s1.heap.write new_node { n with next := seen } }

/-- `lockfree_stack<T>::push(data)`. `operator_new` is the allocator: the address it returns
for the current heap. -/
def push {T : Type} (operator_new : Heap (node T) → Addr) (fuel : Nat) (data : T)
    (s : State T) : Except Fault (State T) :=
  let new_node := operator_new s.heap
  let s1 := { s with heap := s.heap.write new_node ⟨some data, none⟩ }
  let s2 := { s1 with heap := s1.heap.write new_node ⟨some data, s1.head_⟩ }
  push_loop fuel new_node s2

/-- The inner `do { temp = old_head; hp.store(old_head); old_head = head_.load(); }
while (temp != old_head);` of `pop`. -/
def pop_publish {T : Type} (hp : Fin max_hazard_pointers) :
    Nat → Ptr → State T → Except Fault (Ptr × State T)
  | 0, _, _ => .error .out_of_fuel
  | fuel + 1, old_head, s =>
    let temp := old_head
    let s1 := { s with hazard_pointers := store_pointer s.hazard_pointers hp old_head }
    let old_head1 := s1.head_
    if temp ≠ old_head1 then pop_publish hp fuel old_head1 s1 else .ok (old_head1, s1)

/-- The outer `do { ... } while (old_head && !head_.compare_exchange_strong(old_head,
old_head->next));` of `pop`: the unlinked node (or `nullptr`) and the state afterwards. -/
def pop_unlink {T : Type} (hp : Fin max_hazard_pointers) :
    Nat → Ptr → State T → Except Fault (Ptr × State T)
  | 0, _, _ => .error .out_of_fuel
  | fuel + 1, old_head, s =>
    match pop_publish hp (fuel + 1) old_head s with
    | .error e => .error e
    | .ok (none, s1) => .ok (none, s1)
    | .ok (some a, s1) =>
      match s1.heap.read a with
      | none => .error .invalid_pointer
      | some n =>
        match compare_exchange_head s1 (some a) n.next with
        | (true, _, s2) => .ok (some a, s2)
        | (false, seen, s2) => pop_unlink hp fuel seen s2

/-- Lines 152-166 of `pop`, entered with the caller's slot already cleared: move the payload
out of the unlinked node, free or retire the node, sweep, return the payload. -/
def pop_dispose {T : Type} (old_head : Ptr) (s : State T) : Except Fault (Option T × State T) :=
  match old_head with
  | none => .ok (none, s)
  | some a =>
    match s.heap.read a with
    | none => .error .invalid_pointer
    | some n =>
      let result := n.data
      let s1 := { s with heap := s.heap.write a { n with data := none } }
      let disposed :=
        if outstanding_hazard_pointers_for s1.hazard_pointers (some a) then
          .ok (reclaim_later (some a) s1)
        else
          do_delete (some a) s1
      match disposed with
      | .error e => .error e
      | .ok s2 =>
        match delete_nodes_with_no_hazards s2 with
        | .error e => .error e
        | .ok s3 => .ok (result, s3)

/-- `lockfree_stack<T>::pop()` called by thread `me`. -/
def pop {T : Type} (fuel : Nat) (me : thread_id) (s : State T) :
    Except Fault (Option T × State T) :=
  match get_hazard_pointer_for_current_thread me s with
  | .error e => .error e
  | .ok (hp, s1) =>
    match pop_unlink hp fuel s1.head_ s1 with
    | .error e => .error e
    | .ok (old_head, s2) =>
      pop_dispose old_head
        { s2 with hazard_pointers := store_pointer s2.hazard_pointers hp none }

/-! ## The registry at the granularity of single atomic operations

Every write to `hazard_pointers` in the source is one of: the compare-and-swap of `hp_owner()`
(line 26), the two stores of `~hp_owner()` (lines 42-43), and `hp.store` in `pop` (lines 144,
151). `RegSys` interleaves these steps of any number of threads. -/

/-- Where a thread stands with respect to its thread-local `hp_owner`. -/
inductive owner_pc where
  /-- No owner constructed and none under construction. -/
  | idle
  /-- Inside `hp_owner()`, about to test `i < hazard_pointers.size()`. -/
  | scanning (i : Nat)
  /-- Owner constructed with `hp_ = &hazard_pointers[hp_]`. -/
  | holding (hp_ : Fin max_hazard_pointers)
  /-- The constructor threw `runtime_error`. -/
  | thrown
  /-- Inside `~hp_owner()`, between line 42 and line 43. -/
  | clearing (hp_ : Fin max_hazard_pointers)
deriving DecidableEq, Repr

/-- The registry together with the position of every thread. -/
structure RegSys where
  hazard_pointers : Registry
  pc : thread_id → owner_pc

/-- Program start: empty registry, no thread has an owner. -/
def RegSys.init : RegSys := ⟨Registry.init, fun _ => .idle⟩

/-- One atomic step of one thread. -/
inductive RegEvent where
  /-- Thread `t` enters `hp_owner()` (first use of `get_hazard_pointer_for_current_thread`). -/
  | call (t : thread_id)
  /-- One pass of the `for` loop of `hp_owner()`: the bound test and the compare-and-swap, or
  leaving the loop and throwing. -/
  | cas (t : thread_id)
  /-- Thread `t`, holding a slot, runs `hp.store(p)`. -/
  | store (t : thread_id) (p : Ptr)
  /-- Line 42: `hp_->pointer.store(nullptr)`. -/
  | dtor_pointer (t : thread_id)
  /-- Line 43: `hp_->id.store(std::thread::id())`. -/
  | dtor_id (t : thread_id)
deriving DecidableEq, Repr

/-- Effect of one event; an event that is not enabled leaves the system unchanged. -/
def reg_step : RegEvent → RegSys → RegSys
  | .call t, s =>
    match s.pc t with
    | .idle => { s with pc := Function.update s.pc t (.scanning 0) }
    | .thrown => { s with pc := Function.update s.pc t (.scanning 0) }
    | _ => s
  | .cas t, s =>
    match s.pc t with
    | .scanning i =>
      if h : i < max_hazard_pointers then
        match compare_exchange_id s.hazard_pointers ⟨i, h⟩ none (some t) with
        | (true, reg) => ⟨reg, Function.update s.pc t (.holding ⟨i, h⟩)⟩
        | (false, reg) => ⟨reg, Function.update s.pc t (.scanning (i + 1))⟩
      else
        { s with pc := Function.update s.pc t .thrown }
    | _ => s
  | .store t p, s =>
    match s.pc t with
    | .holding hp_ => { s with hazard_pointers := store_pointer s.hazard_pointers hp_ p }
    | _ => s
  | .dtor_pointer t, s =>
    match s.pc t with
    | .holding hp_ =>
      ⟨store_pointer s.hazard_pointers hp_ none, Function.update s.pc t (.clearing hp_)⟩
    | _ => s
  | .dtor_id t, s =>
    match s.pc t with
    | .clearing hp_ => ⟨store_id s.hazard_pointers hp_ none, Function.update s.pc t .idle⟩
    | _ => s

/-- Run a schedule, first event first. -/
def reg_run : List RegEvent → RegSys → RegSys
  | [], s => s
  | e :: es, s => reg_run es (reg_step e s)

/-- Thread `t` makes its first call and runs its constructor to the end without interruption. -/
def solo (t : thread_id) : List RegEvent :=
  .call t :: List.replicate (max_hazard_pointers + 1) (.cas t)

/-- The threads `0, ..., n - 1` construct their owners one after the other. -/
def one_by_one : Nat → List RegEvent
  | 0 => []
  | n + 1 => one_by_one n ++ solo n

/-- Thread `t` has completed a first use: it holds a slot or its constructor threw. -/
def finished (s : RegSys) (t : thread_id) : Bool :=
  match s.pc t with
  | .holding _ => true
  | .thrown => true
  | _ => false

end HazardPtrs

namespace RefCounting

open Mem

/-! ## Reference-counted stack (`ref_counting_atomic_stack.cpp`) -/

/-- `struct node { std::shared_ptr<T> data; std::shared_ptr<node> next; }` of
`lock_free_stack<T>`; an empty handle is `none`. -/
structure node (T : Type) where
  data : Option T
  next : Ptr
deriving Repr

/-- What `std::make_shared<node>` allocates: the object and the number of `shared_ptr`
handles owning it. -/
structure control_block (T : Type) where
  object : node T
  use_count : Nat
deriving Repr

/-- The member `head` and the live nodes. -/
structure State (T : Type) where
  heap : Heap (control_block T)
  head : Ptr

/-- A freshly constructed stack in a program with no other node. -/
def State.init {T : Type} : State T := ⟨Heap.empty, none⟩

/-- A new `shared_ptr` handle to the object of `p` comes into being (copy construction,
`atomic_load`). -/
def acquire {T : Type} (p : Ptr) (h : Heap (control_block T)) :
    Except Fault (Heap (control_block T)) :=
  match p with
  | none => .ok h
  | some a =>
    match h.read a with
    | none => .error .invalid_pointer
    | some cb => .ok (h.write a { cb with use_count := cb.use_count + 1 })

/-- A handle to the object of `p` goes away. When it was the last one the node is destroyed:
its own `next` handle goes away in turn and its cell is freed. -/
def release_loop {T : Type} :
    Nat → Ptr → Heap (control_block T) → Except Fault (Heap (control_block T))
  | _, none, h => .ok h
  | 0, some _, _ => .error .out_of_fuel
  | fuel + 1, some a, h =>
    match h.read a with
    | none => .error .invalid_pointer
    | some cb =>
      if cb.use_count ≤ 1 then release_loop fuel cb.object.next (h.free a)
      else .ok (h.write a { cb with use_count := cb.use_count - 1 })

/-- Destruction or reset of one `shared_ptr` handle. Every pass of the cascade frees a cell, so
one more pass than there are cells is enough. -/
def release {T : Type} (p : Ptr) (h : Heap (control_block T)) :
    Except Fault (Heap (control_block T)) :=
  release_loop (h.cells.length + 1) p h

/-- The `while (!std::atomic_compare_exchange_weak(&head, &new_node->next, new_node));` loop
of `push`. A spurious failure only repeats the loop and is not modelled. -/
def push_loop {T : Type} : Nat → Addr → State T → Except Fault (State T)
  | 0, _, _ => .error .out_of_fuel
  | fuel + 1, new_node, s =>
    match s.heap.read new_node with
    | none => .error .invalid_pointer
    | some cb =>
      if s.head = cb.object.next then
        -- success: `head` becomes a handle to `new_node`, its previous handle goes away
        match acquire (some new_node) s.heap with
        | .error e => .error e
        | .ok h1 =>
          match release s.head h1 with
          | .error e => .error e
          | .ok h2 => .ok ⟨h2, some new_node⟩
      else
        -- failure: `new_node->next` is overwritten with a copy of `head`
        match acquire s.head s.heap with
        | .error e => .error e
        | .ok h1 =>
          match h1.read new_node with
          | none => .error .invalid_pointer
          | some cb1 =>
            match release cb1.object.next
                (h1.write new_node { cb1 with object := { cb1.object with next := s.head } }) with
            | .error e => .error e
            | .ok h2 => push_loop fuel new_node { s with heap := h2 }

/-- `lock_free_stack<T>::push(data)`. `operator_new` is the allocator behind `make_shared`. -/
def push {T : Type} (operator_new : Heap (control_block T) → Addr) (fuel : Nat) (data : T)
    (s : State T) : Except Fault (State T) :=
  let new_node := operator_new s.heap
  -- auto new_node = std::make_shared<node>(data);
  let h1 := s.heap.write new_node ⟨⟨some data, none⟩, 1⟩
  -- new_node->next = std::atomic_load(&head);
  match acquire s.head h1 with
  | .error e => .error e
  | .ok h2 =>
    let h3 := h2.write new_node ⟨⟨some data, s.head⟩, 1⟩
    match push_loop fuel new_node { s with heap := h3 } with
    | .error e => .error e
    | .ok s1 =>
      -- the local `new_node` goes out of scope
      match release (some new_node) s1.heap with
      | .error e => .error e
      | .ok h4 => .ok { s1 with heap := h4 }

/-- The `while (old_head && !std::atomic_compare_exchange_weak(&head, &old_head,
std::atomic_load(&old_head->next)));` loop of `pop`: the final `old_head` and the state. -/
def pop_loop {T : Type} : Nat → Ptr → State T → Except Fault (Ptr × State T)
  | 0, _, _ => .error .out_of_fuel
  | _ + 1, none, s => .ok (none, s)
  | fuel + 1, some a, s =>
    match s.heap.read a with
    | none => .error .invalid_pointer
    | some cb =>
      -- the argument `std::atomic_load(&old_head->next)` is a new handle
      match acquire cb.object.next s.heap with
      | .error e => .error e
      | .ok h1 =>
        if s.head = some a then
          -- success: `head` takes that handle, its previous handle goes away
          match release (some a) h1 with
          | .error e => .error e
          | .ok h2 => .ok (some a, ⟨h2, cb.object.next⟩)
        else
          -- failure: `old_head` becomes a copy of `head`, the argument handle goes away
          match acquire s.head h1 with
          | .error e => .error e
          | .ok h2 =>
            match release (some a) h2 with
            | .error e => .error e
            | .ok h3 =>
              match release cb.object.next h3 with
              | .error e => .error e
              | .ok h4 => pop_loop fuel s.head { s with heap := h4 }

/-- Lines 39-43 of `pop`: clear the popped node's `next`, copy out its payload handle, and let
the local `old_head` go out of scope. -/
def pop_finish {T : Type} (old_head : Ptr) (s : State T) : Except Fault (Option T × State T) :=
  match old_head with
  | none => .ok (none, s)
  | some a =>
    match s.heap.read a with
    | none => .error .invalid_pointer
    | some cb =>
      -- std::atomic_store(&old_head->next, std::shared_ptr<node>());
      let h1 := s.heap.write a { cb with object := { cb.object with next := none } }
      match release cb.object.next h1 with
      | .error e => .error e
      | .ok h2 =>
        -- return old_head->data;
        match release (some a) h2 with
        | .error e => .error e
        | .ok h3 => .ok (cb.object.data, { s with heap := h3 })

/-- `lock_free_stack<T>::pop()`. -/
def pop {T : Type} (fuel : Nat) (s : State T) : Except Fault (Option T × State T) :=
  -- std::shared_ptr<node> old_head = std::atomic_load(&head);
  match acquire s.head s.heap with
  | .error e => .error e
  | .ok h0 =>
    match pop_loop fuel s.head { s with heap := h0 } with
    | .error e => .error e
    | .ok (old_head, s1) => pop_finish old_head s1

end RefCounting

namespace Mem

/-- An allocator that returns the successor of the largest live address. -/
def bump_allocator {α : Type} (h : Heap α) : Addr :=
  (h.cells.map Prod.fst).foldr max 0 + 1

end Mem

namespace HazardPtrs
open Mem

/-- Starting at `p`, the `next` links of heap `h` run through exactly the nodes listed in `cs`
(address and payload, top first), each with a non-empty payload handle, and end in `nullptr`. -/
def Linked {T : Type} (h : Heap (node T)) : Ptr → List (Addr × T) → Prop
  | p, [] => p = none
  | p, c :: cs => p = some c.1 ∧ ∃ nxt, h.read c.1 = some ⟨some c.2, nxt⟩ ∧ Linked h nxt cs

/-- The pending list holds each retired node once, and every retired node is still allocated. -/
def reclaim_ok {T : Type} (s : State T) : Prop :=
  s.nodes_to_reclaim.Nodup ∧
    ∀ e ∈ s.nodes_to_reclaim, ∃ a, e.data = some a ∧ s.heap.read a ≠ none

/-- Representation invariant of a stack whose linked nodes are `cs`: the nodes are distinct,
the pending list is well formed, and no linked node is pending. -/
structure StackInv {T : Type} (s : State T) (cs : List (Addr × T)) : Prop where
  linked : Linked s.heap s.head_ cs
  nodup : (cs.map Prod.fst).Nodup
  reclaim : reclaim_ok s
  apart : ∀ c ∈ cs, (⟨some c.1⟩ : data_to_reclaim) ∉ s.nodes_to_reclaim

/-- Push the values of a list one after the other, first element first. -/
def push_all {T : Type} (operator_new : Heap (node T) → Addr) (fuel : Nat) :
    List T → State T → Except Fault (State T)
  | [], s => .ok s
  | v :: vs, s =>
    match push operator_new fuel v s with
    | .error e => .error e
    | .ok s1 => push_all operator_new fuel vs s1

/-- Call `pop` `n` times on thread `me` and collect the results in call order. -/
def pop_many {T : Type} (fuel : Nat) (me : thread_id) :
    Nat → State T → Except Fault (List (Option T) × State T)
  | 0, s => .ok ([], s)
  | n + 1, s =>
    match pop fuel me s with
    | .error e => .error e
    | .ok (r, s1) =>
      match pop_many fuel me n s1 with
      | .error e => .error e
      | .ok (rs, s2) => .ok (r :: rs, s2)

/-- A registry whose hundred slots are all owned, by threads `1, ..., 100`. -/
def full_registry : Registry := fun i => ⟨some (i.val + 1), none⟩

/-- An empty stack in a program whose registry is fully claimed by other threads. -/
def exhausted_state : State Nat := { (State.init : State Nat) with hazard_pointers := full_registry }

/-- The initial state after thread 7 has claimed slot 0. -/
def one_thread_state : State Nat :=
  { (State.init : State Nat) with
    hazard_pointers := store_id Registry.init 0 (some 7)
    hazard := Function.update (fun _ => none) 7 (some 0) }

end HazardPtrs

namespace Mem

/-- The computation `r` returns normally with a result satisfying `P`. -/
def returns {α : Type} (r : Except Fault α) (P : α → Prop) : Prop :=
  match r with
  | .ok x => P x
  | .error _ => False

end Mem

namespace RefCounting
open Mem

/-- Starting at `p`, the `next` handles of heap `h` run through exactly the nodes listed in
`cs` (address and payload, top first), each with a non-empty payload handle and owned by exactly
one handle, and end in an empty handle. -/
def Linked {T : Type} (h : Heap (control_block T)) : Ptr → List (Addr × T) → Prop
  | p, [] => p = none
  | p, c :: cs =>
    p = some c.1 ∧ ∃ nxt, h.read c.1 = some ⟨⟨some c.2, nxt⟩, 1⟩ ∧ Linked h nxt cs

/-- Representation invariant of a stack whose linked nodes are `cs`. -/
structure StackInv {T : Type} (s : State T) (cs : List (Addr × T)) : Prop where
  linked : Linked s.heap s.head cs
  nodup : (cs.map Prod.fst).Nodup

/-- Push the values of a list one after the other, first element first. -/
def push_all {T : Type} (operator_new : Heap (control_block T) → Addr) (fuel : Nat) :
    List T → State T → Except Fault (State T)
  | [], s => .ok s
  | v :: vs, s =>
    match push operator_new fuel v s with
    | .error e => .error e
    | .ok s1 => push_all operator_new fuel vs s1

/-- Call `pop` `n` times and collect the results in call order. -/
def pop_many {T : Type} (fuel : Nat) : Nat → State T → Except Fault (List (Option T) × State T)
  | 0, s => .ok ([], s)
  | n + 1, s =>
    match pop fuel s with
    | .error e => .error e
    | .ok (r, s1) =>
      match pop_many fuel n s1 with
      | .error e => .error e
      | .ok (rs, s2) => .ok (r :: rs, s2)

end RefCounting

namespace HazardPtrs
open Mem

/-- One public operation runs to completion: a `push`, a `pop` by some thread, or the end of a
thread. -/
inductive Step {T : Type} (operator_new : Heap (node T) → Addr) : State T → State T → Prop
  | push (fuel : Nat) (v : T) (s s1 : State T) :
      push operator_new fuel v s = .ok s1 → Step operator_new s s1
  | pop (fuel : Nat) (me : thread_id) (r : Option T) (s s1 : State T) :
      pop fuel me s = .ok (r, s1) → Step operator_new s s1
  | exit (t : thread_id) (s : State T) : Step operator_new s (thread_exit t s)

/-- States a program can be in between operations, from program start. -/
inductive Reachable {T : Type} (operator_new : Heap (node T) → Addr) : State T → Prop
  | init : Reachable operator_new State.init
  | step (s s1 : State T) :
      Reachable operator_new s → Step operator_new s s1 → Reachable operator_new s1

/-- The owner fields of the array mirror the thread-local owners: slot `i` names thread `t`
exactly when the `hp_owner` of `t` is constructed on slot `i`. -/
def owner_inv {T : Type} (s : State T) : Prop :=
  ∀ (i : Fin max_hazard_pointers) (t : thread_id),
    (s.hazard_pointers i).id = some t ↔ s.hazard t = some i

/-- The state after the first `pop` of thread 7 on the initial state. -/
def after_first_pop : State Nat :=
  { (State.init : State Nat) with
    hazard_pointers :=
      store_pointer (store_pointer (store_id Registry.init 0 (some 7)) 0 none) 0 none
    hazard := Function.update (fun _ => none) 7 (some 0) }

/-- The two arrays agree except for the protected address of slot `hp`. -/
def same_but_pointer (hp : Fin max_hazard_pointers) (reg reg1 : Registry) : Prop :=
  ∀ i : Fin max_hazard_pointers, (reg1 i).id = (reg i).id ∧ (i ≠ hp → reg1 i = reg i)

/-- Thread `me` holds slot `hp`: its thread-local owner points at the slot and the slot names
the thread. -/
def holds_slot {T : Type} (s : State T) (me : thread_id) (hp : Fin max_hazard_pointers) : Prop :=
  s.hazard me = some hp ∧ (s.hazard_pointers hp).id = some me

/-- The owner fields of the array mirror the positions of the threads: slot `i` names thread
`t` exactly when `t` holds `i` or is in the middle of releasing it. -/
def reg_inv (s : RegSys) : Prop :=
  ∀ (i : Fin max_hazard_pointers) (t : thread_id),
    (s.hazard_pointers i).id = some t ↔ (s.pc t = .holding i ∨ s.pc t = .clearing i)

/-- The position a thread reaches when the loop of its constructor ends with `hp_`. -/
def pc_after_ctor : Option (Fin max_hazard_pointers) → owner_pc
  | some hp_ => .holding hp_
  | none => .thrown

/-- Thread 7 holds slot 0 and the stack holds the single value 5 in a node at address 1. -/
def one_node_state : State Nat :=
  { one_thread_state with heap := ⟨[(1, ⟨some 5, none⟩)]⟩, head_ := some 1 }

/-- The state after thread 7 has popped the value 5 from `one_node_state`. -/
def after_value_pop : State Nat :=
  { one_thread_state with
    hazard_pointers :=
      store_pointer (store_pointer one_thread_state.hazard_pointers 0 (some 1)) 0 none
    heap := ⟨[]⟩
    deleted := [1] }

end HazardPtrs

namespace HazardPtrs

open Mem

/-- A state whose pending list holds the nodes 1 and 2, with node 1 protected by slot 3. -/
def two_pending_state : State Nat :=
  { (State.init : State Nat) with
    hazard_pointers := store_pointer Registry.init 3 (some 1)
    nodes_to_reclaim := [⟨some 1⟩, ⟨some 2⟩]
    heap := ⟨[(1, ⟨none, none⟩), (2, ⟨none, none⟩)]⟩ }

/-- The state after one sweep of `two_pending_state`. -/
def two_pending_swept : State Nat :=
  { two_pending_state with
    nodes_to_reclaim := [⟨some 1⟩]
    heap := ⟨[(1, ⟨none, none⟩)]⟩
    deleted := [2] }

/-- The nodes 1 and 2 are allocated, nothing is pending and every slot is clear. -/
def two_live_state : State Nat :=
  { (State.init : State Nat) with heap := ⟨[(1, ⟨none, none⟩), (2, ⟨none, none⟩)]⟩ }

/-- `reclaim_later` called for each address of a list, first element first. -/
def retire_all {T : Type} : List Addr → State T → State T
  | [], s => s
  | a :: as, s => retire_all as (reclaim_later (some a) s)

end HazardPtrs

namespace HazardPtrs

open Mem

/-- Thread 7 holds slot 0, the stack holds the value 5 in node 1, and slot 3 (of some other
thread) holds the address of node 1. -/
def watched_node_state : State Nat :=
  { one_node_state with
    hazard_pointers := store_pointer one_node_state.hazard_pointers 3 (some 1) }

end HazardPtrs

namespace RefCounting

open Mem

/-- The destructor `~lock_free_stack() { while (pop()); }` with at most the given number of
loop passes: the number of pops that returned a payload and the state afterwards. -/
def destructor_loop {T : Type} (fuel : Nat) : Nat → State T → Except Fault (Nat × State T)
  | 0, _ => .error .out_of_fuel
  | k + 1, s =>
    match pop fuel s with
    | .error e => .error e
    | .ok (none, s1) => .ok (0, s1)
    | .ok (some _, s1) =>
      match destructor_loop fuel k s1 with
      | .error e => .error e
      | .ok (n, s2) => .ok (n + 1, s2)

/-- A stack holding 1, 2, 3 (3 on top) in the nodes 1, 2, 3. -/
def three_node_state : State Nat :=
  { heap := ⟨[(3, ⟨⟨some 3, some 2⟩, 1⟩), (2, ⟨⟨some 2, some 1⟩, 1⟩), (1, ⟨⟨some 1, none⟩, 1⟩)]⟩
    head := some 3 }

end RefCounting

namespace Mem

/-- One operation of a stack. -/
inductive StackOp (T : Type) where
  | push (v : T)
  | pop
deriving Repr

/-- The results of the pops of a sequence of operations on a plain list used as a stack (top
first). -/
def run_list {T : Type} : List (StackOp T) → List T → List (Option T)
  | [], _ => []
  | .push v :: ops, st => run_list ops (v :: st)
  | .pop :: ops, [] => none :: run_list ops []
  | .pop :: ops, v :: st => some v :: run_list ops st

end Mem

namespace HazardPtrs

open Mem

/-- States reachable from program start when the single thread `me` calls `push` and `pop`. -/
inductive Reachable1 {T : Type} (operator_new : Heap (node T) → Addr) (me : thread_id) :
    State T → Prop
  | init : Reachable1 operator_new me State.init
  | push (fuel : Nat) (v : T) (s s1 : State T) :
      Reachable1 operator_new me s → push operator_new fuel v s = .ok s1 →
        Reachable1 operator_new me s1
  | pop (fuel : Nat) (r : Option T) (s s1 : State T) :
      Reachable1 operator_new me s → pop fuel me s = .ok (r, s1) →
        Reachable1 operator_new me s1

/-- Thread `me` has a slot or can get one. -/
def slot_available {T : Type} (s : State T) (me : thread_id) : Prop :=
  s.hazard me ≠ none ∨ ∃ j : Fin max_hazard_pointers, (s.hazard_pointers j).id = none

/-- The initial state after `push(5)`, with the allocator `bump_allocator`. -/
def after_push : State Nat :=
  { (State.init : State Nat) with heap := ⟨[(1, ⟨some 5, none⟩)]⟩, head_ := some 1 }

/-- The state after thread 7 has then popped the value 5. -/
def after_push_pop : State Nat :=
  { (State.init : State Nat) with
    hazard_pointers :=
      store_pointer (store_pointer (store_id Registry.init 0 (some 7)) 0 (some 1)) 0 none
    hazard := Function.update (fun _ => none) 7 (some 0)
    heap := ⟨[]⟩
    deleted := [1] }

/-- Thread `me` runs a sequence of operations on the hazard-pointer stack; the results of the
pops in call order. -/
def run_ops {T : Type} (operator_new : Heap (node T) → Addr) (fuel : Nat) (me : thread_id) :
    List (StackOp T) → State T → Except Fault (List (Option T) × State T)
  | [], s => .ok ([], s)
  | .push v :: ops, s =>
    match push operator_new fuel v s with
    | .error e => .error e
    | .ok s1 => run_ops operator_new fuel me ops s1
  | .pop :: ops, s =>
    match pop fuel me s with
    | .error e => .error e
    | .ok (r, s1) =>
      match run_ops operator_new fuel me ops s1 with
      | .error e => .error e
      | .ok (rs, s2) => .ok (r :: rs, s2)

end HazardPtrs

namespace RefCounting

open Mem

/-- A sequence of operations run on the reference-counted stack; the results of the pops in
call order. -/
def run_ops {T : Type} (operator_new : Heap (control_block T) → Addr) (fuel : Nat) :
    List (StackOp T) → State T → Except Fault (List (Option T) × State T)
  | [], s => .ok ([], s)
  | .push v :: ops, s =>
    match push operator_new fuel v s with
    | .error e => .error e
    | .ok s1 => run_ops operator_new fuel ops s1
  | .pop :: ops, s =>
    match pop fuel s with
    | .error e => .error e
    | .ok (r, s1) =>
      match run_ops operator_new fuel ops s1 with
      | .error e => .error e
      | .ok (rs, s2) => .ok (r :: rs, s2)

end RefCounting

namespace HazardPtrs

open Mem

/-! ## The loops of `pop` under interference

Between any two atomic operations of the calling thread the other threads may change the
state. `env k` is what they do right before the `k`-th atomic operation of the caller. They
never write the protected address of the caller's slot (only the owner of a slot stores to its
`pointer`). -/

/-- What the caller does to `head_` and to its slot, in program order. -/
inductive PopEvent where
  /-- The store `hp.store(p)`. -/
  | publish (p : Ptr)
  /-- A load of `head_` (by `head_.load()` or by a failed compare-and-swap) returned `p`. -/
  | read (p : Ptr)
  /-- The call `head_.compare_exchange_strong(old_head, old_head->next)` was attempted with
  `old_head = candidate` while the caller's slot held `slot`; `success` is its result. -/
  | cas (candidate : Ptr) (slot : Ptr) (success : Bool)
deriving DecidableEq, Repr

/-- The inner `do ... while (temp != old_head)` loop under interference: the events, and the
final `old_head`, operation counter and state. -/
def pop_publish_env {T : Type} (env : Nat → State T → State T)
    (hp : Fin max_hazard_pointers) :
    Nat → Nat → Ptr → State T → List PopEvent × Except Fault (Ptr × Nat × State T)
  | 0, _, _, _ => ([], .error .out_of_fuel)
  | fuel + 1, k, old_head, s =>
    let temp := old_head
    let s1 := env k s
    let s2 := { s1 with hazard_pointers := store_pointer s1.hazard_pointers hp old_head }
    let s3 := env (k + 1) s2
    let old_head1 := s3.head_
    if temp ≠ old_head1 then
      let rest := pop_publish_env env hp fuel (k + 2) old_head1 s3
      (.publish old_head :: .read old_head1 :: rest.1, rest.2)
    else
      ([.publish old_head, .read old_head1], .ok (old_head1, k + 2, s3))

/-- The outer `do ... while (old_head && !head_.compare_exchange_strong(...))` loop under
interference: the events, and the unlinked node (or `nullptr`) with the state. -/
def pop_unlink_env {T : Type} (env : Nat → State T → State T)
    (hp : Fin max_hazard_pointers) :
    Nat → Nat → Ptr → State T → List PopEvent × Except Fault (Ptr × State T)
  | 0, _, _, _ => ([], .error .out_of_fuel)
  | fuel + 1, k, old_head, s =>
    match pop_publish_env env hp (fuel + 1) k old_head s with
    | (ev, .error e) => (ev, .error e)
    | (ev, .ok (none, _, s1)) => (ev, .ok (none, s1))
    | (ev, .ok (some a, k1, s1)) =>
      let s2 := env k1 s1
      match s2.heap.read a with
      | none => (ev, .error .invalid_pointer)
      | some n =>
        let s3 := env (k1 + 1) s2
        let slot := (s3.hazard_pointers hp).pointer
        match compare_exchange_head s3 (some a) n.next with
        | (true, _, s4) => (ev ++ [.cas (some a) slot true], .ok (some a, s4))
        | (false, seen, s4) =>
          let rest := pop_unlink_env env hp fuel (k1 + 2) seen s4
          (ev ++ .cas (some a) slot false :: .read seen :: rest.1, rest.2)

/-- Lines 139-149 of `pop` under interference: the first load of `head_`, then the loops. -/
def pop_loops_env {T : Type} (env : Nat → State T → State T)
    (hp : Fin max_hazard_pointers) (fuel : Nat) (s : State T) :
    List PopEvent × Except Fault (Ptr × State T) :=
  let s1 := env 0 s
  let rest := pop_unlink_env env hp fuel 1 s1.head_ s1
  (.read s1.head_ :: rest.1, rest.2)

/-- What is known while checking a trace: the last published address, the last value read from
`head_`, and whether something was published since the last compare-and-swap. -/
structure TraceCheck where
  published : Option Ptr
  seen : Option Ptr
  fresh : Bool
deriving DecidableEq, Repr

/-- One event of the check: a compare-and-swap is accepted only if its candidate is the last
address published, the last value read from `head_` and the address the slot holds, and if
there was a publication since the previous compare-and-swap. -/
def check_event (c : TraceCheck) : PopEvent → Option TraceCheck
  | .publish p => some { c with published := some p, fresh := true }
  | .read p => some { c with seen := some p }
  | .cas candidate slot _ =>
    if c.published = some candidate ∧ c.seen = some candidate ∧ slot = candidate ∧
        c.fresh = true then
      some { c with fresh := false }
    else
      none

/-- Check a trace from a given knowledge; `none` when some compare-and-swap is rejected. -/
def check_trace : TraceCheck → List PopEvent → Option TraceCheck
  | c, [] => some c
  | c, e :: es =>
    match check_event c e with
    | none => none
    | some c1 => check_trace c1 es

/-- Every compare-and-swap of the trace is accepted. -/
def trace_ok (tr : List PopEvent) : Bool :=
  (check_trace ⟨none, none, false⟩ tr).isSome

/-- A stack holding the value 5 in node 1, with a node 2 allocated but not linked; thread 7
holds slot 0. -/
def racing_state : State Nat :=
  { one_thread_state with
    heap := ⟨[(1, ⟨some 5, none⟩), (2, ⟨some 6, some 1⟩)]⟩, head_ := some 1 }

/-- Interference: right before the fifth atomic operation of the caller (its first
compare-and-swap) another thread links node 2 in front of node 1. -/
def push_before_cas_env (k : Nat) (s : State Nat) : State Nat :=
  if k = 4 then { s with head_ := some 2 } else s

end HazardPtrs

namespace HazardPtrs

open Mem

/-! ## The stack at the granularity of single atomic operations

Every access of `push`, `pop`, `reclaim_later` and `delete_nodes_with_no_hazards` to shared
memory is a sequentially consistent atomic operation (the source uses the default memory
order everywhere) or an access to a node that the code treats as its own. `System`
interleaves these operations of any number of threads: a thread does one of them per step,
and any other thread may run in between. The loop of `outstanding_hazard_pointers_for` reads
one slot per step. `add_to_reclaim_list` is the one step of its successful compare-and-swap:
its failed attempts only rewrite the `next` field of the entry, which no other thread can
reach. -/

/-- Where a thread stands inside `push`, `pop` or the destructor of its `hp_owner`, with the
values of its local variables. Each position names the operation the thread does next. -/
inductive stack_pc (T : Type) where
  /-- Between operations. -/
  | idle
  /-- Line 129: `new node(data)`. -/
  | push_new (data : T)
  /-- Line 130: `new_node->next = head_.load()`. -/
  | push_load (new_node : Addr)
  /-- Line 131: `head_.compare_exchange_weak(new_node->next, new_node)`. -/
  | push_cas (new_node : Addr)
  /-- Lines 23-30: one pass of the loop of `hp_owner()`, at index `i`. -/
  | pop_owner (i : Nat)
  /-- Line 138: `old_head = head_.load()`. -/
  | pop_load (hp : Fin max_hazard_pointers)
  /-- Lines 142-143: `temp = old_head; hp.store(old_head)`. -/
  | pop_publish (hp : Fin max_hazard_pointers) (old_head : Ptr)
  /-- Lines 144-147: `old_head = head_.load()`, the test `temp != old_head` and, when the
  inner loop ends, the test `old_head` of the outer loop. -/
  | pop_recheck (hp : Fin max_hazard_pointers) (temp : Ptr)
  /-- Line 148: the read of `old_head->next`, the argument of the compare-and-swap. -/
  | pop_next (hp : Fin max_hazard_pointers) (old_head : Addr)
  /-- Line 148: `head_.compare_exchange_strong(old_head, next)`. -/
  | pop_cas (hp : Fin max_hazard_pointers) (old_head : Addr) (next : Ptr)
  /-- Line 150: `hp.store(nullptr)`, then the test `if (old_head)`. -/
  | pop_clear (hp : Fin max_hazard_pointers) (old_head : Ptr)
  /-- Line 155: `result.swap(old_head->data)`. -/
  | pop_swap (old_head : Addr)
  /-- Line 156: inside `outstanding_hazard_pointers_for(old_head)`, about to read slot `i`. -/
  | pop_check (old_head : Addr) (result : Option T) (i : Nat)
  /-- Line 157: `reclaim_later(old_head)`. -/
  | pop_later (old_head : Addr) (result : Option T)
  /-- Line 159: `delete old_head`. -/
  | pop_delete (old_head : Addr) (result : Option T)
  /-- Line 99: `current = nodes_to_reclaim.exchange(nullptr)`. -/
  | sweep_exchange (result : Option T)
  /-- Lines 100-101: the test `while (current)` and the read of `current->next`. -/
  | sweep_loop (result : Option T) (current : List data_to_reclaim)
  /-- Line 102: inside `outstanding_hazard_pointers_for(current->data)`, about to read
  slot `i`. -/
  | sweep_check (result : Option T) (current : data_to_reclaim) (next : List data_to_reclaim)
      (i : Nat)
  /-- Line 103: `delete current`. -/
  | sweep_delete (result : Option T) (current : data_to_reclaim) (next : List data_to_reclaim)
  /-- Line 105: `add_to_reclaim_list(current)`. -/
  | sweep_add (result : Option T) (current : data_to_reclaim) (next : List data_to_reclaim)
  /-- Line 43: `hp_->id.store(std::thread::id())`. -/
  | exit_id (hp : Fin max_hazard_pointers)
deriving Repr

/-- One pass of the loop of `outstanding_hazard_pointers_for(p)` at index `i`: `some true`
when slot `i` holds `p`, `some false` when the loop has run off the array, `none` when the
loop goes on to index `i + 1`. -/
def outstanding_step (reg : Registry) (p : Ptr) (i : Nat) : Option Bool :=
  if h : i < max_hazard_pointers then
    if (reg ⟨i, h⟩).pointer = p then some true else none
  else
    some false

/-- The next atomic operation of thread `t` standing at the given position: its new position,
the shared state afterwards, and the value `pop` hands to its caller when the step returns
from `pop` with a payload. -/
def thread_step {T : Type} (operator_new : Heap (node T) → Addr) (t : thread_id) :
    stack_pc T → State T → Except Fault (stack_pc T × State T × Option T)
  | .idle, s => .ok (.idle, s, none)
  | .push_new data, s =>
    let new_node := operator_new s.heap
    .ok (.push_load new_node, { s with heap := s.heap.write new_node ⟨some data, none⟩ }, none)
  | .push_load new_node, s =>
    match s.heap.read new_node with
    | none => .error .invalid_pointer
    | some n =>
      .ok (.push_cas new_node,
        { s with heap := s.heap.write new_node { n with next := s.head_ } }, none)
  | .push_cas new_node, s =>
    match s.heap.read new_node with
    | none => .error .invalid_pointer
    | some n =>
      match compare_exchange_head s n.next (some new_node) with
      | (true, _, s1) => .ok (.idle, s1, none)
      | (false, seen, s1) =>
        .ok (.push_cas new_node,
          { s1 with heap := s1.heap.write new_node { n with next := seen } }, none)
  | .pop_owner i, s =>
    if h : i < max_hazard_pointers then
      match compare_exchange_id s.hazard_pointers ⟨i, h⟩ none (some t) with
      | (true, reg) =>
        .ok (.pop_load ⟨i, h⟩,
          { s with hazard_pointers := reg, hazard := Function.update s.hazard t (some ⟨i, h⟩) },
          none)
      | (false, reg) => .ok (.pop_owner (i + 1), { s with hazard_pointers := reg }, none)
    else
      -- throw std::runtime_error: the exception leaves `pop`
      .ok (.idle, s, none)
  | .pop_load hp, s => .ok (.pop_publish hp s.head_, s, none)
  | .pop_publish hp old_head, s =>
    .ok (.pop_recheck hp old_head,
      { s with hazard_pointers := store_pointer s.hazard_pointers hp old_head }, none)
  | .pop_recheck hp temp, s =>
    let old_head := s.head_
    if temp ≠ old_head then .ok (.pop_publish hp old_head, s, none)
    else
      match old_head with
      | none => .ok (.pop_clear hp none, s, none)
      | some a => .ok (.pop_next hp a, s, none)
  | .pop_next hp old_head, s =>
    match s.heap.read old_head with
    | none => .error .invalid_pointer
    | some n => .ok (.pop_cas hp old_head n.next, s, none)
  | .pop_cas hp old_head next, s =>
    match compare_exchange_head s (some old_head) next with
    | (true, _, s1) => .ok (.pop_clear hp (some old_head), s1, none)
    | (false, seen, s1) => .ok (.pop_publish hp seen, s1, none)
  | .pop_clear hp old_head, s =>
    let s1 := { s with hazard_pointers := store_pointer s.hazard_pointers hp none }
    match old_head with
    | none => .ok (.idle, s1, none)
    | some a => .ok (.pop_swap a, s1, none)
  | .pop_swap old_head, s =>
    match s.heap.read old_head with
    | none => .error .invalid_pointer
    | some n =>
      .ok (.pop_check old_head n.data 0,
        { s with heap := s.heap.write old_head { n with data := none } }, none)
  | .pop_check old_head result i, s =>
    match outstanding_step s.hazard_pointers (some old_head) i with
    | some true => .ok (.pop_later old_head result, s, none)
    | some false => .ok (.pop_delete old_head result, s, none)
    | none => .ok (.pop_check old_head result (i + 1), s, none)
  | .pop_later old_head result, s =>
    .ok (.sweep_exchange result, reclaim_later (some old_head) s, none)
  | .pop_delete old_head result, s =>
    match do_delete (some old_head) s with
    | .error e => .error e
    | .ok s1 => .ok (.sweep_exchange result, s1, none)
  | .sweep_exchange result, s =>
    .ok (.sweep_loop result s.nodes_to_reclaim, { s with nodes_to_reclaim := [] }, none)
  | .sweep_loop result [], s => .ok (.idle, s, result)
  | .sweep_loop result (current :: next), s => .ok (.sweep_check result current next 0, s, none)
  | .sweep_check result current next i, s =>
    match outstanding_step s.hazard_pointers current.data i with
    | some true => .ok (.sweep_add result current next, s, none)
    | some false => .ok (.sweep_delete result current next, s, none)
    | none => .ok (.sweep_check result current next (i + 1), s, none)
  | .sweep_delete result current next, s =>
    match do_delete current.data s with
    | .error e => .error e
    | .ok s1 => .ok (.sweep_loop result next, s1, none)
  | .sweep_add result current next, s =>
    .ok (.sweep_loop result next, add_to_reclaim_list current s, none)
  | .exit_id hp, s =>
    .ok (.idle,
      { s with hazard_pointers := store_id s.hazard_pointers hp none
               hazard := Function.update s.hazard t none }, none)

/-- The shared state, the position of every thread, and two ghost histories: the values
passed to `push` and the payloads returned by `pop`, latest first. -/
structure System (T : Type) where
  shared : State T
  pc : thread_id → stack_pc T
  pushed : List T
  returned : List T

/-- Program start: an empty stack and no thread inside an operation. -/
def System.init {T : Type} : System T := ⟨State.init, fun _ => .idle, [], []⟩

/-- What the scheduler and the callers decide. -/
inductive Event (T : Type) where
  /-- Thread `t`, between operations, calls `push(data)`. -/
  | push (t : thread_id) (data : T)
  /-- Thread `t`, between operations, calls `pop()`. -/
  | pop (t : thread_id)
  /-- Thread `t` does its next atomic operation. -/
  | step (t : thread_id)
  /-- Thread `t`, between operations, ends: `~hp_owner()` starts with line 42,
  `hp_->pointer.store(nullptr)`. -/
  | exit (t : thread_id)
deriving Repr

/-- Effect of one event; an event that is not enabled leaves the system unchanged. -/
def system_step {T : Type} (operator_new : Heap (node T) → Addr) :
    Event T → System T → Except Fault (System T)
  | .push t data, s =>
    match s.pc t with
    | .idle =>
      .ok { s with pc := Function.update s.pc t (.push_new data), pushed := data :: s.pushed }
    | _ => .ok s
  | .pop t, s =>
    match s.pc t with
    | .idle =>
      match s.shared.hazard t with
      | some hp => .ok { s with pc := Function.update s.pc t (.pop_load hp) }
      | none => .ok { s with pc := Function.update s.pc t (.pop_owner 0) }
    | _ => .ok s
  | .step t, s =>
    match thread_step operator_new t (s.pc t) s.shared with
    | .error e => .error e
    | .ok (pc1, shared1, out) =>
      .ok { shared := shared1
            pc := Function.update s.pc t pc1
            pushed := s.pushed
            returned := out.toList ++ s.returned }
  | .exit t, s =>
    match s.pc t with
    | .idle =>
      match s.shared.hazard t with
      | some hp =>
        .ok { s with
              shared := { s.shared with
                          hazard_pointers := store_pointer s.shared.hazard_pointers hp none }
              pc := Function.update s.pc t (.exit_id hp) }
      | none => .ok s
    | _ => .ok s

/-- Run a schedule, first event first. -/
def system_run {T : Type} (operator_new : Heap (node T) → Addr) :
    List (Event T) → System T → Except Fault (System T)
  | [], s => .ok s
  | e :: es, s =>
    match system_step operator_new e s with
    | .error f => .error f
    | .ok s1 => system_run operator_new es s1

/-- Ghost bookkeeping: who may touch the node at an address. -/
inductive Place where
  /-- Reachable from `head_`. -/
  | linked
  /-- On the global list `nodes_to_reclaim`. -/
  | pending
  /-- Allocated by a `push` of thread `t` that has not linked it yet. -/
  | fresh (t : thread_id)
  /-- Unlinked by a `pop` of thread `t`, or on the list a sweep of `t` has detached. -/
  | held (t : thread_id)
deriving DecidableEq, Repr

/-- The node has been linked at some time: it is not the unpublished node of a `push`. -/
def Place.published : Place → Prop
  | .fresh _ => False
  | _ => True

/-- The protection a thread relies on: between its successful recheck and its
compare-and-swap it dereferences the node whose address it has published in its slot. -/
def guard {T : Type} : stack_pc T → Option (Fin max_hazard_pointers × Addr)
  | .pop_next hp a => some (hp, a)
  | .pop_cas hp a _ => some (hp, a)
  | _ => none

/-- The address a thread is checking the slots for, with the index of the next slot it reads;
a thread about to free has read them all. -/
def probe {T : Type} : stack_pc T → Option (Ptr × Nat)
  | .pop_check a _ i => some (some a, i)
  | .pop_delete a _ => some (some a, max_hazard_pointers)
  | .sweep_check _ e _ i => some (e.data, i)
  | .sweep_delete _ e _ => some (e.data, max_hazard_pointers)
  | _ => none

/-- The entries of a detached list: distinct, each for a live node held by thread `t`. -/
def entries_ok {T : Type} (place : Addr → Place) (s : State T) (t : thread_id)
    (l : List data_to_reclaim) : Prop :=
  l.Nodup ∧ ∀ e ∈ l, ∃ a, e.data = some a ∧ place a = .held t ∧ s.heap.read a ≠ none

/-- The node at `a` is live and carries the payload `d`. -/
def carries {T : Type} (s : State T) (a : Addr) (d : T) : Prop :=
  ∃ nxt, s.heap.read a = some ⟨some d, nxt⟩

/-- What the position of thread `t` promises about the shared state; `v` are the payloads in
the hands of the thread: passed to its `push` and not linked yet, or unlinked by its `pop`
and not returned yet. -/
def pc_ok {T : Type} (place : Addr → Place) (s : State T) (t : thread_id) (v : Multiset T) :
    stack_pc T → Prop
  | .idle => v = 0
  | .push_new data => v = {data}
  | .push_load a => place a = .fresh t ∧ ∃ d, carries s a d ∧ v = {d}
  | .push_cas a => place a = .fresh t ∧ ∃ d, carries s a d ∧ v = {d}
  | .pop_owner _ => v = 0 ∧ s.hazard t = none
  | .pop_load hp => v = 0 ∧ s.hazard t = some hp
  | .pop_publish hp _ => v = 0 ∧ s.hazard t = some hp
  | .pop_recheck hp temp =>
    v = 0 ∧ s.hazard t = some hp ∧ (s.hazard_pointers hp).pointer = temp
  | .pop_next hp a =>
    v = 0 ∧ s.hazard t = some hp ∧ (s.hazard_pointers hp).pointer = some a ∧
      (place a).published ∧ s.heap.read a ≠ none
  | .pop_cas hp a nxt =>
    v = 0 ∧ s.hazard t = some hp ∧ (s.hazard_pointers hp).pointer = some a ∧
      (place a).published ∧ ∃ n, s.heap.read a = some n ∧ n.next = nxt
  | .pop_clear hp none => v = 0 ∧ s.hazard t = some hp
  | .pop_clear hp (some a) =>
    s.hazard t = some hp ∧ place a = .held t ∧ ∃ d, carries s a d ∧ v = {d}
  | .pop_swap a => place a = .held t ∧ ∃ d, carries s a d ∧ v = {d}
  | .pop_check a r _ => place a = .held t ∧ s.heap.read a ≠ none ∧ v = r.toList
  | .pop_later a r => place a = .held t ∧ s.heap.read a ≠ none ∧ v = r.toList
  | .pop_delete a r => place a = .held t ∧ s.heap.read a ≠ none ∧ v = r.toList
  | .sweep_exchange r => v = r.toList
  | .sweep_loop r cur => v = r.toList ∧ entries_ok place s t cur
  | .sweep_check r e nxt _ => v = r.toList ∧ entries_ok place s t (e :: nxt)
  | .sweep_delete r e nxt => v = r.toList ∧ entries_ok place s t (e :: nxt)
  | .sweep_add r e nxt => v = r.toList ∧ entries_ok place s t (e :: nxt)
  | .exit_id hp => v = 0 ∧ s.hazard t = some hp

/-- The invariant of the interleaved system, for the ghost bookkeeping `place` (who may touch
which node), `val` (the payloads in the hands of each thread), `live` (the threads that have
ever left `idle`) and `cs` (the linked nodes, top first). -/
structure SysInv {T : Type} (s : System T) (place : Addr → Place)
    (val : thread_id → Multiset T) (live : Finset thread_id) (cs : List (Addr × T)) : Prop where
  /-- The `next` links from `head_` run through `cs`. -/
  linked : Linked s.shared.heap s.shared.head_ cs
  nodup : (cs.map Prod.fst).Nodup
  linked_place : ∀ c ∈ cs, place c.1 = .linked
  /-- The pending list holds distinct entries for live nodes. -/
  pending_nodup : s.shared.nodes_to_reclaim.Nodup
  pending_place : ∀ e ∈ s.shared.nodes_to_reclaim,
    ∃ a, e.data = some a ∧ place a = .pending ∧ s.shared.heap.read a ≠ none
  /-- A slot names the thread whose owner object sits on it. -/
  owner : ∀ t hp, s.shared.hazard t = some hp → (s.shared.hazard_pointers hp).id = some t
  /-- Every thread is where its position says. -/
  threads : ∀ t, pc_ok place s.shared t (val t) (s.pc t)
  /-- A thread checking the slots for `a` has not yet passed the slot of a thread that
  relies on its protection of `a`. -/
  scan : ∀ t u hp a i, guard (s.pc t) = some (hp, a) → probe (s.pc u) = some (some a, i) →
    i ≤ hp.val
  /-- Only finitely many threads hold payloads. -/
  support : ∀ t, t ∉ live → val t = 0
  /-- Every pushed payload is returned, linked, or in the hands of a thread. -/
  account : (s.pushed : Multiset T) =
    (s.returned : Multiset T) + ((cs.map Prod.snd : List T) : Multiset T) + live.sum val

/-- States of the interleaved system that a schedule reaches from program start. -/
def SysReachable {T : Type} (operator_new : Heap (node T) → Addr) (s : System T) : Prop :=
  ∃ es, system_run operator_new es System.init = .ok s

/-- Some bookkeeping makes the invariant hold. -/
def Good {T : Type} (s : System T) : Prop :=
  ∃ place val live cs, SysInv s place val live cs

/-- The event does not fault and leads to a state in which the invariant holds again. -/
def GoodNext {T : Type} (operator_new : Heap (node T) → Addr) (e : Event T) (s : System T) :
    Prop :=
  ∃ s1, system_step operator_new e s = .ok s1 ∧ Good s1

end HazardPtrs

/-! # Theorems -/

namespace Mem

theorem Heap.read_cons {α : Type} (x : Addr) (v : α) (cs : List (Addr × α)) (b : Addr) :
    Heap.read ⟨(x, v) :: cs⟩ b = if x = b then some v else Heap.read ⟨cs⟩ b := by
  by_cases hx : x = b <;> simp [Heap.read, List.find?_cons, hx]

theorem Heap.free_cons {α : Type} (x : Addr) (v : α) (cs : List (Addr × α)) (a : Addr) :
    Heap.free ⟨(x, v) :: cs⟩ a
      = if x = a then Heap.free ⟨cs⟩ a else ⟨(x, v) :: (Heap.free ⟨cs⟩ a).cells⟩ := by
  by_cases hx : x = a <;> simp [Heap.free, List.filter_cons, hx]

theorem Heap.read_free {α : Type} (h : Heap α) (a b : Addr) :
    (h.free a).read b = if b = a then none else h.read b := by
  obtain ⟨cells⟩ := h
  induction cells with
  | nil => simp [Heap.read, Heap.free]
  | cons c cs ih =>
    obtain ⟨x, v⟩ := c
    rw [Heap.free_cons]
    by_cases hx : x = a
    · rw [if_pos hx, ih, Heap.read_cons]
      by_cases hb : b = a
      · simp [hb]
      · have : ¬ x = b := fun e => hb (e.symm.trans hx)
        simp [hb, this]
    · rw [if_neg hx, Heap.read_cons, Heap.read_cons, ih]
      by_cases hxb : x = b
      · have : ¬ b = a := fun e => hx (hxb.trans e)
        simp [hxb, this]
      · simp [hxb]

theorem Heap.read_free_same {α : Type} (h : Heap α) (a : Addr) : (h.free a).read a = none := by
  simp [Heap.read_free]

theorem Heap.read_free_ne {α : Type} (h : Heap α) {a b : Addr} (hne : b ≠ a) :
    (h.free a).read b = h.read b := by
  simp [Heap.read_free, hne]

theorem Heap.read_write {α : Type} (h : Heap α) (a b : Addr) (v : α) :
    (h.write a v).read b = if b = a then some v else h.read b := by
  unfold Heap.write
  rw [Heap.read_cons]
  by_cases hb : b = a
  · simp [hb]
  · have : ¬ a = b := fun e => hb e.symm
    simp only [if_neg this, if_neg hb]
    exact Heap.read_free_ne h hb

theorem Heap.read_write_same {α : Type} (h : Heap α) (a : Addr) (v : α) :
    (h.write a v).read a = some v := by
  simp [Heap.read_write]

theorem Heap.read_write_ne {α : Type} (h : Heap α) {a b : Addr} (v : α) (hne : b ≠ a) :
    (h.write a v).read b = h.read b := by
  simp [Heap.read_write, hne]

theorem Heap.read_empty {α : Type} (a : Addr) : (Heap.empty : Heap α).read a = none := rfl

end Mem

namespace HazardPtrs
open Mem

theorem compare_exchange_id_fail {reg : Registry} {i : Fin max_hazard_pointers}
    {e d : Option thread_id} (h : (reg i).id ≠ e) :
    compare_exchange_id reg i e d = (false, reg) := by
  simp [compare_exchange_id, h]

theorem compare_exchange_id_ok {reg : Registry} {i : Fin max_hazard_pointers}
    {e d : Option thread_id} (h : (reg i).id = e) :
    compare_exchange_id reg i e d = (true, store_id reg i d) := by
  simp [compare_exchange_id, h, store_id]

theorem hp_owner_loop_some (me : thread_id) :
    ∀ (fuel i : Nat) (reg reg1 : Registry) (slot : Fin max_hazard_pointers),
      hp_owner_loop me fuel i reg = (some slot, reg1) →
        i ≤ slot.val ∧ (reg slot).id = none ∧
        (∀ j : Fin max_hazard_pointers, i ≤ j.val → j.val < slot.val → (reg j).id ≠ none) ∧
        reg1 = store_id reg slot (some me) := by
  intro fuel
  induction fuel with
  | zero => intro i reg reg1 slot h; simp [hp_owner_loop] at h
  | succ fuel ih =>
    intro i reg reg1 slot h
    unfold hp_owner_loop at h
    by_cases hi : i < max_hazard_pointers
    · rw [dif_pos hi] at h
      by_cases hid : (reg ⟨i, hi⟩).id = none
      · rw [compare_exchange_id_ok hid] at h
        simp only [Prod.mk.injEq, Option.some.injEq] at h
        obtain ⟨h1, h2⟩ := h
        subst h1
        refine ⟨le_refl _, hid, ?_, h2.symm⟩
        intro j hj1 hj2
        exact absurd hj2 (by simpa using hj1)
      · rw [compare_exchange_id_fail hid] at h
        obtain ⟨h1, h2, h3, h4⟩ := ih (i + 1) reg reg1 slot h
        refine ⟨by omega, h2, ?_, h4⟩
        intro j hj1 hj2
        by_cases hji : j.val = i
        · have : j = ⟨i, hi⟩ := Fin.ext hji
          rw [this]; exact hid
        · exact h3 j (by omega) hj2
    · rw [dif_neg hi] at h
      simp at h

theorem hp_owner_loop_none (me : thread_id) :
    ∀ (fuel i : Nat) (reg reg1 : Registry), max_hazard_pointers ≤ i + fuel →
      hp_owner_loop me fuel i reg = (none, reg1) →
        (∀ j : Fin max_hazard_pointers, i ≤ j.val → (reg j).id ≠ none) ∧ reg1 = reg := by
  intro fuel
  induction fuel with
  | zero =>
    intro i reg reg1 hf h
    simp only [hp_owner_loop, Prod.mk.injEq, true_and] at h
    refine ⟨?_, h.symm⟩
    intro j hj
    exact absurd j.isLt (by omega)
  | succ fuel ih =>
    intro i reg reg1 hf h
    unfold hp_owner_loop at h
    by_cases hi : i < max_hazard_pointers
    · rw [dif_pos hi] at h
      by_cases hid : (reg ⟨i, hi⟩).id = none
      · rw [compare_exchange_id_ok hid] at h
        simp at h
      · rw [compare_exchange_id_fail hid] at h
        obtain ⟨h1, h2⟩ := ih (i + 1) reg reg1 (by omega) h
        refine ⟨?_, h2⟩
        intro j hj
        by_cases hji : j.val = i
        · have : j = ⟨i, hi⟩ := Fin.ext hji
          rw [this]; exact hid
        · exact h1 j (by omega)
    · rw [dif_neg hi] at h
      simp only [Prod.mk.injEq, true_and] at h
      refine ⟨?_, h.symm⟩
      intro j hj
      exact absurd j.isLt (by omega)

theorem hp_owner_loop_full (me : thread_id) :
    ∀ (fuel i : Nat) (reg : Registry),
      (∀ j : Fin max_hazard_pointers, i ≤ j.val → (reg j).id ≠ none) →
        hp_owner_loop me fuel i reg = (none, reg) := by
  intro fuel
  induction fuel with
  | zero => intro i reg _; rfl
  | succ fuel ih =>
    intro i reg hall
    unfold hp_owner_loop
    by_cases hi : i < max_hazard_pointers
    · rw [dif_pos hi, compare_exchange_id_fail (hall ⟨i, hi⟩ (le_refl _))]
      exact ih (i + 1) reg (fun j hj => hall j (by omega))
    · rw [dif_neg hi]

/-- The constructor throws exactly on a registry with no unowned slot. -/
theorem hp_owner_ctor_error_iff (me : thread_id) (reg : Registry) :
    hp_owner_ctor me reg = .error .runtime_error ↔
      ∀ j : Fin max_hazard_pointers, (reg j).id ≠ none := by
  unfold hp_owner_ctor
  constructor
  · intro h
    rcases hl : hp_owner_loop me max_hazard_pointers 0 reg with ⟨r, reg1⟩
    rw [hl] at h
    cases r with
    | some slot => simp at h
    | none =>
      intro j
      exact (hp_owner_loop_none me _ 0 reg reg1 (by omega) hl).1 j (Nat.zero_le _)
  · intro h
    rw [hp_owner_loop_full me _ 0 reg (fun j _ => h j)]

/-- What a successful constructor did. -/
theorem hp_owner_ctor_ok (me : thread_id) (reg reg1 : Registry)
    (slot : Fin max_hazard_pointers) (h : hp_owner_ctor me reg = .ok (slot, reg1)) :
    (reg slot).id = none ∧
    (∀ j : Fin max_hazard_pointers, j.val < slot.val → (reg j).id ≠ none) ∧
    reg1 = store_id reg slot (some me) := by
  unfold hp_owner_ctor at h
  rcases hl : hp_owner_loop me max_hazard_pointers 0 reg with ⟨r, reg2⟩
  rw [hl] at h
  cases r with
  | none => simp at h
  | some slot2 =>
    simp only [Except.ok.injEq, Prod.mk.injEq] at h
    obtain ⟨h1, h2⟩ := h
    subst h1 h2
    obtain ⟨_, ha, hb, hc⟩ := hp_owner_loop_some me _ 0 reg reg2 slot2 hl
    exact ⟨ha, fun j hj => hb j (Nat.zero_le _) hj, hc⟩

/-- The constructor either claims a slot or throws `runtime_error`. -/
theorem hp_owner_ctor_cases (me : thread_id) (reg : Registry) :
    hp_owner_ctor me reg = .error .runtime_error ∨
      ∃ slot, hp_owner_ctor me reg = .ok (slot, store_id reg slot (some me)) := by
  unfold hp_owner_ctor
  rcases hl : hp_owner_loop me max_hazard_pointers 0 reg with ⟨r, reg2⟩
  cases r with
  | none => left; rfl
  | some slot =>
    right
    refine ⟨slot, ?_⟩
    rw [(hp_owner_loop_some me _ 0 reg reg2 slot hl).2.2.2]

theorem store_id_same (reg : Registry) (i : Fin max_hazard_pointers) (t : Option thread_id) :
    store_id reg i t i = ⟨t, (reg i).pointer⟩ := by
  simp [store_id]

theorem store_id_ne (reg : Registry) {i j : Fin max_hazard_pointers} (t : Option thread_id)
    (h : j ≠ i) : store_id reg i t j = reg j := by
  simp [store_id, Function.update_noteq h]

theorem store_id_pointer (reg : Registry) (i j : Fin max_hazard_pointers)
    (t : Option thread_id) : (store_id reg i t j).pointer = (reg j).pointer := by
  by_cases h : j = i
  · subst h; simp [store_id]
  · rw [store_id_ne reg t h]

theorem store_pointer_same (reg : Registry) (i : Fin max_hazard_pointers) (p : Ptr) :
    store_pointer reg i p i = ⟨(reg i).id, p⟩ := by
  simp [store_pointer]

theorem store_pointer_ne (reg : Registry) {i j : Fin max_hazard_pointers} (p : Ptr)
    (h : j ≠ i) : store_pointer reg i p j = reg j := by
  simp [store_pointer, Function.update_noteq h]

theorem store_pointer_id (reg : Registry) (i j : Fin max_hazard_pointers) (p : Ptr) :
    (store_pointer reg i p j).id = (reg j).id := by
  by_cases h : j = i
  · subst h; simp [store_pointer]
  · rw [store_pointer_ne reg p h]

theorem outstanding_loop_iff (reg : Registry) (p : Ptr) :
    ∀ (fuel i : Nat), max_hazard_pointers ≤ i + fuel →
      (outstanding_loop reg p fuel i = true ↔
        ∃ j : Fin max_hazard_pointers, i ≤ j.val ∧ (reg j).pointer = p) := by
  intro fuel
  induction fuel with
  | zero =>
    intro i hf
    simp only [outstanding_loop, Bool.false_eq_true, false_iff, not_exists, not_and]
    intro j hj
    exact absurd j.isLt (by omega)
  | succ fuel ih =>
    intro i hf
    unfold outstanding_loop
    by_cases hi : i < max_hazard_pointers
    · rw [dif_pos hi]
      by_cases hp : (reg ⟨i, hi⟩).pointer = p
      · rw [if_pos hp]
        simp only [true_iff]
        exact ⟨⟨i, hi⟩, le_refl _, hp⟩
      · rw [if_neg hp, ih (i + 1) (by omega)]
        constructor
        · rintro ⟨j, hj, hjp⟩
          exact ⟨j, by omega, hjp⟩
        · rintro ⟨j, hj, hjp⟩
          refine ⟨j, ?_, hjp⟩
          by_contra hlt
          have hji : j.val = i := by omega
          have : j = ⟨i, hi⟩ := Fin.ext hji
          rw [this] at hjp
          exact hp hjp
    · rw [dif_neg hi]
      simp only [Bool.false_eq_true, false_iff, not_exists, not_and]
      intro j hj
      exact absurd j.isLt (by omega)

theorem outstanding_iff (reg : Registry) (p : Ptr) :
    outstanding_hazard_pointers_for reg p = true ↔
      ∃ j : Fin max_hazard_pointers, (reg j).pointer = p := by
  unfold outstanding_hazard_pointers_for
  rw [outstanding_loop_iff reg p _ 0 (by omega)]
  constructor
  · rintro ⟨j, _, h⟩; exact ⟨j, h⟩
  · rintro ⟨j, h⟩; exact ⟨j, Nat.zero_le _, h⟩

/-! ### Sequential behaviour of the loops of `pop` -/

theorem get_hazard_pointer_of_owner {T : Type} {me : thread_id} {s : State T}
    {hp : Fin max_hazard_pointers} (h : s.hazard me = some hp) :
    get_hazard_pointer_for_current_thread me s = .ok (hp, s) := by
  simp [get_hazard_pointer_for_current_thread, h]

theorem get_hazard_pointer_first {T : Type} {me : thread_id} {s : State T}
    (h : s.hazard me = none) :
    get_hazard_pointer_for_current_thread me s =
      match hp_owner_ctor me s.hazard_pointers with
      | .ok (hp_, reg) =>
        .ok (hp_, { s with hazard_pointers := reg,
                           hazard := Function.update s.hazard me (some hp_) })
      | .error e => .error e := by
  simp [get_hazard_pointer_for_current_thread, h]

theorem get_hazard_pointer_frame {T : Type} {me : thread_id} {s s1 : State T}
    {hp : Fin max_hazard_pointers}
    (h : get_hazard_pointer_for_current_thread me s = .ok (hp, s1)) :
    s1.head_ = s.head_ ∧ s1.heap = s.heap ∧ s1.nodes_to_reclaim = s.nodes_to_reclaim ∧
      s1.deleted = s.deleted ∧ s1.hazard me = some hp := by
  cases hm : s.hazard me with
  | some hp0 =>
    rw [get_hazard_pointer_of_owner hm] at h
    simp only [Except.ok.injEq, Prod.mk.injEq] at h
    obtain ⟨h1, h2⟩ := h
    subst h1 h2
    exact ⟨rfl, rfl, rfl, rfl, hm⟩
  | none =>
    rw [get_hazard_pointer_first hm] at h
    cases hc : hp_owner_ctor me s.hazard_pointers with
    | error e => rw [hc] at h; simp at h
    | ok r =>
      obtain ⟨hp1, reg⟩ := r
      rw [hc] at h
      simp only [Except.ok.injEq, Prod.mk.injEq] at h
      obtain ⟨h1, h2⟩ := h
      subst h1 h2
      exact ⟨rfl, rfl, rfl, rfl, by simp⟩

theorem pop_publish_seq {T : Type} (hp : Fin max_hazard_pointers) (fuel : Nat) (s : State T) :
    pop_publish hp (fuel + 1) s.head_ s =
      .ok (s.head_, { s with hazard_pointers := store_pointer s.hazard_pointers hp s.head_ }) := by
  simp [pop_publish]

theorem pop_unlink_seq_empty {T : Type} (hp : Fin max_hazard_pointers) (fuel : Nat)
    (s : State T) (h : s.head_ = none) :
    pop_unlink hp (fuel + 1) s.head_ s =
      .ok (none, { s with hazard_pointers := store_pointer s.hazard_pointers hp none }) := by
  unfold pop_unlink
  rw [pop_publish_seq, h]

theorem pop_unlink_seq_node {T : Type} (hp : Fin max_hazard_pointers) (fuel : Nat)
    (s : State T) (a : Addr) (n : node T) (h : s.head_ = some a) (hn : s.heap.read a = some n) :
    pop_unlink hp (fuel + 1) s.head_ s =
      .ok (some a, { s with hazard_pointers := store_pointer s.hazard_pointers hp (some a),
                            head_ := n.next }) := by
  unfold pop_unlink
  rw [pop_publish_seq, h]
  simp [hn, compare_exchange_head, h]

/-- C4: `hp_owner()` throws `runtime_error` exactly when every one of the 100 slots has an
owner; in the other case it returns the lowest-indexed unowned slot, whose owner becomes the
caller, while every other slot and every protected address stay as they were. -/
theorem C4_acquire_lowest_free_slot (me : thread_id) (reg : Registry) :
    (hp_owner_ctor me reg = .error .runtime_error ↔
      ∀ j : Fin max_hazard_pointers, (reg j).id ≠ none) ∧
    (hp_owner_ctor me reg = .error .runtime_error ∨
      ∃ (slot : Fin max_hazard_pointers) (reg1 : Registry),
        hp_owner_ctor me reg = .ok (slot, reg1) ∧
        (reg slot).id = none ∧
        (∀ j : Fin max_hazard_pointers, j.val < slot.val → (reg j).id ≠ none) ∧
        (reg1 slot).id = some me ∧
        (∀ j : Fin max_hazard_pointers, j ≠ slot → reg1 j = reg j) ∧
        (∀ j : Fin max_hazard_pointers, (reg1 j).pointer = (reg j).pointer)) := by
  refine ⟨hp_owner_ctor_error_iff me reg, ?_⟩
  rcases hp_owner_ctor_cases me reg with h | ⟨slot, h⟩
  · exact Or.inl h
  · right
    obtain ⟨h1, h2, _⟩ := hp_owner_ctor_ok me reg _ slot h
    refine ⟨slot, _, h, h1, h2, ?_, ?_, ?_⟩
    · rw [store_id_same]
    · intro j hj; exact store_id_ne reg _ hj
    · intro j; exact store_id_pointer reg slot j _

/-- C10: `outstanding_hazard_pointers_for(p)` is true exactly when some slot of the array holds
`p` as its protected address; owners play no part, and the function only reads the array. -/
theorem C10_outstanding_iff_some_slot_holds (reg : Registry) (p : Ptr) :
    outstanding_hazard_pointers_for reg p = true ↔
      ∃ j : Fin max_hazard_pointers, (reg j).pointer = p :=
  outstanding_iff reg p

/-- C3, counterexample: thread 0 owns no slot, the stack is empty and all 100 slots are owned
by other threads; `pop` throws `runtime_error` instead of returning "no value". -/
theorem C3_counterexample_full_registry :
    empty exhausted_state = true ∧ exhausted_state.hazard 0 = none ∧
      pop 1 0 exhausted_state = .error .runtime_error := by
  refine ⟨rfl, rfl, ?_⟩
  have hc : hp_owner_ctor 0 exhausted_state.hazard_pointers = .error .runtime_error :=
    (hp_owner_ctor_error_iff 0 _).2 (fun j => by simp [exhausted_state, full_registry])
  have hg : get_hazard_pointer_for_current_thread 0 exhausted_state
      = .error .runtime_error := by
    rw [get_hazard_pointer_first rfl, hc]
  simp [pop, hg]

/-- On an empty stack `pop` returns "no value" as soon as a slot is available to the caller. -/
theorem pop_empty_ok {T : Type} (fuel : Nat) (me : thread_id) (s : State T)
    (hempty : s.head_ = none)
    (hslot : s.hazard me ≠ none ∨ ∃ j : Fin max_hazard_pointers, (s.hazard_pointers j).id = none) :
    ∃ s1, pop (fuel + 1) me s = .ok (none, s1) ∧ s1.head_ = none := by
  have hg : ∃ hp s0, get_hazard_pointer_for_current_thread me s = .ok (hp, s0) := by
    cases hm : s.hazard me with
    | some hp => exact ⟨hp, s, get_hazard_pointer_of_owner hm⟩
    | none =>
      rcases hslot with h | ⟨j, hj⟩
      · exact absurd hm h
      · rcases hp_owner_ctor_cases me s.hazard_pointers with he | ⟨slot, hok⟩
        · exact absurd hj ((hp_owner_ctor_error_iff me _).1 he j)
        · rw [get_hazard_pointer_first hm, hok]
          exact ⟨_, _, rfl⟩
  obtain ⟨hp, s0, hg⟩ := hg
  have hh : s0.head_ = none := by rw [(get_hazard_pointer_frame hg).1, hempty]
  have hu := pop_unlink_seq_empty hp fuel s0 hh
  have hpop : pop (fuel + 1) me s = .ok (none,
      { s0 with hazard_pointers :=
          store_pointer (store_pointer s0.hazard_pointers hp none) hp none }) := by
    simp only [pop, hg, hu, pop_dispose]
  exact ⟨_, hpop, hh⟩

/-- With no slot owned by the caller and none unowned, `pop` throws. -/
theorem pop_exhausted {T : Type} (fuel : Nat) (me : thread_id) (s : State T)
    (hm : s.hazard me = none)
    (hfull : ∀ j : Fin max_hazard_pointers, (s.hazard_pointers j).id ≠ none) :
    pop fuel me s = .error .runtime_error := by
  have hc := (hp_owner_ctor_error_iff me s.hazard_pointers).2 hfull
  simp [pop, get_hazard_pointer_first hm, hc]

/-- C3, amended: on an empty stack, when the caller already owns a slot or some slot is
unowned, `pop` returns "no value" without error and leaves the stack empty; when the caller
owns no slot and every slot is owned, `pop` throws `runtime_error`. -/
theorem C3_pop_on_empty_stack {T : Type} (fuel : Nat) (me : thread_id) (s : State T)
    (hempty : s.head_ = none) :
    ((s.hazard me ≠ none ∨ ∃ j : Fin max_hazard_pointers, (s.hazard_pointers j).id = none) →
      ∃ s1, pop (fuel + 1) me s = .ok (none, s1) ∧ s1.head_ = none) ∧
    ((s.hazard me = none ∧ ∀ j : Fin max_hazard_pointers, (s.hazard_pointers j).id ≠ none) →
      pop (fuel + 1) me s = .error .runtime_error) :=
  ⟨pop_empty_ok fuel me s hempty, fun h => pop_exhausted (fuel + 1) me s h.1 h.2⟩

/-- C3, amended, at a concrete state: the first `pop` of thread 7 on the initial state. -/
theorem C3_pop_on_empty_stack_witness :
    ∃ s1, pop 1 7 (State.init : State Nat) = .ok (none, s1) ∧ s1.head_ = none :=
  (C3_pop_on_empty_stack 0 7 (State.init : State Nat) rfl).1 (Or.inr ⟨0, rfl⟩)

/-! ### The sweep -/

theorem do_delete_live {T : Type} (a : Addr) (s : State T) (n : node T)
    (h : s.heap.read a = some n) :
    do_delete (some a) s = .ok { s with heap := s.heap.free a, deleted := a :: s.deleted } := by
  simp [do_delete, h]

/-- Full description of the loop of the sweep on a list of distinct entries for live nodes. -/
theorem delete_nodes_loop_spec {T : Type} :
    ∀ (l : List data_to_reclaim) (s : State T),
      (∀ e ∈ l, ∃ a, e.data = some a ∧ s.heap.read a ≠ none) → l.Nodup →
      ∃ s1, delete_nodes_loop l s = .ok s1 ∧
        s1.hazard_pointers = s.hazard_pointers ∧ s1.hazard = s.hazard ∧ s1.head_ = s.head_ ∧
        s1.nodes_to_reclaim =
          (l.filter (fun e => outstanding_hazard_pointers_for s.hazard_pointers e.data)).reverse
            ++ s.nodes_to_reclaim ∧
        s1.deleted =
          ((l.filter (fun e => !outstanding_hazard_pointers_for s.hazard_pointers e.data)).filterMap
            (fun e => e.data)).reverse ++ s.deleted ∧
        ∀ b, s1.heap.read b =
          if (⟨some b⟩ : data_to_reclaim) ∈ l ∧
              outstanding_hazard_pointers_for s.hazard_pointers (some b) = false
          then none else s.heap.read b := by
  intro l
  induction l with
  | nil =>
    intro s _ _
    exact ⟨s, rfl, rfl, rfl, rfl, by simp, by simp, by simp⟩
  | cons e l ih =>
    intro s hlive hnd
    obtain ⟨a, hea, hla⟩ := hlive e (List.mem_cons_self _ _)
    have he : e = ⟨some a⟩ := by cases e; simp_all
    subst he
    have hnd1 : l.Nodup := (List.nodup_cons.1 hnd).2
    have hnot : (⟨some a⟩ : data_to_reclaim) ∉ l := (List.nodup_cons.1 hnd).1
    cases hp : outstanding_hazard_pointers_for s.hazard_pointers (some a) with
    | true =>
      have hlive1 : ∀ e ∈ l, ∃ b, e.data = some b ∧
          (add_to_reclaim_list ⟨some a⟩ s).heap.read b ≠ none :=
        fun e he => hlive e (List.mem_cons_of_mem _ he)
      obtain ⟨s1, h1, h2, h3, h4, h5, h6, h7⟩ := ih (add_to_reclaim_list ⟨some a⟩ s) hlive1 hnd1
      refine ⟨s1, ?_, h2, h3, h4, ?_, ?_, ?_⟩
      · simp only [delete_nodes_loop, hp, Bool.not_true, Bool.false_eq_true, if_false]
        exact h1
      · rw [h5]
        simp [add_to_reclaim_list, List.filter_cons, hp]
      · rw [h6]
        simp [add_to_reclaim_list, List.filter_cons, hp]
      · intro b
        rw [h7 b]
        by_cases hb : b = a
        · subst hb
          simp [add_to_reclaim_list, hp]
        · have : (⟨some b⟩ : data_to_reclaim) ≠ ⟨some a⟩ := by simpa using hb
          simp [add_to_reclaim_list, List.mem_cons, this]
    | false =>
      obtain ⟨n, hn⟩ := Option.ne_none_iff_exists'.1 hla
      have hd := do_delete_live a s n hn
      have hlive1 : ∀ e ∈ l, ∃ b, e.data = some b ∧
          ({ s with heap := s.heap.free a, deleted := a :: s.deleted } : State T).heap.read b
            ≠ none := by
        intro e he
        obtain ⟨b, hb1, hb2⟩ := hlive e (List.mem_cons_of_mem _ he)
        refine ⟨b, hb1, ?_⟩
        have hba : b ≠ a := by
          intro hba
          subst hba
          apply hnot
          have : e = ⟨some b⟩ := by cases e; simp_all
          rw [← this]; exact he
        simpa [Heap.read_free_ne _ hba] using hb2
      obtain ⟨s1, h1, h2, h3, h4, h5, h6, h7⟩ := ih _ hlive1 hnd1
      refine ⟨s1, ?_, h2, h3, h4, ?_, ?_, ?_⟩
      · simp only [delete_nodes_loop, hp, Bool.not_false, if_true, hd]
        exact h1
      · rw [h5]
        simp [List.filter_cons, hp]
      · rw [h6]
        simp [List.filter_cons, hp]
      · intro b
        rw [h7 b]
        by_cases hb : b = a
        · subst hb
          simp [hp, Heap.read_free_same]
        · have : (⟨some b⟩ : data_to_reclaim) ≠ ⟨some a⟩ := by simpa using hb
          simp [List.mem_cons, this, Heap.read_free_ne _ hb]

/-! ### Representation invariant of the sequential stack -/

theorem Linked_congr {T : Type} {h h1 : Heap (node T)} :
    ∀ (cs : List (Addr × T)) (p : Ptr),
      (∀ c ∈ cs, h1.read c.1 = h.read c.1) → Linked h p cs → Linked h1 p cs := by
  intro cs
  induction cs with
  | nil => intro p _ hl; exact hl
  | cons c cs ih =>
    intro p hsame hl
    obtain ⟨hp, nxt, hr, hrest⟩ := hl
    refine ⟨hp, nxt, ?_, ih nxt (fun c1 hc1 => hsame c1 (List.mem_cons_of_mem _ hc1)) hrest⟩
    rw [hsame c (List.mem_cons_self _ _)]
    exact hr

theorem Linked_live {T : Type} {h : Heap (node T)} :
    ∀ (cs : List (Addr × T)) (p : Ptr), Linked h p cs → ∀ c ∈ cs, h.read c.1 ≠ none := by
  intro cs
  induction cs with
  | nil => intro p _ c hc; simp at hc
  | cons c0 cs ih =>
    intro p hl c hc
    obtain ⟨_, nxt, hr, hrest⟩ := hl
    rcases List.mem_cons.1 hc with h1 | h1
    · subst h1; rw [hr]; simp
    · exact ih nxt hrest c h1

theorem StackInv_empty_iff {T : Type} {s : State T} :
    StackInv s [] ↔ s.head_ = none ∧ reclaim_ok s := by
  constructor
  · intro h; exact ⟨h.linked, h.reclaim⟩
  · rintro ⟨h1, h2⟩
    exact ⟨h1, by simp, h2, by simp⟩

theorem push_step {T : Type} (operator_new : Heap (node T) → Addr)
    (hnew : ∀ h : Heap (node T), h.read (operator_new h) = none) (fuel : Nat) (v : T)
    (s : State T) (cs : List (Addr × T)) (hinv : StackInv s cs) :
    ∃ s1, push operator_new (fuel + 1) v s = .ok s1 ∧
      StackInv s1 ((operator_new s.heap, v) :: cs) ∧
      s1.hazard = s.hazard ∧ s1.hazard_pointers = s.hazard_pointers ∧
      s1.nodes_to_reclaim = s.nodes_to_reclaim := by
  have hfresh := hnew s.heap
  have hread : ∀ b, ((s.heap.write (operator_new s.heap) ⟨some v, none⟩).write
      (operator_new s.heap) ⟨some v, s.head_⟩).read b
        = if b = operator_new s.heap then some ⟨some v, s.head_⟩ else s.heap.read b := by
    intro b
    simp only [Heap.read_write]
    by_cases hb : b = operator_new s.heap <;> simp [hb]
  have hpush : push operator_new (fuel + 1) v s = .ok
      { s with heap := (s.heap.write (operator_new s.heap) ⟨some v, none⟩).write
                  (operator_new s.heap) ⟨some v, s.head_⟩,
               head_ := some (operator_new s.heap) } := by
    simp [push, push_loop, Heap.read_write_same, compare_exchange_head]
  refine ⟨_, hpush, ?_, rfl, rfl, rfl⟩
  have hlive := Linked_live cs s.head_ hinv.linked
  have hne : ∀ c ∈ cs, c.1 ≠ operator_new s.heap := by
    intro c hc he
    exact hlive c hc (he ▸ hfresh)
  refine ⟨?_, ?_, ?_, ?_⟩
  · refine ⟨rfl, s.head_, ?_, ?_⟩
    · simp [hread]
    · refine Linked_congr cs s.head_ ?_ hinv.linked
      intro c hc
      simp [hread, hne c hc]
  · simp only [List.map_cons, List.nodup_cons]
    refine ⟨?_, hinv.nodup⟩
    intro hmem
    obtain ⟨c, hc, hce⟩ := List.mem_map.1 hmem
    exact hne c hc hce
  · refine ⟨hinv.reclaim.1, ?_⟩
    intro e he
    obtain ⟨b, hb1, hb2⟩ := hinv.reclaim.2 e he
    refine ⟨b, hb1, ?_⟩
    have hba : b ≠ operator_new s.heap := fun h => hb2 (h ▸ hfresh)
    simpa [hread, hba] using hb2
  · intro c hc
    rcases List.mem_cons.1 hc with h1 | h1
    · subst h1
      intro hmem
      obtain ⟨b, hb1, hb2⟩ := hinv.reclaim.2 _ hmem
      simp only [Option.some.injEq] at hb1
      exact hb2 (hb1 ▸ hfresh)
    · exact hinv.apart c h1

theorem mem_reclaim_iff (e : data_to_reclaim) (a : Addr) : e.data = some a ↔ e = ⟨some a⟩ := by
  cases e; simp

/-- Full description of `delete_nodes_with_no_hazards` on a well-formed pending list. -/
theorem sweep_spec {T : Type} (s : State T) (hok : reclaim_ok s) :
    ∃ s1, delete_nodes_with_no_hazards s = .ok s1 ∧
      s1.hazard_pointers = s.hazard_pointers ∧ s1.hazard = s.hazard ∧ s1.head_ = s.head_ ∧
      s1.nodes_to_reclaim =
        (s.nodes_to_reclaim.filter
          (fun e => outstanding_hazard_pointers_for s.hazard_pointers e.data)).reverse ∧
      s1.deleted =
        ((s.nodes_to_reclaim.filter
          (fun e => !outstanding_hazard_pointers_for s.hazard_pointers e.data)).filterMap
            (fun e => e.data)).reverse ++ s.deleted ∧
      ∀ b, s1.heap.read b =
        if (⟨some b⟩ : data_to_reclaim) ∈ s.nodes_to_reclaim ∧
            outstanding_hazard_pointers_for s.hazard_pointers (some b) = false
        then none else s.heap.read b := by
  obtain ⟨s1, h1, h2, h3, h4, h5, h6, h7⟩ :=
    delete_nodes_loop_spec s.nodes_to_reclaim { s with nodes_to_reclaim := [] } hok.2 hok.1
  refine ⟨s1, h1, h2, h3, h4, ?_, h6, h7⟩
  rw [h5]
  simp

theorem sweep_keeps_ok {T : Type} (s s1 : State T) (hok : reclaim_ok s)
    (h5 : s1.nodes_to_reclaim =
        (s.nodes_to_reclaim.filter
          (fun e => outstanding_hazard_pointers_for s.hazard_pointers e.data)).reverse)
    (h7 : ∀ b, s1.heap.read b =
        if (⟨some b⟩ : data_to_reclaim) ∈ s.nodes_to_reclaim ∧
            outstanding_hazard_pointers_for s.hazard_pointers (some b) = false
        then none else s.heap.read b) :
    reclaim_ok s1 := by
  constructor
  · rw [h5]
    exact List.nodup_reverse.2 (hok.1.filter _)
  · intro e he
    rw [h5] at he
    have he2 : e ∈ s.nodes_to_reclaim ∧
        outstanding_hazard_pointers_for s.hazard_pointers e.data = true := by
      simpa [List.mem_filter] using he
    obtain ⟨b, hb1, hb2⟩ := hok.2 e he2.1
    refine ⟨b, hb1, ?_⟩
    rw [h7 b]
    have : outstanding_hazard_pointers_for s.hazard_pointers (some b) = true := by
      rw [← hb1]; exact he2.2
    have hcond : ¬ ((⟨some b⟩ : data_to_reclaim) ∈ s.nodes_to_reclaim ∧
        outstanding_hazard_pointers_for s.hazard_pointers (some b) = false) := by
      simp [this]
    rw [if_neg hcond]
    exact hb2

/-- Disposal of an unlinked, live node that is not already pending: the payload comes back,
the pending list stays well formed and gains at most this node, and only this node and
pending nodes can change in the heap. -/
theorem pop_dispose_spec {T : Type} (a : Addr) (n : node T) (s : State T)
    (hn : s.heap.read a = some n) (hok : reclaim_ok s)
    (hnot : (⟨some a⟩ : data_to_reclaim) ∉ s.nodes_to_reclaim) :
    ∃ s1, pop_dispose (some a) s = .ok (n.data, s1) ∧
      s1.hazard_pointers = s.hazard_pointers ∧ s1.hazard = s.hazard ∧ s1.head_ = s.head_ ∧
      reclaim_ok s1 ∧
      (∀ e ∈ s1.nodes_to_reclaim, e ∈ s.nodes_to_reclaim ∨ e = ⟨some a⟩) ∧
      (∀ b, b ≠ a → (⟨some b⟩ : data_to_reclaim) ∉ s.nodes_to_reclaim →
        s1.heap.read b = s.heap.read b) := by
  obtain ⟨hnd, hlive⟩ := hok
  cases hp : outstanding_hazard_pointers_for s.hazard_pointers (some a) with
  | true =>
    -- retired, then swept
    have hok2 : reclaim_ok (reclaim_later (some a)
        { s with heap := s.heap.write a { n with data := none } }) := by
      refine ⟨List.nodup_cons.2 ⟨hnot, hnd⟩, ?_⟩
      intro e he
      rcases List.mem_cons.1 he with h1 | h1
      · subst h1
        exact ⟨a, rfl, by simp [reclaim_later, add_to_reclaim_list, Heap.read_write_same]⟩
      · obtain ⟨b, hb1, hb2⟩ := hlive e h1
        refine ⟨b, hb1, ?_⟩
        by_cases hba : b = a
        · subst hba
          simp [reclaim_later, add_to_reclaim_list, Heap.read_write_same]
        · simpa [reclaim_later, add_to_reclaim_list, Heap.read_write_ne _ _ hba] using hb2
    obtain ⟨s3, h1, h2, h3, h4, h5, _, h7⟩ := sweep_spec _ hok2
    have hok3 := sweep_keeps_ok _ s3 hok2 h5 h7
    dsimp only [reclaim_later, add_to_reclaim_list] at h2 h3 h4 h5 h7
    refine ⟨s3, ?_, h2, h3, h4, hok3, ?_, ?_⟩
    · simp only [pop_dispose, hn, hp, if_true, h1]
    · intro e he
      rw [h5] at he
      have he2 := (List.mem_filter.1 (List.mem_reverse.1 he)).1
      rcases List.mem_cons.1 he2 with h | h
      · exact Or.inr h
      · exact Or.inl h
    · intro b hba hbn
      rw [h7 b]
      have hcond : ¬ ((⟨some b⟩ : data_to_reclaim) ∈
          (⟨some a⟩ : data_to_reclaim) :: s.nodes_to_reclaim ∧
          outstanding_hazard_pointers_for s.hazard_pointers (some b) = false) := by
        rintro ⟨hm, _⟩
        rcases List.mem_cons.1 hm with h | h
        · simp only [data_to_reclaim.mk.injEq, Option.some.injEq] at h
          exact hba h
        · exact hbn h
      rw [if_neg hcond]
      exact Heap.read_write_ne _ _ hba
  | false =>
    -- freed at once, then the sweep
    have hdel : do_delete (some a) { s with heap := s.heap.write a { n with data := none } }
        = .ok { s with heap := (s.heap.write a { n with data := none }).free a,
                       deleted := a :: s.deleted } :=
      do_delete_live a _ { n with data := none } (by simp [Heap.read_write_same])
    have hok2 : @reclaim_ok T { s with heap := (s.heap.write a { n with data := none }).free a,
                                       deleted := a :: s.deleted } := by
      refine ⟨hnd, ?_⟩
      intro e he
      obtain ⟨b, hb1, hb2⟩ := hlive e he
      refine ⟨b, hb1, ?_⟩
      have hba : b ≠ a := by
        intro hba
        subst hba
        exact hnot (((mem_reclaim_iff e b).1 hb1) ▸ he)
      simpa [Heap.read_free_ne _ hba, Heap.read_write_ne _ _ hba] using hb2
    obtain ⟨s3, h1, h2, h3, h4, h5, _, h7⟩ := sweep_spec _ hok2
    have hok3 := sweep_keeps_ok _ s3 hok2 h5 h7
    dsimp only at h2 h3 h4 h5 h7
    refine ⟨s3, ?_, h2, h3, h4, hok3, ?_, ?_⟩
    · simp only [pop_dispose, hn, hp, Bool.false_eq_true, if_false, hdel, h1]
    · intro e he
      rw [h5] at he
      exact Or.inl (List.mem_filter.1 (List.mem_reverse.1 he)).1
    · intro b hba hbn
      rw [h7 b]
      have hcond : ¬ ((⟨some b⟩ : data_to_reclaim) ∈ s.nodes_to_reclaim ∧
          outstanding_hazard_pointers_for s.hazard_pointers (some b) = false) := by
        rintro ⟨hm, _⟩
        exact hbn hm
      rw [if_neg hcond, Heap.read_free_ne _ hba, Heap.read_write_ne _ _ hba]

end HazardPtrs

namespace Mem

theorem foldr_max_ge (l : List Addr) : ∀ a ∈ l, a ≤ l.foldr max 0 := by
  induction l with
  | nil => intro a ha; simp at ha
  | cons x xs ih =>
    intro a ha
    rcases List.mem_cons.1 ha with h | h
    · subst h; simp
    · have := ih a h
      simp only [List.foldr_cons]
      exact le_trans this (le_max_right _ _)

theorem Heap.read_some_mem {α : Type} (h : Heap α) (a : Addr) (v : α)
    (hr : h.read a = some v) : a ∈ h.cells.map Prod.fst := by
  obtain ⟨cells⟩ := h
  induction cells with
  | nil => simp [Heap.read] at hr
  | cons c cs ih =>
    obtain ⟨x, w⟩ := c
    rw [Heap.read_cons] at hr
    by_cases hx : x = a
    · simp [hx]
    · rw [if_neg hx] at hr
      simp only [List.map_cons, List.mem_cons]
      exact Or.inr (ih hr)

theorem bump_allocator_fresh {α : Type} (h : Heap α) : h.read (bump_allocator h) = none := by
  cases hr : h.read (bump_allocator h) with
  | none => rfl
  | some v =>
    have hm := Heap.read_some_mem h _ v hr
    have hle : (h.cells.map Prod.fst).foldr max 0 + 1 ≤ (h.cells.map Prod.fst).foldr max 0 :=
      foldr_max_ge _ _ hm
    exact absurd hle (Nat.not_succ_le_self _)

end Mem

namespace HazardPtrs
open Mem

theorem pop_step {T : Type} (fuel : Nat) (me : thread_id) (s : State T)
    (hp : Fin max_hazard_pointers) (hslot : s.hazard me = some hp)
    (a : Addr) (v : T) (cs : List (Addr × T)) (hinv : StackInv s ((a, v) :: cs)) :
    ∃ s1, pop (fuel + 1) me s = .ok (some v, s1) ∧ StackInv s1 cs ∧ s1.hazard = s.hazard := by
  obtain ⟨hhead, nxt, hr, hrest⟩ := hinv.linked
  have hnd := List.nodup_cons.1 (by simpa using hinv.nodup :
    (a :: cs.map Prod.fst).Nodup)
  have hu := pop_unlink_seq_node hp fuel s a ⟨some v, nxt⟩ hhead hr
  obtain ⟨s1, h1, _, h3, h4, h5, h6, h7⟩ := pop_dispose_spec a ⟨some v, nxt⟩
    { s with hazard_pointers :=
               store_pointer (store_pointer s.hazard_pointers hp (some a)) hp none,
             head_ := nxt }
    hr hinv.reclaim (hinv.apart (a, v) (List.mem_cons_self _ _))
  dsimp only at h3 h4 h6 h7
  refine ⟨s1, ?_, ⟨?_, hnd.2, h5, ?_⟩, h3⟩
  · simp only [pop, get_hazard_pointer_of_owner hslot, hu]
    exact h1
  · rw [h4]
    refine Linked_congr cs nxt ?_ hrest
    intro c hc
    have hca : c.1 ≠ a := by
      intro he
      exact hnd.1 (he ▸ List.mem_map_of_mem Prod.fst hc)
    exact h7 c.1 hca (hinv.apart c (List.mem_cons_of_mem _ hc))
  · intro c hc hmem
    rcases h6 _ hmem with h | h
    · exact hinv.apart c (List.mem_cons_of_mem _ hc) h
    · simp only [data_to_reclaim.mk.injEq, Option.some.injEq] at h
      exact hnd.1 (h ▸ List.mem_map_of_mem Prod.fst hc)

theorem push_all_spec {T : Type} (operator_new : Heap (node T) → Addr)
    (hnew : ∀ h : Heap (node T), h.read (operator_new h) = none) (fuel : Nat) :
    ∀ (vs : List T) (s : State T) (cs : List (Addr × T)), StackInv s cs →
      ∃ s1 cs1, push_all operator_new (fuel + 1) vs s = .ok s1 ∧ StackInv s1 (cs1 ++ cs) ∧
        cs1.map Prod.snd = vs.reverse ∧ s1.hazard = s.hazard := by
  intro vs
  induction vs with
  | nil => intro s cs h; exact ⟨s, [], rfl, h, rfl, rfl⟩
  | cons v vs ih =>
    intro s cs h
    obtain ⟨s1, h1, h2, h3, _⟩ := push_step operator_new hnew fuel v s cs h
    obtain ⟨s2, cs2, k1, k2, k3, k4⟩ := ih s1 _ h2
    refine ⟨s2, cs2 ++ [(operator_new s.heap, v)], ?_, ?_, ?_, ?_⟩
    · simp only [push_all, h1]
      exact k1
    · simpa using k2
    · simp [k3]
    · rw [k4, h3]

theorem pop_many_spec {T : Type} (fuel : Nat) (me : thread_id) (hp : Fin max_hazard_pointers) :
    ∀ (cs : List (Addr × T)) (s : State T), s.hazard me = some hp → StackInv s cs →
      ∃ s1, pop_many (fuel + 1) me cs.length s = .ok (cs.map (fun c => some c.2), s1) ∧
        StackInv s1 [] ∧ s1.hazard = s.hazard := by
  intro cs
  induction cs with
  | nil => intro s _ h; exact ⟨s, rfl, h, rfl⟩
  | cons c cs ih =>
    intro s hslot h
    obtain ⟨a, v⟩ := c
    obtain ⟨s1, h1, h2, h3⟩ := pop_step fuel me s hp hslot a v cs h
    obtain ⟨s2, k1, k2, k3⟩ := ih s1 (by rw [h3]; exact hslot) h2
    refine ⟨s2, ?_, k2, by rw [k3, h3]⟩
    simp only [List.length_cons, pop_many, h1, k1, List.map_cons]

/-- C1: on a thread that holds a hazard slot, pushing the values `vs` in order onto an empty
stack and then popping `length vs` times returns the values of `vs` in reverse order, and one
more `pop` returns "no value". The allocator may be any that returns an unused address, the
other hazard slots may hold anything, and the pending list may hold any distinct live nodes. -/
theorem C1_hazard_stack_pops_reverse_of_pushes {T : Type}
    (operator_new : Heap (node T) → Addr)
    (hnew : ∀ h : Heap (node T), h.read (operator_new h) = none)
    (fuel : Nat) (me : thread_id) (hp : Fin max_hazard_pointers) (s : State T)
    (hslot : s.hazard me = some hp) (hempty : s.head_ = none) (hok : reclaim_ok s)
    (vs : List T) :
    ∃ s1 s2 s3, push_all operator_new (fuel + 1) vs s = .ok s1 ∧
      pop_many (fuel + 1) me vs.length s1 = .ok (vs.reverse.map some, s2) ∧
      pop (fuel + 1) me s2 = .ok (none, s3) ∧ empty s3 = true := by
  obtain ⟨s1, cs, h1, h2, h3, h4⟩ :=
    push_all_spec operator_new hnew fuel vs s [] (StackInv_empty_iff.2 ⟨hempty, hok⟩)
  rw [List.append_nil] at h2
  have hs1 : s1.hazard me = some hp := by rw [h4]; exact hslot
  obtain ⟨s2, k1, k2, k3⟩ := pop_many_spec fuel me hp cs s1 hs1 h2
  have hlen : cs.length = vs.length := by
    have := congrArg List.length h3
    simpa using this
  have hvals : cs.map (fun c => some c.2) = vs.reverse.map some := by
    rw [← h3, List.map_map]; rfl
  rw [hlen, hvals] at k1
  have hs2 : s2.hazard me ≠ none := by rw [k3, hs1]; simp
  obtain ⟨s3, m1, m2⟩ := pop_empty_ok fuel me s2 k2.linked (Or.inl hs2)
  exact ⟨s1, s2, s3, h1, k1, m1, by simp [empty, m2]⟩

/-- C1 at the scenario of the specification: push 1, 2, 3, then pop four times. -/
theorem C1_hazard_stack_witness :
    ∃ s1 s2 s3, push_all bump_allocator 1 [1, 2, 3] one_thread_state = .ok s1 ∧
      pop_many 1 7 3 s1 = .ok ([some 3, some 2, some 1], s2) ∧
      pop 1 7 s2 = .ok (none, s3) ∧ empty s3 = true :=
  C1_hazard_stack_pops_reverse_of_pushes bump_allocator bump_allocator_fresh 0 7 0
    one_thread_state (by simp [one_thread_state]) rfl ⟨List.nodup_nil, by simp [one_thread_state, State.init]⟩ [1, 2, 3]

end HazardPtrs

namespace Mem

theorem returns_iff {α : Type} {r : Except Fault α} {P : α → Prop} :
    returns r P ↔ ∃ x, r = .ok x ∧ P x := by
  cases r with
  | ok x => simp [returns]
  | error e => simp [returns]

end Mem

namespace RefCounting
open Mem

/-! ### Reference-counted stack, sequential runs -/

theorem rc_linked_congr {T : Type} {h h1 : Heap (control_block T)} :
    ∀ (cs : List (Addr × T)) (p : Ptr),
      (∀ c ∈ cs, h1.read c.1 = h.read c.1) → Linked h p cs → Linked h1 p cs := by
  intro cs
  induction cs with
  | nil => intro p _ hl; exact hl
  | cons c cs ih =>
    intro p hsame hl
    obtain ⟨hp, nxt, hr, hrest⟩ := hl
    refine ⟨hp, nxt, ?_, ih nxt (fun c1 hc1 => hsame c1 (List.mem_cons_of_mem _ hc1)) hrest⟩
    rw [hsame c (List.mem_cons_self _ _)]
    exact hr

theorem rc_linked_live {T : Type} {h : Heap (control_block T)} :
    ∀ (cs : List (Addr × T)) (p : Ptr), Linked h p cs → ∀ c ∈ cs, h.read c.1 ≠ none := by
  intro cs
  induction cs with
  | nil => intro p _ c hc; simp at hc
  | cons c0 cs ih =>
    intro p hl c hc
    obtain ⟨_, nxt, hr, hrest⟩ := hl
    rcases List.mem_cons.1 hc with h1 | h1
    · subst h1; rw [hr]; simp
    · exact ih nxt hrest c h1

/-- The head of a linked chain is null or a live node with exactly one owner. -/
theorem rc_linked_head {T : Type} {h : Heap (control_block T)} {p : Ptr}
    {cs : List (Addr × T)} (hl : Linked h p cs) :
    p = none ∨ ∃ b ob, p = some b ∧ h.read b = some ⟨ob, 1⟩ ∧ b ∈ cs.map Prod.fst := by
  cases cs with
  | nil => exact Or.inl hl
  | cons c cs =>
    obtain ⟨hp, nxt, hr, _⟩ := hl
    exact Or.inr ⟨c.1, _, hp, hr, by simp⟩

theorem rc_push_step {T : Type} (operator_new : Heap (control_block T) → Addr)
    (hnew : ∀ h : Heap (control_block T), h.read (operator_new h) = none) (fuel : Nat) (v : T)
    (s : State T) (cs : List (Addr × T)) (hinv : StackInv s cs) :
    ∃ s1, push operator_new (fuel + 1) v s = .ok s1 ∧
      StackInv s1 ((operator_new s.heap, v) :: cs) := by
  have hfresh := hnew s.heap
  have hlive := rc_linked_live cs s.head hinv.linked
  have hne : ∀ c ∈ cs, c.1 ≠ operator_new s.heap := fun c hc he => hlive c hc (he ▸ hfresh)
  have key : returns (push operator_new (fuel + 1) v s) (fun s1 =>
      s1.head = some (operator_new s.heap) ∧
      ∀ x, s1.heap.read x =
        if x = operator_new s.heap then some ⟨⟨some v, s.head⟩, 1⟩ else s.heap.read x) := by
    rcases rc_linked_head hinv.linked with h0 | ⟨b, ob, hb, hrb, hmem⟩
    · simp only [returns, push, acquire, push_loop, release, release_loop, Heap.read_write, h0,
        if_true]
      simp only [Nat.reduceLeDiff, if_false, true_and]
      intro x
      by_cases hx : x = operator_new s.heap <;> simp [Heap.read_write, hx]
    · obtain ⟨c, hc, hcb⟩ := List.mem_map.1 hmem
      have hba : b ≠ operator_new s.heap := hcb ▸ hne c hc
      have hab : operator_new s.heap ≠ b := fun h => hba h.symm
      simp [returns, push, acquire, push_loop, release, release_loop, Heap.read_write, hb,
        hrb, hba, hab]
      intro x
      by_cases hx : x = operator_new s.heap
      · simp [Heap.read_write, hx]
      · by_cases hxb : x = b
        · subst hxb; simp [Heap.read_write, hx, hrb]
        · simp [Heap.read_write, hx, hxb]
  obtain ⟨s1, h1, h2, h3⟩ := returns_iff.1 key
  refine ⟨s1, h1, ⟨⟨h2, s.head, ?_, ?_⟩, ?_⟩⟩
  · simp [h3]
  · refine rc_linked_congr cs s.head ?_ hinv.linked
    intro c hc
    simp [h3, hne c hc]
  · simp only [List.map_cons, List.nodup_cons]
    refine ⟨?_, hinv.nodup⟩
    intro hmem
    obtain ⟨c, hc, hce⟩ := List.mem_map.1 hmem
    exact hne c hc hce

theorem rc_pop_step {T : Type} (fuel : Nat) (s : State T) (a : Addr) (v : T)
    (cs : List (Addr × T)) (hinv : StackInv s ((a, v) :: cs)) :
    ∃ s1, pop (fuel + 1) s = .ok (some v, s1) ∧ StackInv s1 cs := by
  obtain ⟨hhead, nxt, hr, hrest⟩ := hinv.linked
  have hnd := List.nodup_cons.1 (by simpa using hinv.nodup : (a :: cs.map Prod.fst).Nodup)
  simp only at hhead hr
  have key : returns (pop (fuel + 1) s) (fun r =>
      r.1 = some v ∧ r.2.head = nxt ∧
      ∀ x, r.2.heap.read x = if x = a then none else s.heap.read x) := by
    rcases rc_linked_head hrest with h0 | ⟨b, ob, hb, hrb, hmem⟩
    · simp [returns, pop, pop_loop, pop_finish, acquire, release, release_loop,
        Heap.read_write, Heap.read_free, hhead, hr, h0]
      intro x
      by_cases hx : x = a <;> simp [hx]
    · have hba : b ≠ a := fun h => hnd.1 (h ▸ hmem)
      have hab : a ≠ b := fun h => hba h.symm
      simp [returns, pop, pop_loop, pop_finish, acquire, release, release_loop,
        Heap.read_write, Heap.read_free, hhead, hr, hb, hrb, hba, hab]
      intro x
      by_cases hx : x = a
      · simp [hx]
      · by_cases hxb : x = b
        · subst hxb; simp [hx, hrb]
        · simp [hx, hxb]
  obtain ⟨⟨r, s1⟩, h1, h2, h3, h4⟩ := returns_iff.1 key
  simp only at h2 h3 h4
  subst h2
  refine ⟨s1, h1, ⟨?_, hnd.2⟩⟩
  rw [h3]
  refine rc_linked_congr cs nxt ?_ hrest
  intro c hc
  have hca : c.1 ≠ a := fun he => hnd.1 (he ▸ List.mem_map_of_mem Prod.fst hc)
  simp [h4, hca]

theorem rc_pop_empty {T : Type} (fuel : Nat) (s : State T) (h : s.head = none) :
    pop (fuel + 1) s = .ok (none, s) := by
  obtain ⟨heap, head⟩ := s
  simp only at h
  subst h
  simp [pop, pop_loop, pop_finish, acquire]

theorem rc_push_all_spec {T : Type} (operator_new : Heap (control_block T) → Addr)
    (hnew : ∀ h : Heap (control_block T), h.read (operator_new h) = none) (fuel : Nat) :
    ∀ (vs : List T) (s : State T) (cs : List (Addr × T)), StackInv s cs →
      ∃ s1 cs1, push_all operator_new (fuel + 1) vs s = .ok s1 ∧ StackInv s1 (cs1 ++ cs) ∧
        cs1.map Prod.snd = vs.reverse := by
  intro vs
  induction vs with
  | nil => intro s cs h; exact ⟨s, [], rfl, h, rfl⟩
  | cons v vs ih =>
    intro s cs h
    obtain ⟨s1, h1, h2⟩ := rc_push_step operator_new hnew fuel v s cs h
    obtain ⟨s2, cs2, k1, k2, k3⟩ := ih s1 _ h2
    refine ⟨s2, cs2 ++ [(operator_new s.heap, v)], ?_, ?_, ?_⟩
    · simp only [push_all, h1]
      exact k1
    · simpa using k2
    · simp [k3]

theorem rc_pop_many_spec {T : Type} (fuel : Nat) :
    ∀ (cs : List (Addr × T)) (s : State T), StackInv s cs →
      ∃ s1, pop_many (fuel + 1) cs.length s = .ok (cs.map (fun c => some c.2), s1) ∧
        StackInv s1 [] := by
  intro cs
  induction cs with
  | nil => intro s h; exact ⟨s, rfl, h⟩
  | cons c cs ih =>
    intro s h
    obtain ⟨a, v⟩ := c
    obtain ⟨s1, h1, h2⟩ := rc_pop_step fuel s a v cs h
    obtain ⟨s2, k1, k2⟩ := ih s1 h2
    refine ⟨s2, ?_, k2⟩
    simp only [List.length_cons, pop_many, h1, k1, List.map_cons]

/-- C2: with no overlapping operation, pushing the values `vs` in order onto an empty
reference-counted stack and then popping `length vs` times returns `vs` in reverse order, so
the received values are the pushed ones as a multiset; the next `pop` returns "no value" and
changes nothing. The allocator may be any that returns an unused address. -/
theorem C2_refcounted_stack_pops_reverse_of_pushes {T : Type}
    (operator_new : Heap (control_block T) → Addr)
    (hnew : ∀ h : Heap (control_block T), h.read (operator_new h) = none)
    (fuel : Nat) (s : State T) (hempty : s.head = none) (vs : List T) :
    ∃ s1 s2, push_all operator_new (fuel + 1) vs s = .ok s1 ∧
      pop_many (fuel + 1) vs.length s1 = .ok (vs.reverse.map some, s2) ∧
      (vs.reverse : Multiset T) = (vs : Multiset T) ∧
      pop (fuel + 1) s2 = .ok (none, s2) := by
  obtain ⟨s1, cs, h1, h2, h3⟩ :=
    rc_push_all_spec operator_new hnew fuel vs s [] ⟨hempty, by simp⟩
  rw [List.append_nil] at h2
  obtain ⟨s2, k1, k2⟩ := rc_pop_many_spec fuel cs s1 h2
  have hlen : cs.length = vs.length := by
    have := congrArg List.length h3
    simpa using this
  have hvals : cs.map (fun c => some c.2) = vs.reverse.map some := by
    rw [← h3, List.map_map]; rfl
  rw [hlen, hvals] at k1
  exact ⟨s1, s2, h1, k1, Multiset.coe_reverse vs, rc_pop_empty fuel s2 k2.linked⟩

/-- C2 at the scenario of the specification: push 1 to 10, pop ten times, pop once more. -/
theorem C2_refcounted_stack_witness :
    ∃ s1 s2, push_all bump_allocator 1 [1, 2, 3, 4, 5, 6, 7, 8, 9, 10]
        (State.init : State Nat) = .ok s1 ∧
      pop_many 1 10 s1
        = .ok ([some 10, some 9, some 8, some 7, some 6, some 5, some 4, some 3, some 2, some 1],
            s2) ∧
      (([1, 2, 3, 4, 5, 6, 7, 8, 9, 10] : List Nat).reverse : Multiset Nat)
        = (([1, 2, 3, 4, 5, 6, 7, 8, 9, 10] : List Nat) : Multiset Nat) ∧
      pop 1 s2 = .ok (none, s2) :=
  C2_refcounted_stack_pops_reverse_of_pushes bump_allocator
    bump_allocator_fresh 0 State.init rfl [1, 2, 3, 4, 5, 6, 7, 8, 9, 10]

end RefCounting

namespace HazardPtrs
open Mem

/-! ### What the operations leave alone -/

theorem push_loop_frame {T : Type} :
    ∀ (fuel : Nat) (a : Addr) (s s1 : State T), push_loop fuel a s = .ok s1 →
      s1.hazard_pointers = s.hazard_pointers ∧ s1.hazard = s.hazard ∧
      s1.nodes_to_reclaim = s.nodes_to_reclaim ∧ s1.deleted = s.deleted := by
  intro fuel
  induction fuel with
  | zero => intro a s s1 h; simp [push_loop] at h
  | succ fuel ih =>
    intro a s s1 h
    unfold push_loop at h
    cases hr : s.heap.read a with
    | none => rw [hr] at h; simp at h
    | some n =>
      rw [hr] at h
      simp only [compare_exchange_head] at h
      by_cases hc : s.head_ = n.next
      · rw [if_pos hc] at h
        simp only [Except.ok.injEq] at h
        subst h
        exact ⟨rfl, rfl, rfl, rfl⟩
      · rw [if_neg hc] at h
        have hrec := ih a _ s1 h
        exact hrec

theorem push_frame {T : Type} (operator_new : Heap (node T) → Addr) (fuel : Nat) (v : T)
    (s s1 : State T) (h : push operator_new fuel v s = .ok s1) :
    s1.hazard_pointers = s.hazard_pointers ∧ s1.hazard = s.hazard ∧
      s1.nodes_to_reclaim = s.nodes_to_reclaim ∧ s1.deleted = s.deleted := by
  have hrec := push_loop_frame fuel _ _ s1 h
  exact hrec

theorem delete_nodes_loop_frame {T : Type} :
    ∀ (l : List data_to_reclaim) (s s1 : State T), delete_nodes_loop l s = .ok s1 →
      s1.hazard_pointers = s.hazard_pointers ∧ s1.hazard = s.hazard ∧ s1.head_ = s.head_ := by
  intro l
  induction l with
  | nil =>
    intro s s1 h
    simp only [delete_nodes_loop, Except.ok.injEq] at h
    subst h
    exact ⟨rfl, rfl, rfl⟩
  | cons e l ih =>
    intro s s1 h
    unfold delete_nodes_loop at h
    cases hp : outstanding_hazard_pointers_for s.hazard_pointers e.data with
    | true =>
      simp only [hp, Bool.not_true, Bool.false_eq_true, if_false] at h
      have hrec := ih _ s1 h
      exact hrec
    | false =>
      simp only [hp, Bool.not_false, if_true] at h
      cases hd : do_delete e.data s with
      | error err => rw [hd] at h; simp at h
      | ok s2 =>
        rw [hd] at h
        obtain ⟨k1, k2, k3⟩ := ih s2 s1 h
        have hs2 : s2.hazard_pointers = s.hazard_pointers ∧ s2.hazard = s.hazard ∧
            s2.head_ = s.head_ := by
          unfold do_delete at hd
          cases hdata : e.data with
          | none =>
            simp only [hdata, Except.ok.injEq] at hd
            subst hd
            exact ⟨rfl, rfl, rfl⟩
          | some a =>
            simp only [hdata] at hd
            cases hr : s.heap.read a with
            | none => simp [hr] at hd
            | some n =>
              simp only [hr, Except.ok.injEq] at hd
              subst hd
              exact ⟨rfl, rfl, rfl⟩
        exact ⟨k1.trans hs2.1, k2.trans hs2.2.1, k3.trans hs2.2.2⟩

theorem sweep_frame {T : Type} (s s1 : State T) (h : delete_nodes_with_no_hazards s = .ok s1) :
    s1.hazard_pointers = s.hazard_pointers ∧ s1.hazard = s.hazard ∧ s1.head_ = s.head_ := by
  have hrec := delete_nodes_loop_frame _ _ s1 h
  exact hrec

theorem do_delete_frame {T : Type} (p : Ptr) (s s1 : State T) (h : do_delete p s = .ok s1) :
    s1.hazard_pointers = s.hazard_pointers ∧ s1.hazard = s.hazard ∧ s1.head_ = s.head_ ∧
      s1.nodes_to_reclaim = s.nodes_to_reclaim := by
  unfold do_delete at h
  cases p with
  | none =>
    simp only [Except.ok.injEq] at h
    subst h
    exact ⟨rfl, rfl, rfl, rfl⟩
  | some a =>
    simp only at h
    cases hr : s.heap.read a with
    | none => simp [hr] at h
    | some n =>
      simp only [hr, Except.ok.injEq] at h
      subst h
      exact ⟨rfl, rfl, rfl, rfl⟩

theorem pop_dispose_frame {T : Type} (p : Ptr) (s : State T) (r : Option T) (s1 : State T)
    (h : pop_dispose p s = .ok (r, s1)) :
    s1.hazard_pointers = s.hazard_pointers ∧ s1.hazard = s.hazard ∧ s1.head_ = s.head_ := by
  unfold pop_dispose at h
  cases p with
  | none =>
    simp only [Except.ok.injEq, Prod.mk.injEq] at h
    obtain ⟨_, h2⟩ := h
    subst h2
    exact ⟨rfl, rfl, rfl⟩
  | some a =>
    simp only at h
    cases hr : s.heap.read a with
    | none => simp [hr] at h
    | some n =>
      simp only [hr] at h
      cases hp : outstanding_hazard_pointers_for s.hazard_pointers (some a) with
      | true =>
        simp only [hp, if_true] at h
        cases hs : delete_nodes_with_no_hazards
            (reclaim_later (some a) { s with heap := s.heap.write a { n with data := none } }) with
        | error e => simp [hs] at h
        | ok s3 =>
          simp only [hs, Except.ok.injEq, Prod.mk.injEq] at h
          obtain ⟨_, h2⟩ := h
          subst h2
          have hrec := sweep_frame _ _ hs
          exact hrec
      | false =>
        simp only [hp, Bool.false_eq_true, if_false] at h
        cases hd : do_delete (some a)
            { s with heap := s.heap.write a { n with data := none } } with
        | error e => simp [hd] at h
        | ok s2 =>
          simp only [hd] at h
          cases hs : delete_nodes_with_no_hazards s2 with
          | error e => simp [hs] at h
          | ok s3 =>
            simp only [hs, Except.ok.injEq, Prod.mk.injEq] at h
            obtain ⟨_, h2⟩ := h
            subst h2
            obtain ⟨k1, k2, k3⟩ := sweep_frame _ _ hs
            obtain ⟨m1, m2, m3, _⟩ := do_delete_frame _ _ _ hd
            exact ⟨k1.trans m1, k2.trans m2, k3.trans m3⟩

theorem same_but_pointer_refl (hp : Fin max_hazard_pointers) (reg : Registry) :
    same_but_pointer hp reg reg := fun _ => ⟨rfl, fun _ => rfl⟩

theorem same_but_pointer_trans {hp : Fin max_hazard_pointers} {r1 r2 r3 : Registry}
    (h12 : same_but_pointer hp r1 r2) (h23 : same_but_pointer hp r2 r3) :
    same_but_pointer hp r1 r3 := fun i =>
  ⟨(h23 i).1.trans (h12 i).1, fun hne => ((h23 i).2 hne).trans ((h12 i).2 hne)⟩

theorem same_but_pointer_store (hp : Fin max_hazard_pointers) (reg : Registry) (p : Ptr) :
    same_but_pointer hp reg (store_pointer reg hp p) := fun i =>
  ⟨store_pointer_id reg hp i p, fun hne => store_pointer_ne reg p hne⟩

theorem pop_publish_frame {T : Type} (hp : Fin max_hazard_pointers) :
    ∀ (fuel : Nat) (p : Ptr) (s : State T) (q : Ptr) (s1 : State T),
      pop_publish hp fuel p s = .ok (q, s1) →
        same_but_pointer hp s.hazard_pointers s1.hazard_pointers ∧ s1.hazard = s.hazard ∧
        s1.heap = s.heap ∧ s1.nodes_to_reclaim = s.nodes_to_reclaim ∧
        s1.deleted = s.deleted ∧ s1.head_ = s.head_ := by
  intro fuel
  induction fuel with
  | zero => intro p s q s1 h; simp [pop_publish] at h
  | succ fuel ih =>
    intro p s q s1 h
    unfold pop_publish at h
    simp only at h
    by_cases hc : p = s.head_
    · simp only [hc, ne_eq, not_true_eq_false, if_false, Except.ok.injEq, Prod.mk.injEq] at h
      obtain ⟨_, h2⟩ := h
      subst h2
      exact ⟨same_but_pointer_store hp _ _, rfl, rfl, rfl, rfl, rfl⟩
    · simp only [ne_eq, hc, not_false_eq_true, if_true] at h
      obtain ⟨k1, k2, k3, k4, k5, k6⟩ := ih _ _ q s1 h
      exact ⟨same_but_pointer_trans (same_but_pointer_store hp _ _) k1, k2, k3, k4, k5, k6⟩

theorem pop_unlink_frame {T : Type} (hp : Fin max_hazard_pointers) :
    ∀ (fuel : Nat) (p : Ptr) (s : State T) (q : Ptr) (s1 : State T),
      pop_unlink hp fuel p s = .ok (q, s1) →
        same_but_pointer hp s.hazard_pointers s1.hazard_pointers ∧ s1.hazard = s.hazard ∧
        s1.heap = s.heap ∧ s1.nodes_to_reclaim = s.nodes_to_reclaim ∧
        s1.deleted = s.deleted := by
  intro fuel
  induction fuel with
  | zero => intro p s q s1 h; simp [pop_unlink] at h
  | succ fuel ih =>
    intro p s q s1 h
    unfold pop_unlink at h
    cases hpub : pop_publish hp (fuel + 1) p s with
    | error e => simp [hpub] at h
    | ok r =>
      obtain ⟨q0, s0⟩ := r
      obtain ⟨k1, k2, k3, k4, k5, _⟩ := pop_publish_frame hp _ _ _ _ _ hpub
      cases q0 with
      | none =>
        simp only [hpub, Except.ok.injEq, Prod.mk.injEq] at h
        obtain ⟨_, h2⟩ := h
        subst h2
        exact ⟨k1, k2, k3, k4, k5⟩
      | some a =>
        simp only [hpub] at h
        cases hr : s0.heap.read a with
        | none => simp [hr] at h
        | some n =>
          simp only [hr, compare_exchange_head] at h
          by_cases hc : s0.head_ = some a
          · simp only [hc, if_true, Except.ok.injEq, Prod.mk.injEq] at h
            obtain ⟨_, h2⟩ := h
            subst h2
            exact ⟨k1, k2, k3, k4, k5⟩
          · simp only [hc, if_false] at h
            obtain ⟨m1, m2, m3, m4, m5⟩ := ih _ _ q s1 h
            exact ⟨same_but_pointer_trans k1 m1, m2.trans k2, m3.trans k3, m4.trans k4,
              m5.trans k5⟩

/-- Anatomy of a returning `pop`: the slot obtained, the unlinking, the clearing store and
the disposal. -/
theorem pop_ok_anatomy {T : Type} (fuel : Nat) (me : thread_id) (s : State T) (r : Option T)
    (s1 : State T) (h : pop fuel me s = .ok (r, s1)) :
    ∃ (hp : Fin max_hazard_pointers) (s0 s2 : State T) (old_head : Ptr),
      get_hazard_pointer_for_current_thread me s = .ok (hp, s0) ∧
      pop_unlink hp fuel s0.head_ s0 = .ok (old_head, s2) ∧
      pop_dispose old_head
        { s2 with hazard_pointers := store_pointer s2.hazard_pointers hp none } = .ok (r, s1) := by
  unfold pop at h
  cases hg : get_hazard_pointer_for_current_thread me s with
  | error e => simp [hg] at h
  | ok x =>
    obtain ⟨hp, s0⟩ := x
    simp only [hg] at h
    cases hu : pop_unlink hp fuel s0.head_ s0 with
    | error e => simp [hu] at h
    | ok y =>
      obtain ⟨old_head, s2⟩ := y
      simp only [hu] at h
      exact ⟨hp, s0, s2, old_head, rfl, hu, h⟩

theorem first_pop_on_init : pop 1 7 (State.init : State Nat) = .ok (none, after_first_pop) := by
  rfl

theorem claimed_count_after_first_pop : claimed_count after_first_pop.hazard_pointers = 1 := by
  have : (Finset.univ.filter (fun i => (after_first_pop.hazard_pointers i).id ≠ none))
      = {0} := by
    ext i
    simp only [Finset.mem_filter, Finset.mem_univ, true_and, Finset.mem_singleton]
    by_cases hi : i = 0
    · subst hi
      simp [after_first_pop, store_pointer, store_id]
    · simp [after_first_pop, store_pointer, store_id, Function.update_noteq hi, Registry.init, hi]
  unfold claimed_count
  rw [this]
  rfl

/-- C9: a `pop` that returns, with a value or with "no value", runs as follows: the caller's
slot `hp` is looked up, the unlink loop ends in a state `s2`, the protected address of `hp` is
set to null, and only then the disposal part (payload hand-over, protection check, free or
retire, sweep) runs, from that state. The disposal leaves the registry as it found it, so the
caller's slot still holds null when `pop` returns. -/
theorem C9_pop_leaves_own_slot_cleared {T : Type} (fuel : Nat) (me : thread_id) (s : State T)
    (r : Option T) (s1 : State T) (h : pop fuel me s = .ok (r, s1)) :
    ∃ (hp : Fin max_hazard_pointers) (s0 s2 : State T) (old_head : Ptr),
      get_hazard_pointer_for_current_thread me s = .ok (hp, s0) ∧
      pop_unlink hp fuel s0.head_ s0 = .ok (old_head, s2) ∧
      pop_dispose old_head
        { s2 with hazard_pointers := store_pointer s2.hazard_pointers hp none } = .ok (r, s1) ∧
      (store_pointer s2.hazard_pointers hp none hp).pointer = none ∧
      s1.hazard_pointers = store_pointer s2.hazard_pointers hp none ∧
      s1.hazard me = some hp ∧ (s1.hazard_pointers hp).pointer = none := by
  obtain ⟨hp, s0, s2, old_head, hg, hu, hd⟩ := pop_ok_anatomy fuel me s r s1 h
  obtain ⟨k1, k2, _⟩ := pop_dispose_frame _ _ _ _ hd
  obtain ⟨_, m2, _⟩ := pop_unlink_frame hp _ _ _ _ _ hu
  have hcl : (store_pointer s2.hazard_pointers hp none hp).pointer = none := by
    rw [store_pointer_same]
  refine ⟨hp, s0, s2, old_head, hg, hu, hd, hcl, k1, ?_, ?_⟩
  · rw [k2]
    show s2.hazard me = some hp
    rw [m2]
    exact (get_hazard_pointer_frame hg).2.2.2.2
  · rw [k1]
    exact hcl

theorem pop_on_one_node : pop 1 7 one_node_state = .ok (some 5, after_value_pop) := by
  rfl

/-- C9 at a `pop` of thread 7 that returns the value 5 from a one-node stack. -/
theorem C9_pop_leaves_own_slot_cleared_witness :
    ∃ (hp : Fin max_hazard_pointers) (s0 s2 : State Nat) (old_head : Ptr),
      get_hazard_pointer_for_current_thread 7 one_node_state = .ok (hp, s0) ∧
      pop_unlink hp 1 s0.head_ s0 = .ok (old_head, s2) ∧
      pop_dispose old_head
        { s2 with hazard_pointers := store_pointer s2.hazard_pointers hp none }
          = .ok (some 5, after_value_pop) ∧
      (store_pointer s2.hazard_pointers hp none hp).pointer = none ∧
      after_value_pop.hazard_pointers = store_pointer s2.hazard_pointers hp none ∧
      after_value_pop.hazard 7 = some hp ∧ (after_value_pop.hazard_pointers hp).pointer = none :=
  C9_pop_leaves_own_slot_cleared 1 7 one_node_state (some 5) after_value_pop pop_on_one_node

/-! ### Slot ownership -/

theorem owner_inv_init {T : Type} : owner_inv (State.init : State T) := by
  intro i t
  simp [State.init, Registry.init]

theorem owner_inv_of_fields {T : Type} {s s1 : State T} (h : owner_inv s)
    (hid : ∀ i, (s1.hazard_pointers i).id = (s.hazard_pointers i).id)
    (hh : s1.hazard = s.hazard) : owner_inv s1 := by
  intro i t
  rw [hid i, hh]
  exact h i t

theorem owner_inv_get_hazard_pointer {T : Type} {me : thread_id} {s s1 : State T}
    {hp : Fin max_hazard_pointers} (h : owner_inv s)
    (hg : get_hazard_pointer_for_current_thread me s = .ok (hp, s1)) : owner_inv s1 := by
  cases hm : s.hazard me with
  | some hp0 =>
    rw [get_hazard_pointer_of_owner hm] at hg
    simp only [Except.ok.injEq, Prod.mk.injEq] at hg
    rw [← hg.2]
    exact h
  | none =>
    rw [get_hazard_pointer_first hm] at hg
    rcases hp_owner_ctor_cases me s.hazard_pointers with he | ⟨slot, hok⟩
    · simp [he] at hg
    · obtain ⟨hfree, _, _⟩ := hp_owner_ctor_ok me _ _ slot hok
      simp only [hok, Except.ok.injEq, Prod.mk.injEq] at hg
      obtain ⟨h1, h2⟩ := hg
      subst h1 h2
      intro i t
      show (store_id s.hazard_pointers slot (some me) i).id = some t ↔
        Function.update s.hazard me (some slot) t = some i
      by_cases hi : i = slot
      · subst hi
        rw [store_id_same]
        by_cases ht : t = me
        · subst ht; simp
        · rw [Function.update_noteq ht]
          have hne : ¬ me = t := fun e => ht e.symm
          simp only [Option.some.injEq, hne, false_iff]
          intro hc
          have := (h i t).2 hc
          rw [hfree] at this
          simp at this
      · rw [store_id_ne _ _ hi]
        by_cases ht : t = me
        · subst ht
          have hsi : ¬ slot = i := fun e => hi e.symm
          simp only [Function.update_same, Option.some.injEq, hsi, iff_false]
          intro hc
          have := (h i t).1 hc
          rw [hm] at this
          simp at this
        · rw [Function.update_noteq ht]
          exact h i t

theorem owner_inv_pop {T : Type} {fuel : Nat} {me : thread_id} {s s1 : State T}
    {r : Option T} (h : owner_inv s) (hpop : pop fuel me s = .ok (r, s1)) : owner_inv s1 := by
  obtain ⟨hp, s0, s2, old_head, hg, hu, hd⟩ := pop_ok_anatomy fuel me s r s1 hpop
  have h0 := owner_inv_get_hazard_pointer h hg
  obtain ⟨k1, k2, _⟩ := pop_dispose_frame _ _ _ _ hd
  obtain ⟨m1, m2, _⟩ := pop_unlink_frame hp _ _ _ _ _ hu
  refine owner_inv_of_fields h0 ?_ (k2.trans m2)
  intro i
  rw [k1]
  show (store_pointer s2.hazard_pointers hp none i).id = _
  rw [store_pointer_id]
  exact (m1 i).1

theorem owner_inv_thread_exit {T : Type} (t : thread_id) {s : State T} (h : owner_inv s) :
    owner_inv (thread_exit t s) := by
  unfold thread_exit
  cases hm : s.hazard t with
  | none => exact h
  | some hp =>
    intro i t1
    show (hp_owner_dtor hp s.hazard_pointers i).id = some t1 ↔
      Function.update s.hazard t none t1 = some i
    unfold hp_owner_dtor
    by_cases hi : i = hp
    · subst hi
      rw [store_id_same]
      by_cases ht : t1 = t
      · subst ht; simp
      · rw [Function.update_noteq ht]
        constructor
        · intro hc; simp at hc
        · intro hc
          have h1 := (h i t1).2 hc
          have h2 := (h i t).2 hm
          rw [h1] at h2
          simp only [Option.some.injEq] at h2
          exact absurd h2 ht
    · rw [store_id_ne _ _ hi, store_pointer_id]
      by_cases ht : t1 = t
      · subst ht
        simp only [Function.update_same]
        constructor
        · intro hc
          have := (h i t1).1 hc
          rw [hm] at this
          simp only [Option.some.injEq] at this
          exact absurd this.symm hi
        · intro hc; simp at hc
      · rw [Function.update_noteq ht]
        exact h i t1

theorem owner_inv_step {T : Type} {operator_new : Heap (node T) → Addr} {s s1 : State T}
    (h : owner_inv s) (hs : Step operator_new s s1) : owner_inv s1 := by
  cases hs with
  | push fuel v _ _ hp =>
    obtain ⟨k1, k2, _⟩ := push_frame operator_new fuel v s s1 hp
    exact owner_inv_of_fields h (fun i => by rw [k1]) k2
  | pop fuel me r _ _ hp => exact owner_inv_pop h hp
  | exit t _ => exact owner_inv_thread_exit t h

theorem owner_inv_reachable {T : Type} {operator_new : Heap (node T) → Addr} {s : State T}
    (h : Reachable operator_new s) : owner_inv s := by
  induction h with
  | init => exact owner_inv_init
  | step s s1 _ hs ih => exact owner_inv_step ih hs

/-- With the ownership invariant, the claimed slots inject into the threads holding an owner. -/
theorem claimed_count_le_of_owner_inv {T : Type} {s : State T} (h : owner_inv s)
    (S : Finset thread_id) (hS : ∀ t, s.hazard t ≠ none → t ∈ S) :
    claimed_count s.hazard_pointers ≤ S.card := by
  unfold claimed_count
  refine Finset.card_le_card_of_injOn (fun i => ((s.hazard_pointers i).id).getD 0) ?_ ?_
  · intro i hi
    have hi1 : (s.hazard_pointers i).id ≠ none := by simpa using hi
    obtain ⟨t, ht⟩ := Option.ne_none_iff_exists'.1 hi1
    simp only [ht, Option.getD_some]
    apply hS
    rw [(h i t).1 ht]
    simp
  · intro i hi j hj hij
    have hi1 : (s.hazard_pointers i).id ≠ none := by simpa using hi
    have hj1 : (s.hazard_pointers j).id ≠ none := by simpa using hj
    obtain ⟨t, ht⟩ := Option.ne_none_iff_exists'.1 hi1
    obtain ⟨u, hu⟩ := Option.ne_none_iff_exists'.1 hj1
    simp only [ht, hu, Option.getD_some] at hij
    subst hij
    have h1 := (h i t).1 ht
    have h2 := (h j t).1 hu
    rw [h1] at h2
    simpa using h2

theorem claimed_count_zero_of_owner_inv {T : Type} {s : State T} (h : owner_inv s)
    (hnone : ∀ t, s.hazard t = none) : claimed_count s.hazard_pointers = 0 := by
  unfold claimed_count
  rw [Finset.card_eq_zero, Finset.filter_eq_empty_iff]
  intro i _
  simp only [ne_eq, not_not]
  cases hid : (s.hazard_pointers i).id with
  | none => rfl
  | some t =>
    have := (h i t).1 hid
    rw [hnone t] at this
    simp at this

theorem pop_keeps_owner {T : Type} {fuel : Nat} {t me : thread_id} {s s1 : State T}
    {r : Option T} {hp : Fin max_hazard_pointers} (hm : s.hazard me = some hp)
    (hpop : pop fuel t s = .ok (r, s1)) : s1.hazard me = some hp := by
  obtain ⟨hp1, s0, s2, old_head, hg, hu, hd⟩ := pop_ok_anatomy fuel t s r s1 hpop
  obtain ⟨_, k2, _⟩ := pop_dispose_frame _ _ _ _ hd
  obtain ⟨_, m2, _⟩ := pop_unlink_frame hp1 _ _ _ _ _ hu
  rw [k2]
  show s2.hazard me = some hp
  rw [m2]
  cases ht : s.hazard t with
  | some hp0 =>
    rw [get_hazard_pointer_of_owner ht] at hg
    simp only [Except.ok.injEq, Prod.mk.injEq] at hg
    rw [← hg.2]
    exact hm
  | none =>
    rw [get_hazard_pointer_first ht] at hg
    cases hc : hp_owner_ctor t s.hazard_pointers with
    | error e => simp [hc] at hg
    | ok x =>
      obtain ⟨slot, reg⟩ := x
      simp only [hc, Except.ok.injEq, Prod.mk.injEq] at hg
      rw [← hg.2]
      have hne : me ≠ t := by
        intro e
        rw [e, ht] at hm
        simp at hm
      show Function.update s.hazard t (some slot) me = some hp
      rw [Function.update_noteq hne]
      exact hm

theorem claimed_of_owner {T : Type} {s : State T} (h : owner_inv s) {me : thread_id}
    {hp : Fin max_hazard_pointers} (hm : s.hazard me = some hp) :
    1 ≤ claimed_count s.hazard_pointers := by
  unfold claimed_count
  apply Finset.card_pos.2
  refine ⟨hp, ?_⟩
  simp only [Finset.mem_filter, Finset.mem_univ, true_and]
  rw [(h hp me).2 hm]
  simp

theorem thread_exit_owner {T : Type} (me : thread_id) (hp : Fin max_hazard_pointers)
    (s : State T) (hm : s.hazard me = some hp) :
    (thread_exit me s).hazard_pointers = hp_owner_dtor hp s.hazard_pointers ∧
      (thread_exit me s).hazard = Function.update s.hazard me none := by
  simp [thread_exit, hm]

theorem hp_owner_dtor_same (hp : Fin max_hazard_pointers) (reg : Registry) :
    hp_owner_dtor hp reg hp = ⟨none, none⟩ := by
  simp [hp_owner_dtor, store_id_same, store_pointer_same]

theorem hp_owner_dtor_ne (hp : Fin max_hazard_pointers) (reg : Registry)
    {j : Fin max_hazard_pointers} (h : j ≠ hp) : hp_owner_dtor hp reg j = reg j := by
  simp [hp_owner_dtor, store_id_ne _ _ h, store_pointer_ne _ _ h]

/-- C7: in a reachable state where thread `me` holds slot `hp`, the slot stays held by `me`
across every `push`, every `pop` of any thread, every retire, every sweep and the end of any
other thread; the end of `me` clears owner and protected address of that slot, changes no other
slot, and afterwards another thread without a slot acquires one, which is this very slot when
all slots below it are claimed. -/
theorem C7_slot_held_until_thread_exit {T : Type} (operator_new : Heap (node T) → Addr)
    (s : State T) (me : thread_id) (hp : Fin max_hazard_pointers)
    (hr : Reachable operator_new s) (hm : s.hazard me = some hp) :
    holds_slot s me hp ∧
    (∀ fuel v s1, push operator_new fuel v s = .ok s1 → holds_slot s1 me hp) ∧
    (∀ fuel t r s1, pop fuel t s = .ok (r, s1) → holds_slot s1 me hp) ∧
    (∀ p, holds_slot (reclaim_later p s) me hp) ∧
    (∀ s1, delete_nodes_with_no_hazards s = .ok s1 → holds_slot s1 me hp) ∧
    (∀ t, t ≠ me → holds_slot (thread_exit t s) me hp) ∧
    ((thread_exit me s).hazard_pointers hp = ⟨none, none⟩ ∧
      (thread_exit me s).hazard me = none ∧
      ∀ j, j ≠ hp → (thread_exit me s).hazard_pointers j = s.hazard_pointers j) ∧
    (∀ t, (thread_exit me s).hazard t = none →
      ∃ slot s2, get_hazard_pointer_for_current_thread t (thread_exit me s) = .ok (slot, s2) ∧
        holds_slot s2 t slot ∧ slot.val ≤ hp.val ∧
        ((∀ j : Fin max_hazard_pointers, j.val < hp.val → (s.hazard_pointers j).id ≠ none) →
          slot = hp)) := by
  have hinv := owner_inv_reachable hr
  have hid : (s.hazard_pointers hp).id = some me := (hinv hp me).2 hm
  obtain ⟨e1, e2⟩ := thread_exit_owner me hp s hm
  refine ⟨⟨hm, hid⟩, ?_, ?_, ?_, ?_, ?_, ⟨?_, ?_, ?_⟩, ?_⟩
  · intro fuel v s1 hpush
    obtain ⟨k1, k2, _⟩ := push_frame operator_new fuel v s s1 hpush
    exact ⟨by rw [k2]; exact hm, by rw [k1]; exact hid⟩
  · intro fuel t r s1 hpop
    have h1 := pop_keeps_owner hm hpop
    exact ⟨h1, ((owner_inv_pop hinv hpop) hp me).2 h1⟩
  · intro p
    exact ⟨hm, hid⟩
  · intro s1 hs
    obtain ⟨k1, k2, _⟩ := sweep_frame s s1 hs
    exact ⟨by rw [k2]; exact hm, by rw [k1]; exact hid⟩
  · intro t hne
    have h1 : (thread_exit t s).hazard me = some hp := by
      unfold thread_exit
      cases ht : s.hazard t with
      | none => exact hm
      | some hp1 =>
        show Function.update s.hazard t none me = some hp
        rw [Function.update_noteq (fun e => hne e.symm)]
        exact hm
    exact ⟨h1, ((owner_inv_thread_exit t hinv) hp me).2 h1⟩
  · rw [e1, hp_owner_dtor_same]
  · rw [e2]; simp
  · intro j hj
    rw [e1, hp_owner_dtor_ne _ _ hj]
  · intro t ht
    have hfree : ((thread_exit me s).hazard_pointers hp).id = none := by
      rw [e1, hp_owner_dtor_same]
    rcases hp_owner_ctor_cases t (thread_exit me s).hazard_pointers with he | ⟨slot, hok⟩
    · exact absurd hfree ((hp_owner_ctor_error_iff t _).1 he hp)
    · obtain ⟨c1, c2, _⟩ := hp_owner_ctor_ok t _ _ slot hok
      have hle : slot.val ≤ hp.val := by
        by_contra hlt
        exact c2 hp (by omega) hfree
      have hget : get_hazard_pointer_for_current_thread t (thread_exit me s) = .ok (slot,
          { thread_exit me s with
            hazard_pointers := store_id (thread_exit me s).hazard_pointers slot (some t),
            hazard := Function.update (thread_exit me s).hazard t (some slot) }) := by
        rw [get_hazard_pointer_first ht, hok]
      refine ⟨slot, _, hget, ⟨?_, ?_⟩, hle, ?_⟩
      · simp
      · show (store_id (thread_exit me s).hazard_pointers slot (some t) slot).id = some t
        rw [store_id_same]
      · intro hall
        by_contra hne
        have hlt : slot.val < hp.val := by
          rcases Nat.lt_or_ge slot.val hp.val with h | h
          · exact h
          · exact absurd (Fin.ext (Nat.le_antisymm hle h)) hne
        have hs : (thread_exit me s).hazard_pointers slot = s.hazard_pointers slot := by
          rw [e1, hp_owner_dtor_ne _ _ hne]
        rw [hs] at c1
        exact hall slot hlt c1

/-- C7 at the state reached by the first `pop` of thread 7, which holds slot 0. -/
theorem C7_slot_held_witness :
    holds_slot after_first_pop 7 0 ∧
    (∀ fuel v s1, push bump_allocator fuel v after_first_pop = .ok s1 → holds_slot s1 7 0) ∧
    (∀ fuel t r s1, pop fuel t after_first_pop = .ok (r, s1) → holds_slot s1 7 0) ∧
    (∀ p, holds_slot (reclaim_later p after_first_pop) 7 0) ∧
    (∀ s1, delete_nodes_with_no_hazards after_first_pop = .ok s1 → holds_slot s1 7 0) ∧
    (∀ t, t ≠ 7 → holds_slot (thread_exit t after_first_pop) 7 0) ∧
    ((thread_exit 7 after_first_pop).hazard_pointers 0 = ⟨none, none⟩ ∧
      (thread_exit 7 after_first_pop).hazard 7 = none ∧
      ∀ j, j ≠ 0 → (thread_exit 7 after_first_pop).hazard_pointers j
        = after_first_pop.hazard_pointers j) ∧
    (∀ t, (thread_exit 7 after_first_pop).hazard t = none →
      ∃ slot s2, get_hazard_pointer_for_current_thread t (thread_exit 7 after_first_pop)
          = .ok (slot, s2) ∧
        holds_slot s2 t slot ∧ slot.val ≤ (0 : Fin max_hazard_pointers).val ∧
        ((∀ j : Fin max_hazard_pointers, j.val < (0 : Fin max_hazard_pointers).val →
            (after_first_pop.hazard_pointers j).id ≠ none) →
          slot = 0)) :=
  C7_slot_held_until_thread_exit bump_allocator after_first_pop 7 0
    (Reachable.step _ _ Reachable.init (Step.pop 1 7 none _ _ first_pop_on_init))
    (by simp [after_first_pop])

/-! ### The registry under interleaving -/

theorem reg_inv_init : reg_inv RegSys.init := by
  intro i t
  simp [RegSys.init, Registry.init]

theorem reg_step_call_start (t : thread_id) (s : RegSys)
    (h : s.pc t = .idle ∨ s.pc t = .thrown) :
    reg_step (.call t) s = { s with pc := Function.update s.pc t (.scanning 0) } := by
  rcases h with h | h <;> simp [reg_step, h]

theorem reg_step_call_skip (t : thread_id) (s : RegSys)
    (h1 : s.pc t ≠ .idle) (h2 : s.pc t ≠ .thrown) : reg_step (.call t) s = s := by
  cases hpc : s.pc t <;> simp_all [reg_step]

theorem reg_step_cas_skip (t : thread_id) (s : RegSys) (h : ∀ k, s.pc t ≠ .scanning k) :
    reg_step (.cas t) s = s := by
  cases hpc : s.pc t <;> simp_all [reg_step]

theorem reg_step_cas_claim (t : thread_id) (s : RegSys) (k : Nat) (hk : k < max_hazard_pointers)
    (hpc : s.pc t = .scanning k) (hid : (s.hazard_pointers ⟨k, hk⟩).id = none) :
    reg_step (.cas t) s =
      ⟨store_id s.hazard_pointers ⟨k, hk⟩ (some t), Function.update s.pc t (.holding ⟨k, hk⟩)⟩ := by
  simp [reg_step, hpc, hk, compare_exchange_id_ok hid]

theorem reg_step_cas_next (t : thread_id) (s : RegSys) (k : Nat) (hk : k < max_hazard_pointers)
    (hpc : s.pc t = .scanning k) (hid : (s.hazard_pointers ⟨k, hk⟩).id ≠ none) :
    reg_step (.cas t) s = ⟨s.hazard_pointers, Function.update s.pc t (.scanning (k + 1))⟩ := by
  simp [reg_step, hpc, hk, compare_exchange_id_fail hid]

theorem reg_step_cas_throw (t : thread_id) (s : RegSys) (k : Nat) (hk : ¬ k < max_hazard_pointers)
    (hpc : s.pc t = .scanning k) :
    reg_step (.cas t) s = ⟨s.hazard_pointers, Function.update s.pc t .thrown⟩ := by
  simp [reg_step, hpc, hk]

theorem reg_step_store_holding (t : thread_id) (p : Ptr) (s : RegSys)
    (hp : Fin max_hazard_pointers) (hpc : s.pc t = .holding hp) :
    reg_step (.store t p) s = ⟨store_pointer s.hazard_pointers hp p, s.pc⟩ := by
  simp [reg_step, hpc]

theorem reg_step_store_skip (t : thread_id) (p : Ptr) (s : RegSys)
    (h : ∀ hp, s.pc t ≠ .holding hp) : reg_step (.store t p) s = s := by
  cases hpc : s.pc t <;> simp_all [reg_step]

theorem reg_step_dtor_pointer_holding (t : thread_id) (s : RegSys)
    (hp : Fin max_hazard_pointers) (hpc : s.pc t = .holding hp) :
    reg_step (.dtor_pointer t) s =
      ⟨store_pointer s.hazard_pointers hp none, Function.update s.pc t (.clearing hp)⟩ := by
  simp [reg_step, hpc]

theorem reg_step_dtor_pointer_skip (t : thread_id) (s : RegSys)
    (h : ∀ hp, s.pc t ≠ .holding hp) : reg_step (.dtor_pointer t) s = s := by
  cases hpc : s.pc t <;> simp_all [reg_step]

theorem reg_step_dtor_id_clearing (t : thread_id) (s : RegSys)
    (hp : Fin max_hazard_pointers) (hpc : s.pc t = .clearing hp) :
    reg_step (.dtor_id t) s =
      ⟨store_id s.hazard_pointers hp none, Function.update s.pc t .idle⟩ := by
  simp [reg_step, hpc]

theorem reg_step_dtor_id_skip (t : thread_id) (s : RegSys)
    (h : ∀ hp, s.pc t ≠ .clearing hp) : reg_step (.dtor_id t) s = s := by
  cases hpc : s.pc t <;> simp_all [reg_step]

/-- A thread that neither held nor was releasing a slot moves to a position of the same kind:
the invariant is untouched. -/
theorem reg_inv_move (s : RegSys) (h : reg_inv s) (t : thread_id) (pc1 : owner_pc)
    (hold : ∀ hp, s.pc t ≠ .holding hp ∧ s.pc t ≠ .clearing hp)
    (hnew : ∀ hp, pc1 ≠ .holding hp ∧ pc1 ≠ .clearing hp) :
    reg_inv ⟨s.hazard_pointers, Function.update s.pc t pc1⟩ := by
  intro i t1
  show (s.hazard_pointers i).id = some t1 ↔
    (Function.update s.pc t pc1 t1 = .holding i ∨ Function.update s.pc t pc1 t1 = .clearing i)
  by_cases ht : t1 = t
  · subst ht
    rw [Function.update_same]
    have h1 := h i t1
    constructor
    · intro hc
      rcases h1.1 hc with h2 | h2
      · exact absurd h2 (hold i).1
      · exact absurd h2 (hold i).2
    · intro hc
      rcases hc with h2 | h2
      · exact absurd h2 (hnew i).1
      · exact absurd h2 (hnew i).2
  · rw [Function.update_noteq ht]
    exact h i t1

theorem reg_inv_step (e : RegEvent) (s : RegSys) (h : reg_inv s) : reg_inv (reg_step e s) := by
  cases e with
  | call t =>
    by_cases hc : s.pc t = .idle ∨ s.pc t = .thrown
    · rw [reg_step_call_start t s hc]
      refine reg_inv_move s h t _ ?_ ?_
      · intro hp; rcases hc with hc | hc <;> simp [hc]
      · intro hp; simp
    · rw [reg_step_call_skip t s (fun e => hc (Or.inl e)) (fun e => hc (Or.inr e))]
      exact h
  | cas t =>
    cases hpc : s.pc t with
    | idle => rw [reg_step_cas_skip t s (by simp [hpc])]; exact h
    | thrown => rw [reg_step_cas_skip t s (by simp [hpc])]; exact h
    | holding hp => rw [reg_step_cas_skip t s (by simp [hpc])]; exact h
    | clearing hp => rw [reg_step_cas_skip t s (by simp [hpc])]; exact h
    | scanning k =>
      by_cases hk : k < max_hazard_pointers
      · by_cases hid : (s.hazard_pointers ⟨k, hk⟩).id = none
        · rw [reg_step_cas_claim t s k hk hpc hid]
          intro i t1
          show (store_id s.hazard_pointers ⟨k, hk⟩ (some t) i).id = some t1 ↔
            (Function.update s.pc t (.holding ⟨k, hk⟩) t1 = .holding i ∨
              Function.update s.pc t (.holding ⟨k, hk⟩) t1 = .clearing i)
          by_cases hi : i = ⟨k, hk⟩
          · subst hi
            rw [store_id_same]
            by_cases ht : t1 = t
            · subst ht; simp
            · rw [Function.update_noteq ht]
              have h1 := h ⟨k, hk⟩ t1
              rw [hid] at h1
              constructor
              · intro hc
                simp only [Option.some.injEq] at hc
                exact absurd hc.symm ht
              · intro hc
                have := h1.2 hc
                simp at this
          · rw [store_id_ne _ _ hi]
            by_cases ht : t1 = t
            · subst ht
              rw [Function.update_same]
              have h1 := h i t1
              constructor
              · intro hc
                have := h1.1 hc
                simp [hpc] at this
              · intro hc
                rcases hc with hc | hc
                · simp only [owner_pc.holding.injEq] at hc
                  exact absurd hc.symm hi
                · simp at hc
            · rw [Function.update_noteq ht]
              exact h i t1
        · rw [reg_step_cas_next t s k hk hpc hid]
          exact reg_inv_move s h t _ (by intro hp; simp [hpc]) (by intro hp; simp)
      · rw [reg_step_cas_throw t s k hk hpc]
        exact reg_inv_move s h t _ (by intro hp; simp [hpc]) (by intro hp; simp)
  | store t p =>
    by_cases hc : ∃ hp, s.pc t = .holding hp
    · obtain ⟨hp, hpc⟩ := hc
      rw [reg_step_store_holding t p s hp hpc]
      intro i t1
      show (store_pointer s.hazard_pointers hp p i).id = some t1 ↔ _
      rw [store_pointer_id]
      exact h i t1
    · rw [reg_step_store_skip t p s (fun hp e => hc ⟨hp, e⟩)]
      exact h
  | dtor_pointer t =>
    by_cases hc : ∃ hp, s.pc t = .holding hp
    · obtain ⟨hp, hpc⟩ := hc
      rw [reg_step_dtor_pointer_holding t s hp hpc]
      intro i t1
      show (store_pointer s.hazard_pointers hp none i).id = some t1 ↔
        (Function.update s.pc t (.clearing hp) t1 = .holding i ∨
          Function.update s.pc t (.clearing hp) t1 = .clearing i)
      rw [store_pointer_id]
      by_cases ht : t1 = t
      · subst ht
        rw [Function.update_same]
        have h1 := h i t1
        rw [hpc] at h1
        constructor
        · intro hc
          rcases h1.1 hc with h2 | h2
          · simp only [owner_pc.holding.injEq] at h2
            right; rw [h2]
          · simp at h2
        · intro hc
          rcases hc with h2 | h2
          · simp at h2
          · simp only [owner_pc.clearing.injEq] at h2
            exact h1.2 (Or.inl (by rw [h2]))
      · rw [Function.update_noteq ht]
        exact h i t1
    · rw [reg_step_dtor_pointer_skip t s (fun hp e => hc ⟨hp, e⟩)]
      exact h
  | dtor_id t =>
    by_cases hc : ∃ hp, s.pc t = .clearing hp
    · obtain ⟨hp, hpc⟩ := hc
      rw [reg_step_dtor_id_clearing t s hp hpc]
      intro i t1
      show (store_id s.hazard_pointers hp none i).id = some t1 ↔
        (Function.update s.pc t .idle t1 = .holding i ∨
          Function.update s.pc t .idle t1 = .clearing i)
      have hown : (s.hazard_pointers hp).id = some t := (h hp t).2 (Or.inr hpc)
      by_cases hi : i = hp
      · subst hi
        rw [store_id_same]
        by_cases ht : t1 = t
        · subst ht; simp
        · rw [Function.update_noteq ht]
          constructor
          · intro hc; simp at hc
          · intro hc
            have := (h i t1).2 hc
            rw [hown] at this
            simp only [Option.some.injEq] at this
            exact absurd this.symm ht
      · rw [store_id_ne _ _ hi]
        by_cases ht : t1 = t
        · subst ht
          rw [Function.update_same]
          have h1 := h i t1
          rw [hpc] at h1
          constructor
          · intro hc
            rcases h1.1 hc with h2 | h2
            · simp at h2
            · simp only [owner_pc.clearing.injEq] at h2
              exact absurd h2.symm hi
          · intro hc
            simp at hc
        · rw [Function.update_noteq ht]
          exact h i t1
    · rw [reg_step_dtor_id_skip t s (fun hp e => hc ⟨hp, e⟩)]
      exact h

theorem reg_inv_run : ∀ (evs : List RegEvent) (s : RegSys), reg_inv s → reg_inv (reg_run evs s) := by
  intro evs
  induction evs with
  | nil => intro s h; exact h
  | cons e es ih => intro s h; exact ih _ (reg_inv_step e s h)

theorem reg_run_append (a b : List RegEvent) (s : RegSys) :
    reg_run (a ++ b) s = reg_run b (reg_run a s) := by
  induction a generalizing s with
  | nil => rfl
  | cons e es ih => exact ih (reg_step e s)

/-- Threads holding slots are at most as many as there are slots. -/
theorem holders_le_capacity (s : RegSys) (h : reg_inv s) (S : Finset thread_id)
    (hS : ∀ t ∈ S, ∃ hp, s.pc t = .holding hp) : S.card ≤ max_hazard_pointers := by
  have hcard : (Finset.univ : Finset (Fin max_hazard_pointers)).card = max_hazard_pointers :=
    Finset.card_fin _
  rw [← hcard]
  refine Finset.card_le_card_of_injOn
    (fun t => match s.pc t with
      | .holding hp => hp
      | _ => 0) (fun _ _ => Finset.mem_coe.2 (Finset.mem_univ _)) ?_
  intro t ht u hu htu
  obtain ⟨hp, hpt⟩ := hS t ht
  obtain ⟨hq, hqu⟩ := hS u hu
  simp only [hpt, hqu] at htu
  subst htu
  have h1 := (h hp t).2 (Or.inl hpt)
  have h2 := (h hp u).2 (Or.inl hqu)
  rw [h1] at h2
  simpa using h2

theorem claimed_count_le_capacity (reg : Registry) : claimed_count reg ≤ max_hazard_pointers := by
  unfold claimed_count
  have h := Finset.card_filter_le (Finset.univ : Finset (Fin max_hazard_pointers))
    (fun i => (reg i).id ≠ none)
  rw [Finset.card_fin] at h
  exact h

theorem finished_iff (s : RegSys) (t : thread_id) :
    finished s t = true ↔ (∃ hp, s.pc t = .holding hp) ∨ s.pc t = .thrown := by
  unfold finished
  cases hpc : s.pc t <;> simp

/-- More finished threads than slots: one of them has seen the constructor throw. -/
theorem some_thread_thrown (s : RegSys) (h : reg_inv s) (S : Finset thread_id)
    (hcard : max_hazard_pointers < S.card) (hfin : ∀ t ∈ S, finished s t = true) :
    ∃ t ∈ S, s.pc t = .thrown := by
  by_contra hno
  have hall : ∀ t ∈ S, ∃ hp, s.pc t = .holding hp := by
    intro t ht
    rcases (finished_iff s t).1 (hfin t ht) with h1 | h1
    · exact h1
    · exact absurd ⟨t, ht, h1⟩ hno
  have := holders_le_capacity s h S hall
  omega

theorem reg_run_cas_skip (t : thread_id) :
    ∀ (k : Nat) (s : RegSys), (∀ i, s.pc t ≠ .scanning i) →
      reg_run (List.replicate k (.cas t)) s = s := by
  intro k
  induction k with
  | zero => intro s _; rfl
  | succ k ih =>
    intro s h
    simp only [List.replicate_succ, reg_run]
    rw [reg_step_cas_skip t s h]
    exact ih s h

/-- Uninterrupted, the loop steps of thread `t` do what the loop of `hp_owner()` does. -/
theorem reg_run_cas_loop (t : thread_id) :
    ∀ (k i : Nat) (s : RegSys), s.pc t = .scanning i → i ≤ max_hazard_pointers →
      max_hazard_pointers + 1 ≤ i + k →
      reg_run (List.replicate k (.cas t)) s =
        ⟨(hp_owner_loop t k i s.hazard_pointers).2,
          Function.update s.pc t (pc_after_ctor (hp_owner_loop t k i s.hazard_pointers).1)⟩ := by
  intro k
  induction k with
  | zero => intro i s _ h1 h2; omega
  | succ k ih =>
    intro i s hpc hi hk
    simp only [List.replicate_succ, reg_run]
    by_cases hlt : i < max_hazard_pointers
    · by_cases hid : (s.hazard_pointers ⟨i, hlt⟩).id = none
      · rw [reg_step_cas_claim t s i hlt hpc hid, reg_run_cas_skip t k _ (by simp)]
        simp [hp_owner_loop, hlt, compare_exchange_id_ok hid, pc_after_ctor]
      · rw [reg_step_cas_next t s i hlt hpc hid,
          ih (i + 1) _ (by simp) (by omega) (by omega)]
        simp [hp_owner_loop, hlt, compare_exchange_id_fail hid]
    · rw [reg_step_cas_throw t s i hlt hpc, reg_run_cas_skip t k _ (by simp)]
      simp [hp_owner_loop, hlt, pc_after_ctor]

/-- A first use run without interruption: the registry and the caller's position afterwards
are those given by the loop of `hp_owner()`. -/
theorem reg_run_solo (t : thread_id) (s : RegSys) (hpc : s.pc t = .idle) :
    reg_run (solo t) s =
      ⟨(hp_owner_loop t (max_hazard_pointers + 1) 0 s.hazard_pointers).2,
        Function.update s.pc t
          (pc_after_ctor (hp_owner_loop t (max_hazard_pointers + 1) 0 s.hazard_pointers).1)⟩ := by
  unfold solo
  show reg_run (List.replicate (max_hazard_pointers + 1) (.cas t)) (reg_step (.call t) s) = _
  rw [reg_step_call_start t s (Or.inl hpc),
    reg_run_cas_loop t _ 0 _ (Function.update_same _ _ _) (Nat.zero_le _) (by omega)]
  show (⟨_, Function.update (Function.update s.pc t _) t _⟩ : RegSys) = _
  rw [Function.update_idem]

/-- After the threads `0, ..., n - 1` have run one by one (`n` at most the capacity), thread `i`
holds slot `i` for every `i < n`, the other slots are unowned and the other threads idle. -/
theorem one_by_one_spec :
    ∀ n, n ≤ max_hazard_pointers →
      (∀ i : Fin max_hazard_pointers,
        ((reg_run (one_by_one n) RegSys.init).hazard_pointers i).id
          = if i.val < n then some i.val else none) ∧
      (∀ t, t < n → ∃ hp, (reg_run (one_by_one n) RegSys.init).pc t = .holding hp) ∧
      (∀ t, n ≤ t → (reg_run (one_by_one n) RegSys.init).pc t = .idle) := by
  intro n
  induction n with
  | zero =>
    intro _
    refine ⟨?_, ?_, ?_⟩
    · intro i; simp [one_by_one, reg_run, RegSys.init, Registry.init]
    · intro t ht; omega
    · intro t _; rfl
  | succ n ih =>
    intro hn
    obtain ⟨h1, h2, h3⟩ := ih (by omega)
    have hlt : n < max_hazard_pointers := by omega
    have hrun : reg_run (one_by_one (n + 1)) RegSys.init
        = reg_run (solo n) (reg_run (one_by_one n) RegSys.init) := by
      simp only [one_by_one]
      rw [reg_run_append]
    rw [hrun, reg_run_solo n _ (h3 n (le_refl _))]
    generalize reg_run (one_by_one n) RegSys.init = s at h1 h2 h3
    rcases hl : hp_owner_loop n (max_hazard_pointers + 1) 0 s.hazard_pointers with ⟨r, reg1⟩
    cases r with
    | none =>
      have := (hp_owner_loop_none n _ 0 _ _ (by omega) hl).1 ⟨n, hlt⟩ (Nat.zero_le _)
      rw [h1] at this
      simp at this
    | some slot =>
      obtain ⟨_, c1, c2, c3⟩ := hp_owner_loop_some n _ 0 _ _ slot hl
      have hslot : slot = ⟨n, hlt⟩ := by
        apply Fin.ext
        show slot.val = n
        rw [h1] at c1
        have hge : ¬ slot.val < n := by
          intro hc
          simp [hc] at c1
        have hle : ¬ n < slot.val := by
          intro hc
          have := c2 ⟨n, hlt⟩ (Nat.zero_le _) hc
          rw [h1] at this
          simp at this
        omega
      subst hslot
      subst c3
      refine ⟨?_, ?_, ?_⟩
      · intro i
        show (store_id s.hazard_pointers ⟨n, hlt⟩ (some n) i).id = _
        by_cases hi : i = ⟨n, hlt⟩
        · subst hi
          rw [store_id_same]
          simp
        · rw [store_id_ne _ _ hi, h1]
          have hne : i.val ≠ n := fun e => hi (Fin.ext e)
          by_cases hc : i.val < n
          · have : i.val < n + 1 := by omega
            simp [hc, this]
          · have : ¬ i.val < n + 1 := by omega
            simp [hc, this]
      · intro t ht
        show ∃ hp, Function.update s.pc n (pc_after_ctor (some ⟨n, hlt⟩)) t = .holding hp
        by_cases htn : t = n
        · subst htn
          exact ⟨⟨t, hlt⟩, by simp [pc_after_ctor]⟩
        · rw [Function.update_noteq htn]
          exact h2 t (by omega)
      · intro t ht
        show Function.update s.pc n (pc_after_ctor (some ⟨n, hlt⟩)) t = .idle
        rw [Function.update_noteq (show t ≠ n by omega)]
        exact h3 t (by omega)

/-- The scenario of one thread more than there are slots, run one by one: the first hundred
threads hold a slot each and the last one has seen the constructor throw. -/
theorem one_by_one_exhausts :
    (∀ t, t < max_hazard_pointers →
      ∃ hp, (reg_run (one_by_one (max_hazard_pointers + 1)) RegSys.init).pc t = .holding hp) ∧
    (reg_run (one_by_one (max_hazard_pointers + 1)) RegSys.init).pc max_hazard_pointers
      = .thrown := by
  obtain ⟨h1, h2, h3⟩ := one_by_one_spec max_hazard_pointers (le_refl _)
  have hrun : reg_run (one_by_one (max_hazard_pointers + 1)) RegSys.init
      = reg_run (solo max_hazard_pointers)
          (reg_run (one_by_one max_hazard_pointers) RegSys.init) := by
    show reg_run (one_by_one max_hazard_pointers ++ solo max_hazard_pointers) RegSys.init = _
    rw [reg_run_append]
  rw [hrun, reg_run_solo _ _ (h3 _ (le_refl _))]
  generalize reg_run (one_by_one max_hazard_pointers) RegSys.init = s at h1 h2 h3
  have hfull : hp_owner_loop max_hazard_pointers (max_hazard_pointers + 1) 0 s.hazard_pointers
      = (none, s.hazard_pointers) := by
    apply hp_owner_loop_full
    intro j _
    rw [h1]
    simp [j.isLt]
  rw [hfull]
  constructor
  · intro t ht
    show ∃ hp, Function.update s.pc max_hazard_pointers (pc_after_ctor none) t = .holding hp
    rw [Function.update_noteq (show t ≠ max_hazard_pointers by omega)]
    exact h2 t ht
  · show Function.update s.pc max_hazard_pointers (pc_after_ctor none) max_hazard_pointers = _
    simp [pc_after_ctor]

/-- C5: from an unclaimed registry and under every interleaving of the atomic steps of any
number of threads, at most 100 threads hold a slot and at most 100 slots are claimed at any
time; whenever 101 distinct threads have all completed their first use without terminating,
at least one of them has observed the thrown `runtime_error`; and such a run exists. -/
theorem C5_registry_exhaustion :
    (∀ (evs : List RegEvent) (S : Finset thread_id),
      claimed_count (reg_run evs RegSys.init).hazard_pointers ≤ max_hazard_pointers ∧
      ((∀ t ∈ S, ∃ hp, (reg_run evs RegSys.init).pc t = .holding hp) →
        S.card ≤ max_hazard_pointers) ∧
      (S.card = max_hazard_pointers + 1 →
        (∀ t ∈ S, finished (reg_run evs RegSys.init) t = true) →
        ∃ t ∈ S, (reg_run evs RegSys.init).pc t = .thrown)) ∧
    (∃ evs : List RegEvent,
      (∀ t ∈ Finset.range (max_hazard_pointers + 1),
        finished (reg_run evs RegSys.init) t = true) ∧
      (∀ t, t < max_hazard_pointers → ∃ hp, (reg_run evs RegSys.init).pc t = .holding hp) ∧
      (reg_run evs RegSys.init).pc max_hazard_pointers = .thrown) := by
  constructor
  · intro evs S
    have hinv := reg_inv_run evs RegSys.init reg_inv_init
    refine ⟨claimed_count_le_capacity _, holders_le_capacity _ hinv S, ?_⟩
    intro hcard hfin
    exact some_thread_thrown _ hinv S (by omega) hfin
  · obtain ⟨h1, h2⟩ := one_by_one_exhausts
    refine ⟨one_by_one (max_hazard_pointers + 1), ?_, h1, h2⟩
    intro t ht
    rw [finished_iff]
    have hle : t < max_hazard_pointers + 1 := Finset.mem_range.1 ht
    by_cases hc : t < max_hazard_pointers
    · exact Or.inl (h1 t hc)
    · have : t = max_hazard_pointers := by omega
      rw [this]
      exact Or.inr h2

/-- Under the invariant no thread identity is the owner of two slots. -/
theorem reg_owner_unique (s : RegSys) (h : reg_inv s) (i j : Fin max_hazard_pointers)
    (t : thread_id) (hi : (s.hazard_pointers i).id = some t)
    (hj : (s.hazard_pointers j).id = some t) : i = j := by
  rcases (h i t).1 hi with h1 | h1 <;> rcases (h j t).1 hj with h2 | h2 <;>
    rw [h1] at h2 <;> simp at h2 <;> exact h2

/-- C6: once a thread has its slot, `get_hazard_pointer_for_current_thread` returns that same
slot and changes nothing, also right after the call that claimed it and after any later `pop`
of any thread; and in every reachable state no thread identity is the owner of two slots. -/
theorem C6_slot_acquisition_idempotent {T : Type} (operator_new : Heap (node T) → Addr)
    (s : State T) (hr : Reachable operator_new s) :
    (∀ me hp, s.hazard me = some hp →
      get_hazard_pointer_for_current_thread me s = .ok (hp, s)) ∧
    (∀ me hp s1, get_hazard_pointer_for_current_thread me s = .ok (hp, s1) →
      get_hazard_pointer_for_current_thread me s1 = .ok (hp, s1)) ∧
    (∀ me hp fuel t r s1, s.hazard me = some hp → pop fuel t s = .ok (r, s1) →
      get_hazard_pointer_for_current_thread me s1 = .ok (hp, s1)) ∧
    (∀ (i j : Fin max_hazard_pointers) (t : thread_id),
      (s.hazard_pointers i).id = some t → (s.hazard_pointers j).id = some t → i = j) ∧
    (∀ (evs : List RegEvent) (i j : Fin max_hazard_pointers) (t : thread_id),
      ((reg_run evs RegSys.init).hazard_pointers i).id = some t →
      ((reg_run evs RegSys.init).hazard_pointers j).id = some t → i = j) := by
  refine ⟨?_, ?_, ?_, ?_, ?_⟩
  · intro me hp hm
    exact get_hazard_pointer_of_owner hm
  · intro me hp s1 hg
    exact get_hazard_pointer_of_owner (get_hazard_pointer_frame hg).2.2.2.2
  · intro me hp fuel t r s1 hm hpop
    exact get_hazard_pointer_of_owner (pop_keeps_owner hm hpop)
  · intro i j t hi hj
    have hinv := owner_inv_reachable hr
    have h1 := (hinv i t).1 hi
    have h2 := (hinv j t).1 hj
    rw [h1] at h2
    simpa using h2
  · intro evs i j t hi hj
    exact reg_owner_unique _ (reg_inv_run evs RegSys.init reg_inv_init) i j t hi hj

/-- C6 at the state reached by the first `pop` of thread 7. -/
theorem C6_slot_acquisition_idempotent_witness :
    (∀ me hp, after_first_pop.hazard me = some hp →
      get_hazard_pointer_for_current_thread me after_first_pop = .ok (hp, after_first_pop)) ∧
    (∀ me hp s1, get_hazard_pointer_for_current_thread me after_first_pop = .ok (hp, s1) →
      get_hazard_pointer_for_current_thread me s1 = .ok (hp, s1)) ∧
    (∀ me hp fuel t r s1, after_first_pop.hazard me = some hp →
      pop fuel t after_first_pop = .ok (r, s1) →
      get_hazard_pointer_for_current_thread me s1 = .ok (hp, s1)) ∧
    (∀ (i j : Fin max_hazard_pointers) (t : thread_id),
      (after_first_pop.hazard_pointers i).id = some t →
      (after_first_pop.hazard_pointers j).id = some t → i = j) ∧
    (∀ (evs : List RegEvent) (i j : Fin max_hazard_pointers) (t : thread_id),
      ((reg_run evs RegSys.init).hazard_pointers i).id = some t →
      ((reg_run evs RegSys.init).hazard_pointers j).id = some t → i = j) :=
  C6_slot_acquisition_idempotent bump_allocator after_first_pop
    (Reachable.step _ _ Reachable.init (Step.pop 1 7 none _ _ first_pop_on_init))

/-- Under the invariant the claimed slots inject into the threads holding or releasing one. -/
theorem claimed_count_le_of_reg_inv (s : RegSys) (h : reg_inv s) (S : Finset thread_id)
    (hS : ∀ t hp, s.pc t = .holding hp ∨ s.pc t = .clearing hp → t ∈ S) :
    claimed_count s.hazard_pointers ≤ S.card := by
  unfold claimed_count
  refine Finset.card_le_card_of_injOn (fun i => ((s.hazard_pointers i).id).getD 0) ?_ ?_
  · intro i hi
    have hi1 : (s.hazard_pointers i).id ≠ none := by simpa using hi
    obtain ⟨t, ht⟩ := Option.ne_none_iff_exists'.1 hi1
    simp only [ht, Option.getD_some]
    exact hS t i ((h i t).1 ht)
  · intro i hi j hj hij
    have hi1 : (s.hazard_pointers i).id ≠ none := by simpa using hi
    have hj1 : (s.hazard_pointers j).id ≠ none := by simpa using hj
    obtain ⟨t, ht⟩ := Option.ne_none_iff_exists'.1 hi1
    obtain ⟨u, hu⟩ := Option.ne_none_iff_exists'.1 hj1
    simp only [ht, hu, Option.getD_some] at hij
    subst hij
    exact reg_owner_unique s h i j t ht hu

/-- C8, counterexample: the only `pop` ever called has returned, no thread is inside `pop`,
and one slot is still claimed. -/
theorem C8_counterexample_slot_outlives_pop :
    pop 1 7 (State.init : State Nat) = .ok (none, after_first_pop) ∧
      claimed_count after_first_pop.hazard_pointers = 1 :=
  ⟨first_pop_on_init, claimed_count_after_first_pop⟩

/-- C8, amended: between operations the number of claimed slots never exceeds the number of
threads that have constructed their owner (by calling `pop`) and have not terminated; when no
such thread is left, no slot is claimed; a returning `pop` leaves the caller's slot claimed;
and under every interleaving of the atomic registry steps the claimed slots are at most as
many as the threads that hold a slot or are releasing one. -/
theorem C8_claimed_slots_bounded_by_live_owners {T : Type}
    (operator_new : Heap (node T) → Addr) (s : State T) (hr : Reachable operator_new s) :
    (∀ S : Finset thread_id, (∀ t, s.hazard t ≠ none → t ∈ S) →
      claimed_count s.hazard_pointers ≤ S.card) ∧
    ((∀ t, s.hazard t = none) → claimed_count s.hazard_pointers = 0) ∧
    (∀ fuel me r s1, pop fuel me s = .ok (r, s1) →
      s1.hazard me ≠ none ∧ 1 ≤ claimed_count s1.hazard_pointers) ∧
    (∀ (evs : List RegEvent) (S : Finset thread_id),
      (∀ t hp, (reg_run evs RegSys.init).pc t = .holding hp ∨
          (reg_run evs RegSys.init).pc t = .clearing hp → t ∈ S) →
        claimed_count (reg_run evs RegSys.init).hazard_pointers ≤ S.card) := by
  have hinv := owner_inv_reachable hr
  refine ⟨claimed_count_le_of_owner_inv hinv, claimed_count_zero_of_owner_inv hinv, ?_,
    fun evs S hS =>
      claimed_count_le_of_reg_inv _ (reg_inv_run evs RegSys.init reg_inv_init) S hS⟩
  intro fuel me r s1 hpop
  obtain ⟨hp, s0, s2, old_head, hg, hu, hd⟩ := pop_ok_anatomy fuel me s r s1 hpop
  have h0 : s0.hazard me = some hp := (get_hazard_pointer_frame hg).2.2.2.2
  obtain ⟨_, k2, _⟩ := pop_dispose_frame _ _ _ _ hd
  obtain ⟨_, m2, _⟩ := pop_unlink_frame hp _ _ _ _ _ hu
  have h1 : s1.hazard me = some hp := by
    rw [k2]
    show s2.hazard me = some hp
    rw [m2]
    exact h0
  exact ⟨by rw [h1]; simp, claimed_of_owner (owner_inv_pop hinv hpop) h1⟩

/-- C8, amended, at the state reached by the first `pop` of thread 7 followed by the end of
thread 7. -/
theorem C8_claimed_slots_bounded_witness :
    (∀ S : Finset thread_id, (∀ t, (thread_exit 7 after_first_pop).hazard t ≠ none → t ∈ S) →
      claimed_count (thread_exit 7 after_first_pop).hazard_pointers ≤ S.card) ∧
    ((∀ t, (thread_exit 7 after_first_pop).hazard t = none) →
      claimed_count (thread_exit 7 after_first_pop).hazard_pointers = 0) ∧
    (∀ fuel me r s1, pop fuel me (thread_exit 7 after_first_pop) = .ok (r, s1) →
      s1.hazard me ≠ none ∧ 1 ≤ claimed_count s1.hazard_pointers) ∧
    (∀ (evs : List RegEvent) (S : Finset thread_id),
      (∀ t hp, (reg_run evs RegSys.init).pc t = .holding hp ∨
          (reg_run evs RegSys.init).pc t = .clearing hp → t ∈ S) →
        claimed_count (reg_run evs RegSys.init).hazard_pointers ≤ S.card) :=
  C8_claimed_slots_bounded_by_live_owners bump_allocator (thread_exit 7 after_first_pop)
    (Reachable.step _ _
      (Reachable.step _ _ Reachable.init (Step.pop 1 7 none _ _ first_pop_on_init))
      (Step.exit 7 _))

end HazardPtrs

namespace HazardPtrs

open Mem

/-! ### The sweep, on any pending list -/

theorem do_delete_ok_inv {T : Type} (a : Addr) (s s1 : State T)
    (h : do_delete (some a) s = .ok s1) :
    s.heap.read a ≠ none ∧
      s1 = { s with heap := s.heap.free a, deleted := a :: s.deleted } := by
  unfold do_delete at h
  cases hr : s.heap.read a with
  | none => simp [hr] at h
  | some n =>
    simp only [hr, Except.ok.injEq] at h
    exact ⟨by simp, h.symm⟩

/-- What a completed loop of the sweep has done, on any detached list. -/
theorem delete_nodes_loop_ok {T : Type} :
    ∀ (l : List data_to_reclaim) (s s1 : State T), delete_nodes_loop l s = .ok s1 →
      s1.nodes_to_reclaim =
        (l.filter (fun e => outstanding_hazard_pointers_for s.hazard_pointers e.data)).reverse
          ++ s.nodes_to_reclaim ∧
      s1.deleted =
        ((l.filter (fun e => !outstanding_hazard_pointers_for s.hazard_pointers e.data)).filterMap
          (fun e => e.data)).reverse ++ s.deleted ∧
      ((l.filter (fun e => !outstanding_hazard_pointers_for s.hazard_pointers e.data)).filterMap
          (fun e => e.data)).Nodup ∧
      (∀ a ∈ (l.filter (fun e => !outstanding_hazard_pointers_for s.hazard_pointers e.data)).filterMap
          (fun e => e.data), s.heap.read a ≠ none) ∧
      ∀ b, s1.heap.read b =
        if (⟨some b⟩ : data_to_reclaim) ∈ l ∧
            outstanding_hazard_pointers_for s.hazard_pointers (some b) = false
        then none else s.heap.read b := by
  intro l
  induction l with
  | nil =>
    intro s s1 h
    simp only [delete_nodes_loop, Except.ok.injEq] at h
    subst h
    simp
  | cons e l ih =>
    intro s s1 h
    unfold delete_nodes_loop at h
    cases hp : outstanding_hazard_pointers_for s.hazard_pointers e.data with
    | true =>
      simp only [hp, Bool.not_true, Bool.false_eq_true, if_false] at h
      obtain ⟨h1, h2, h3, h4, h5⟩ := ih _ s1 h
      dsimp only [add_to_reclaim_list] at h1 h2 h3 h4 h5
      refine ⟨?_, ?_, ?_, ?_, ?_⟩
      · rw [h1]; simp [List.filter_cons, hp]
      · rw [h2]; simp [List.filter_cons, hp]
      · simpa [List.filter_cons, hp] using h3
      · simpa [List.filter_cons, hp] using h4
      · intro b
        rw [h5 b]
        by_cases hb : e = ⟨some b⟩
        · subst hb
          simp only at hp
          simp [hp]
        · have hb2 : ¬ (⟨some b⟩ : data_to_reclaim) = e := fun x => hb x.symm
          simp [List.mem_cons, hb2]
    | false =>
      simp only [hp, Bool.not_false, if_true] at h
      cases hd : do_delete e.data s with
      | error err => simp [hd] at h
      | ok s2 =>
        simp only [hd] at h
        obtain ⟨h1, h2, h3, h4, h5⟩ := ih _ s1 h
        cases hdata : e.data with
        | none =>
          have hs2 : s2 = s := by
            simp only [hdata, do_delete, Except.ok.injEq] at hd
            exact hd.symm
          subst hs2
          have hp0 : outstanding_hazard_pointers_for s2.hazard_pointers none = false := by
            rw [← hdata]; exact hp
          refine ⟨?_, ?_, ?_, ?_, ?_⟩
          · rw [h1]; simp [List.filter_cons, hp0, hdata]
          · rw [h2]; simp [List.filter_cons, hp0, hdata]
          · simpa [List.filter_cons, hp0, hdata] using h3
          · simpa [List.filter_cons, hp0, hdata] using h4
          · intro b
            rw [h5 b]
            have hb2 : ¬ (⟨some b⟩ : data_to_reclaim) = e := by
              intro x
              rw [← x] at hdata
              simp at hdata
            simp [List.mem_cons, hb2]
        | some a =>
          rw [hdata] at hd
          obtain ⟨hlive, hs2⟩ := do_delete_ok_inv a s s2 hd
          subst hs2
          dsimp only at h1 h2 h3 h4 h5
          have he : e = ⟨some a⟩ := (mem_reclaim_iff e a).1 hdata
          subst he
          refine ⟨?_, ?_, ?_, ?_, ?_⟩
          · rw [h1]; simp [List.filter_cons, hp]
          · rw [h2]; simp [List.filter_cons, hp]
          · simp only [List.filter_cons, hp, Bool.not_false, if_true, List.filterMap_cons,
              List.nodup_cons]
            refine ⟨?_, h3⟩
            intro hmem
            exact h4 a hmem (Heap.read_free_same _ _)
          · intro b hb
            simp only [List.filter_cons, hp, Bool.not_false, if_true, List.filterMap_cons,
              List.mem_cons] at hb
            rcases hb with hb | hb
            · rw [hb]; exact hlive
            · have := h4 b hb
              by_cases hba : b = a
              · rw [hba]; exact hlive
              · rwa [Heap.read_free_ne _ hba] at this
          · intro b
            rw [h5 b]
            by_cases hb : b = a
            · subst hb
              simp [hp, Heap.read_free_same]
            · have : (⟨some b⟩ : data_to_reclaim) ≠ ⟨some a⟩ := by simpa using hb
              simp [List.mem_cons, this, Heap.read_free_ne _ hb]

end HazardPtrs

namespace HazardPtrs

open Mem

/-- C11: on a pending list of distinct entries for allocated nodes, the sweep returns; and
whenever it returns, on any pending list and any registry, it has called the destructor exactly
once for each entry whose address no slot holds and for nothing else (the destroyed addresses
are pairwise distinct and their nodes are freed), the pending list afterwards is exactly the
entries whose address some slot holds, and the old list is a rearrangement of the kept and the
destroyed entries. -/
theorem C11_sweep_partitions_pending_list {T : Type} (s : State T) :
    (reclaim_ok s → ∃ s1, delete_nodes_with_no_hazards s = .ok s1) ∧
    (∀ s1, delete_nodes_with_no_hazards s = .ok s1 →
      s1.nodes_to_reclaim =
        (s.nodes_to_reclaim.filter
          (fun e => outstanding_hazard_pointers_for s.hazard_pointers e.data)).reverse ∧
      s1.deleted =
        ((s.nodes_to_reclaim.filter
          (fun e => !outstanding_hazard_pointers_for s.hazard_pointers e.data)).filterMap
            (fun e => e.data)).reverse ++ s.deleted ∧
      ((s.nodes_to_reclaim.filter
          (fun e => !outstanding_hazard_pointers_for s.hazard_pointers e.data)).filterMap
            (fun e => e.data)).Nodup ∧
      s.nodes_to_reclaim.Perm
        (s1.nodes_to_reclaim ++ s.nodes_to_reclaim.filter
          (fun e => !outstanding_hazard_pointers_for s.hazard_pointers e.data)) ∧
      (∀ b, s1.heap.read b =
        if (⟨some b⟩ : data_to_reclaim) ∈ s.nodes_to_reclaim ∧
            outstanding_hazard_pointers_for s.hazard_pointers (some b) = false
        then none else s.heap.read b) ∧
      s1.hazard_pointers = s.hazard_pointers) := by
  constructor
  · intro hok
    obtain ⟨s1, h1, _⟩ := sweep_spec s hok
    exact ⟨s1, h1⟩
  · intro s1 h
    obtain ⟨h1, h2, h3, _, h5⟩ := delete_nodes_loop_ok _ _ s1 h
    obtain ⟨k1, _, _⟩ := sweep_frame s s1 h
    dsimp only at h1 h2 h3 h5
    rw [List.append_nil] at h1
    refine ⟨h1, h2, h3, ?_, h5, k1⟩
    rw [h1]
    have hp1 := List.filter_append_perm
      (fun e => outstanding_hazard_pointers_for s.hazard_pointers e.data) s.nodes_to_reclaim
    have hp2 := (List.reverse_perm (s.nodes_to_reclaim.filter
      (fun e => outstanding_hazard_pointers_for s.hazard_pointers e.data))).append_right
      (s.nodes_to_reclaim.filter
        (fun e => !outstanding_hazard_pointers_for s.hazard_pointers e.data))
    exact hp1.symm.trans hp2.symm

theorem sweep_two_pending :
    delete_nodes_with_no_hazards two_pending_state = .ok two_pending_swept := by
  rfl

end HazardPtrs

namespace HazardPtrs

open Mem

theorem two_pending_ok : reclaim_ok two_pending_state := by
  refine ⟨by decide, ?_⟩
  intro e he
  have he2 : e = ⟨some 1⟩ ∨ e = ⟨some 2⟩ := by simpa [two_pending_state] using he
  rcases he2 with h | h
  · exact ⟨1, by rw [h], by
      rw [show two_pending_state.heap.read 1 = some ⟨none, none⟩ from rfl]; simp⟩
  · exact ⟨2, by rw [h], by
      rw [show two_pending_state.heap.read 2 = some ⟨none, none⟩ from rfl]; simp⟩

/-- C11 at a pending list with the protected node 1 and the unprotected node 2. -/
theorem C11_sweep_partitions_witness :
    (∃ s1, delete_nodes_with_no_hazards two_pending_state = .ok s1) ∧
    (two_pending_swept.nodes_to_reclaim =
        (two_pending_state.nodes_to_reclaim.filter
          (fun e => outstanding_hazard_pointers_for two_pending_state.hazard_pointers
            e.data)).reverse ∧
      two_pending_swept.deleted =
        ((two_pending_state.nodes_to_reclaim.filter
          (fun e => !outstanding_hazard_pointers_for two_pending_state.hazard_pointers
            e.data)).filterMap
            (fun e => e.data)).reverse ++ two_pending_state.deleted ∧
      ((two_pending_state.nodes_to_reclaim.filter
          (fun e => !outstanding_hazard_pointers_for two_pending_state.hazard_pointers
            e.data)).filterMap
            (fun e => e.data)).Nodup ∧
      two_pending_state.nodes_to_reclaim.Perm
        (two_pending_swept.nodes_to_reclaim ++ two_pending_state.nodes_to_reclaim.filter
          (fun e => !outstanding_hazard_pointers_for two_pending_state.hazard_pointers
            e.data)) ∧
      (∀ b, two_pending_swept.heap.read b =
        if (⟨some b⟩ : data_to_reclaim) ∈ two_pending_state.nodes_to_reclaim ∧
            outstanding_hazard_pointers_for two_pending_state.hazard_pointers (some b) = false
        then none else two_pending_state.heap.read b) ∧
      two_pending_swept.hazard_pointers = two_pending_state.hazard_pointers) :=
  ⟨(C11_sweep_partitions_pending_list two_pending_state).1 two_pending_ok,
    (C11_sweep_partitions_pending_list two_pending_state).2 two_pending_swept
      sweep_two_pending⟩

/-! ### Draining -/

theorem outstanding_false_of_clear (reg : Registry)
    (hclear : ∀ i : Fin max_hazard_pointers, (reg i).pointer = none) (a : Addr) :
    outstanding_hazard_pointers_for reg (some a) = false := by
  cases h : outstanding_hazard_pointers_for reg (some a) with
  | false => rfl
  | true =>
    obtain ⟨j, hj⟩ := (outstanding_iff reg (some a)).1 h
    rw [hclear j] at hj
    simp at hj

theorem retire_all_spec {T : Type} :
    ∀ (ps : List Addr) (s : State T),
      (retire_all ps s).nodes_to_reclaim
          = (ps.map (fun a => (⟨some a⟩ : data_to_reclaim))).reverse ++ s.nodes_to_reclaim ∧
        (retire_all ps s).heap = s.heap ∧
        (retire_all ps s).hazard_pointers = s.hazard_pointers ∧
        (retire_all ps s).deleted = s.deleted := by
  intro ps
  induction ps with
  | nil => intro s; simp [retire_all]
  | cons a ps ih =>
    intro s
    obtain ⟨h1, h2, h3, h4⟩ := ih (reclaim_later (some a) s)
    refine ⟨?_, h2, h3, h4⟩
    simp only [retire_all]
    rw [h1]
    simp [reclaim_later, add_to_reclaim_list]

theorem retire_all_ok {T : Type} (ps : List Addr) (s : State T) (hok : reclaim_ok s)
    (hps : ps.Nodup) (hlive : ∀ a ∈ ps, s.heap.read a ≠ none)
    (hnew : ∀ a ∈ ps, (⟨some a⟩ : data_to_reclaim) ∉ s.nodes_to_reclaim) :
    reclaim_ok (retire_all ps s) := by
  obtain ⟨h1, h2, _, _⟩ := retire_all_spec ps s
  unfold reclaim_ok
  rw [h1, h2]
  constructor
  · rw [List.nodup_append]
    refine ⟨?_, hok.1, ?_⟩
    · rw [List.nodup_reverse]
      exact hps.map (fun a b hab => by simpa using hab)
    · intro e he1 he2
      rw [List.mem_reverse, List.mem_map] at he1
      obtain ⟨a, ha, hae⟩ := he1
      rw [← hae] at he2
      exact hnew a ha he2
  · intro e he
    rcases List.mem_append.1 he with h | h
    · rw [List.mem_reverse, List.mem_map] at h
      obtain ⟨a, ha, hae⟩ := h
      exact ⟨a, by rw [← hae], hlive a ha⟩
    · exact hok.2 e h

/-- C12: when every hazard slot is clear, a single sweep after any finite number of
retirements (of distinct allocated nodes that were not already pending) returns with an empty
pending list; every node that was pending, the retired ones included, has been destroyed and
freed; and a further sweep finds nothing to do. -/
theorem C12_one_sweep_drains_pending_list {T : Type} (s : State T) (ps : List Addr)
    (hok : reclaim_ok s) (hclear : ∀ i : Fin max_hazard_pointers, (s.hazard_pointers i).pointer = none)
    (hps : ps.Nodup) (hlive : ∀ a ∈ ps, s.heap.read a ≠ none)
    (hnew : ∀ a ∈ ps, (⟨some a⟩ : data_to_reclaim) ∉ s.nodes_to_reclaim) :
    ∃ s1, delete_nodes_with_no_hazards (retire_all ps s) = .ok s1 ∧
      s1.nodes_to_reclaim = [] ∧
      (∀ e ∈ (retire_all ps s).nodes_to_reclaim, ∃ a, e.data = some a ∧
        a ∈ s1.deleted ∧ s1.heap.read a = none) ∧
      (∀ a ∈ ps, a ∈ s1.deleted ∧ s1.heap.read a = none) ∧
      delete_nodes_with_no_hazards s1 = .ok s1 := by
  have hok2 := retire_all_ok ps s hok hps hlive hnew
  obtain ⟨r1, _, r3, _⟩ := retire_all_spec ps s
  have hunprot : ∀ a, outstanding_hazard_pointers_for (retire_all ps s).hazard_pointers (some a)
      = false := by
    intro a
    rw [r3]
    exact outstanding_false_of_clear _ hclear a
  obtain ⟨s1, h1, _, _, _, h5, h6, h7⟩ := sweep_spec _ hok2
  have hall : ∀ e ∈ (retire_all ps s).nodes_to_reclaim, ∃ a, e.data = some a ∧
      a ∈ s1.deleted ∧ s1.heap.read a = none := by
    intro e he
    obtain ⟨a, ha, _⟩ := hok2.2 e he
    refine ⟨a, ha, ?_, ?_⟩
    · rw [h6]
      apply List.mem_append_left
      rw [List.mem_reverse, List.mem_filterMap]
      refine ⟨e, ?_, ha⟩
      rw [List.mem_filter]
      refine ⟨he, ?_⟩
      simp [ha, hunprot a]
    · rw [h7 a]
      have hmem : (⟨some a⟩ : data_to_reclaim) ∈ (retire_all ps s).nodes_to_reclaim := by
        rw [← (mem_reclaim_iff e a).1 ha]; exact he
      simp [hmem, hunprot a]
  have hempty : s1.nodes_to_reclaim = [] := by
    rw [h5, List.reverse_eq_nil_iff, List.filter_eq_nil_iff]
    intro e he
    obtain ⟨a, ha, _⟩ := hok2.2 e he
    simp [ha, hunprot a]
  refine ⟨s1, h1, hempty, hall, ?_, ?_⟩
  · intro a ha
    have hmem : (⟨some a⟩ : data_to_reclaim) ∈ (retire_all ps s).nodes_to_reclaim := by
      rw [r1]
      apply List.mem_append_left
      rw [List.mem_reverse, List.mem_map]
      exact ⟨a, ha, rfl⟩
    obtain ⟨b, hb, hb2⟩ := hall _ hmem
    simp only [Option.some.injEq] at hb
    rw [hb]
    exact hb2
  · unfold delete_nodes_with_no_hazards
    rw [hempty]
    simp only [delete_nodes_loop]
    congr 1
    cases s1
    simp_all

theorem two_live_nodes : ∀ a ∈ [1, 2], two_live_state.heap.read a ≠ none := by
  intro a ha
  have ha2 : a = 1 ∨ a = 2 := by simpa using ha
  rcases ha2 with h | h
  · rw [h, show two_live_state.heap.read 1 = some ⟨none, none⟩ from rfl]; simp
  · rw [h, show two_live_state.heap.read 2 = some ⟨none, none⟩ from rfl]; simp

/-- C12 on the state with the nodes 1 and 2 allocated, nothing pending and every slot clear:
both nodes are retired and one sweep destroys them. -/
theorem C12_one_sweep_drains_witness :
    ∃ s1, delete_nodes_with_no_hazards (retire_all [1, 2] two_live_state) = .ok s1 ∧
      s1.nodes_to_reclaim = [] ∧
      (∀ e ∈ (retire_all [1, 2] two_live_state).nodes_to_reclaim, ∃ a, e.data = some a ∧
        a ∈ s1.deleted ∧ s1.heap.read a = none) ∧
      (∀ a ∈ [1, 2], a ∈ s1.deleted ∧ s1.heap.read a = none) ∧
      delete_nodes_with_no_hazards s1 = .ok s1 :=
  C12_one_sweep_drains_pending_list two_live_state [1, 2]
    ⟨List.nodup_nil, by simp [two_live_state, State.init]⟩
    (fun _ => rfl) (by decide) two_live_nodes (by simp [two_live_state, State.init])

end HazardPtrs

namespace HazardPtrs

open Mem

/-! ### Deferred disposal -/

theorem reclaim_ok_after_swap_delete {T : Type} (s : State T) (a : Addr) (n1 : node T)
    (hok : reclaim_ok s) (hnot : (⟨some a⟩ : data_to_reclaim) ∉ s.nodes_to_reclaim) :
    @reclaim_ok T { s with heap := (s.heap.write a n1).free a, deleted := a :: s.deleted } := by
  refine ⟨hok.1, ?_⟩
  intro e he
  obtain ⟨b, hb1, hb2⟩ := hok.2 e he
  refine ⟨b, hb1, ?_⟩
  have hba : b ≠ a := by
    intro hba
    subst hba
    exact hnot (((mem_reclaim_iff e b).1 hb1) ▸ he)
  simpa [Heap.read_free_ne _ hba, Heap.read_write_ne _ _ hba] using hb2

theorem reclaim_ok_after_swap_retire {T : Type} (s : State T) (a : Addr) (n1 : node T)
    (hok : reclaim_ok s) (hnot : (⟨some a⟩ : data_to_reclaim) ∉ s.nodes_to_reclaim) :
    reclaim_ok (reclaim_later (some a) { s with heap := s.heap.write a n1 }) := by
  refine ⟨List.nodup_cons.2 ⟨hnot, hok.1⟩, ?_⟩
  intro e he
  rcases List.mem_cons.1 he with h1 | h1
  · subst h1
    exact ⟨a, rfl, by simp [reclaim_later, add_to_reclaim_list, Heap.read_write_same]⟩
  · obtain ⟨b, hb1, hb2⟩ := hok.2 e h1
    refine ⟨b, hb1, ?_⟩
    by_cases hba : b = a
    · subst hba
      simp [reclaim_later, add_to_reclaim_list, Heap.read_write_same]
    · simpa [reclaim_later, add_to_reclaim_list, Heap.read_write_ne _ _ hba] using hb2

/-- The two ways `pop` disposes of the node it unlinked. -/
theorem pop_dispose_cases {T : Type} (a : Addr) (n : node T) (s : State T)
    (hn : s.heap.read a = some n) (hok : reclaim_ok s)
    (hnot : (⟨some a⟩ : data_to_reclaim) ∉ s.nodes_to_reclaim) :
    ∃ s3, pop_dispose (some a) s = .ok (n.data, s3) ∧ s3.head_ = s.head_ ∧
      s3.hazard_pointers = s.hazard_pointers ∧ s3.hazard = s.hazard ∧ reclaim_ok s3 ∧
      (outstanding_hazard_pointers_for s.hazard_pointers (some a) = false →
        delete_nodes_with_no_hazards
          { s with heap := (s.heap.write a { n with data := none }).free a,
                   deleted := a :: s.deleted } = .ok s3 ∧
        s3.heap.read a = none ∧ (⟨some a⟩ : data_to_reclaim) ∉ s3.nodes_to_reclaim ∧
        ∃ ds, s3.deleted = ds ++ a :: s.deleted) ∧
      (outstanding_hazard_pointers_for s.hazard_pointers (some a) = true →
        delete_nodes_with_no_hazards
          (reclaim_later (some a) { s with heap := s.heap.write a { n with data := none } })
            = .ok s3 ∧
        s3.heap.read a = some { n with data := none } ∧
        s3.nodes_to_reclaim.count ⟨some a⟩ = 1 ∧
        ∃ ds, s3.deleted = ds ++ s.deleted ∧ a ∉ ds) := by
  cases hp : outstanding_hazard_pointers_for s.hazard_pointers (some a) with
  | false =>
    have hdel : do_delete (some a) { s with heap := s.heap.write a { n with data := none } }
        = .ok { s with heap := (s.heap.write a { n with data := none }).free a,
                       deleted := a :: s.deleted } :=
      do_delete_live a _ { n with data := none } (by simp [Heap.read_write_same])
    have hok2 := reclaim_ok_after_swap_delete s a { n with data := none } hok hnot
    obtain ⟨s3, h1, h2, h3, h4, h5, h6, h7⟩ := sweep_spec _ hok2
    have hok3 := sweep_keeps_ok _ s3 hok2 h5 h7
    dsimp only at h2 h3 h4 h5 h6 h7
    refine ⟨s3, ?_, h4, h2, h3, hok3, ?_, ?_⟩
    · simp only [pop_dispose, hn, hp, Bool.false_eq_true, if_false, hdel, h1]
    · intro _
      refine ⟨h1, ?_, ?_, ⟨_, h6⟩⟩
      · rw [h7 a]
        have hcond : ¬ ((⟨some a⟩ : data_to_reclaim) ∈ s.nodes_to_reclaim ∧
            outstanding_hazard_pointers_for s.hazard_pointers (some a) = false) :=
          fun hc => hnot hc.1
        rw [if_neg hcond]
        exact Heap.read_free_same _ _
      · rw [h5]
        intro hmem
        exact hnot (List.mem_filter.1 (List.mem_reverse.1 hmem)).1
    · intro hc; simp at hc
  | true =>
    have hok2 := reclaim_ok_after_swap_retire s a { n with data := none } hok hnot
    obtain ⟨s3, h1, h2, h3, h4, h5, h6, h7⟩ := sweep_spec _ hok2
    have hok3 := sweep_keeps_ok _ s3 hok2 h5 h7
    dsimp only [reclaim_later, add_to_reclaim_list] at h2 h3 h4 h5 h6 h7
    refine ⟨s3, ?_, h4, h2, h3, hok3, ?_, ?_⟩
    · simp only [pop_dispose, hn, hp, if_true, h1]
    · intro hc; simp at hc
    · intro _
      refine ⟨h1, ?_, ?_, ⟨_, h6, ?_⟩⟩
      · rw [h7 a]
        have hcond : ¬ ((⟨some a⟩ : data_to_reclaim) ∈
            (⟨some a⟩ : data_to_reclaim) :: s.nodes_to_reclaim ∧
            outstanding_hazard_pointers_for s.hazard_pointers (some a) = false) := by
          simp [hp]
        rw [if_neg hcond]
        exact Heap.read_write_same _ _ _
      · apply List.count_eq_one_of_mem hok3.1
        rw [h5, List.mem_reverse, List.mem_filter]
        exact ⟨List.mem_cons_self _ _, by simpa using hp⟩
      · intro hmem
        rw [List.mem_reverse, List.mem_filterMap] at hmem
        obtain ⟨e, he, hea⟩ := hmem
        have he2 := (List.mem_filter.1 he).2
        have : e = ⟨some a⟩ := (mem_reclaim_iff e a).1 hea
        subst this
        simp [hp] at he2

/-- What a later sweep does with a pending node. -/
theorem sweep_pending_node {T : Type} (a : Addr) (s : State T) (hok : reclaim_ok s)
    (hmem : (⟨some a⟩ : data_to_reclaim) ∈ s.nodes_to_reclaim) :
    ∃ s1, delete_nodes_with_no_hazards s = .ok s1 ∧ reclaim_ok s1 ∧
      (outstanding_hazard_pointers_for s.hazard_pointers (some a) = true →
        (⟨some a⟩ : data_to_reclaim) ∈ s1.nodes_to_reclaim ∧
        s1.heap.read a = s.heap.read a ∧ s1.heap.read a ≠ none ∧
        ∃ ds, s1.deleted = ds ++ s.deleted ∧ a ∉ ds) ∧
      (outstanding_hazard_pointers_for s.hazard_pointers (some a) = false →
        (⟨some a⟩ : data_to_reclaim) ∉ s1.nodes_to_reclaim ∧
        s1.heap.read a = none ∧ a ∈ s1.deleted) := by
  obtain ⟨s1, h1, _, _, _, h5, h6, h7⟩ := sweep_spec s hok
  have hok1 := sweep_keeps_ok s s1 hok h5 h7
  refine ⟨s1, h1, hok1, ?_, ?_⟩
  · intro hp
    have hcond : ¬ ((⟨some a⟩ : data_to_reclaim) ∈ s.nodes_to_reclaim ∧
        outstanding_hazard_pointers_for s.hazard_pointers (some a) = false) := by
      simp [hp]
    have hr : s1.heap.read a = s.heap.read a := by rw [h7 a, if_neg hcond]
    refine ⟨?_, hr, ?_, ⟨_, h6, ?_⟩⟩
    · rw [h5, List.mem_reverse, List.mem_filter]
      exact ⟨hmem, by simpa using hp⟩
    · rw [hr]
      obtain ⟨b, hb1, hb2⟩ := hok.2 _ hmem
      simp only [Option.some.injEq] at hb1
      rw [hb1]; exact hb2
    · intro hm
      rw [List.mem_reverse, List.mem_filterMap] at hm
      obtain ⟨e, he, hea⟩ := hm
      have he2 := (List.mem_filter.1 he).2
      have : e = ⟨some a⟩ := (mem_reclaim_iff e a).1 hea
      subst this
      simp [hp] at he2
  · intro hp
    refine ⟨?_, ?_, ?_⟩
    · rw [h5, List.mem_reverse, List.mem_filter]
      simp [hp]
    · rw [h7 a]
      simp [hmem, hp]
    · rw [h6]
      apply List.mem_append_left
      rw [List.mem_reverse, List.mem_filterMap]
      exact ⟨⟨some a⟩, List.mem_filter.2 ⟨hmem, by simp [hp]⟩, rfl⟩

/-- C16: a `pop` that finds node `a` at the head returns the payload of `a`; with the caller's
slot already null, it frees `a` at once when no slot holds `a`, and otherwise retires it: the
retire step puts one entry for `a` in front of the unchanged pending list, and after the `pop`
the node is still allocated, with an empty payload handle, pending exactly once and not
destroyed. A later sweep keeps a pending node, untouched, as long as some slot holds its
address, and destroys and frees it as soon as no slot does. -/
theorem C16_deferred_disposal {T : Type} (fuel : Nat) (me : thread_id)
    (hp : Fin max_hazard_pointers) (s : State T) (a : Addr) (n : node T)
    (hslot : s.hazard me = some hp) (hhead : s.head_ = some a)
    (hn : s.heap.read a = some n) (hok : reclaim_ok s)
    (hnot : (⟨some a⟩ : data_to_reclaim) ∉ s.nodes_to_reclaim) :
    (∃ s3, pop (fuel + 1) me s = .ok (n.data, s3) ∧ s3.head_ = n.next ∧
      (s3.hazard_pointers hp).pointer = none ∧ reclaim_ok s3 ∧
      ((∀ j, (s3.hazard_pointers j).pointer ≠ some a) →
        s3.heap.read a = none ∧ (⟨some a⟩ : data_to_reclaim) ∉ s3.nodes_to_reclaim ∧
        ∃ ds, s3.deleted = ds ++ a :: s.deleted) ∧
      ((∃ j, (s3.hazard_pointers j).pointer = some a) →
        s3.heap.read a = some { n with data := none } ∧
        s3.nodes_to_reclaim.count ⟨some a⟩ = 1 ∧
        ∃ ds, s3.deleted = ds ++ s.deleted ∧ a ∉ ds)) ∧
    (∀ s1 : State T, (reclaim_later (some a) s1).nodes_to_reclaim
        = ⟨some a⟩ :: s1.nodes_to_reclaim ∧
      (reclaim_later (some a) s1).heap = s1.heap ∧
      (reclaim_later (some a) s1).deleted = s1.deleted) ∧
    (∀ s1 : State T, reclaim_ok s1 → (⟨some a⟩ : data_to_reclaim) ∈ s1.nodes_to_reclaim →
      ∃ s2, delete_nodes_with_no_hazards s1 = .ok s2 ∧ reclaim_ok s2 ∧
        (outstanding_hazard_pointers_for s1.hazard_pointers (some a) = true →
          (⟨some a⟩ : data_to_reclaim) ∈ s2.nodes_to_reclaim ∧
          s2.heap.read a = s1.heap.read a ∧ s2.heap.read a ≠ none ∧
          ∃ ds, s2.deleted = ds ++ s1.deleted ∧ a ∉ ds) ∧
        (outstanding_hazard_pointers_for s1.hazard_pointers (some a) = false →
          (⟨some a⟩ : data_to_reclaim) ∉ s2.nodes_to_reclaim ∧
          s2.heap.read a = none ∧ a ∈ s2.deleted)) := by
  refine ⟨?_, fun s1 => ⟨rfl, rfl, rfl⟩, fun s1 h1 h2 => sweep_pending_node a s1 h1 h2⟩
  have hu := pop_unlink_seq_node hp fuel s a n hhead hn
  obtain ⟨s3, h1, h2, h3, _, h5, h6, h7⟩ := pop_dispose_cases a n
    { s with hazard_pointers :=
               store_pointer (store_pointer s.hazard_pointers hp (some a)) hp none,
             head_ := n.next }
    hn hok hnot
  dsimp only at h2 h3 h6 h7
  refine ⟨s3, ?_, h2, ?_, h5, ?_, ?_⟩
  · simp only [pop, get_hazard_pointer_of_owner hslot, hu]
    exact h1
  · rw [h3, store_pointer_same]
  · intro hnone
    have hp0 : outstanding_hazard_pointers_for
        (store_pointer (store_pointer s.hazard_pointers hp (some a)) hp none) (some a)
          = false := by
      cases hc : outstanding_hazard_pointers_for
        (store_pointer (store_pointer s.hazard_pointers hp (some a)) hp none) (some a) with
      | false => rfl
      | true =>
        obtain ⟨j, hj⟩ := (outstanding_iff _ _).1 hc
        rw [← h3] at hj
        exact absurd hj (hnone j)
    exact (h6 hp0).2
  · intro hsome
    have hp1 : outstanding_hazard_pointers_for
        (store_pointer (store_pointer s.hazard_pointers hp (some a)) hp none) (some a)
          = true := by
      rw [outstanding_iff]
      obtain ⟨j, hj⟩ := hsome
      rw [h3] at hj
      exact ⟨j, hj⟩
    exact (h7 hp1).2

/-- C16 at a one-node stack whose node 1 is also held by slot 3 of another thread: thread 7
pops the value 5 and the node is retired, not freed. -/
theorem C16_deferred_disposal_witness :
    (∃ s3, pop 1 7 watched_node_state = .ok ((⟨some 5, none⟩ : node Nat).data, s3) ∧
      s3.head_ = (⟨some 5, none⟩ : node Nat).next ∧
      (s3.hazard_pointers 0).pointer = none ∧ reclaim_ok s3 ∧
      ((∀ j, (s3.hazard_pointers j).pointer ≠ some 1) →
        s3.heap.read 1 = none ∧ (⟨some 1⟩ : data_to_reclaim) ∉ s3.nodes_to_reclaim ∧
        ∃ ds, s3.deleted = ds ++ 1 :: watched_node_state.deleted) ∧
      ((∃ j, (s3.hazard_pointers j).pointer = some 1) →
        s3.heap.read 1 = some { (⟨some 5, none⟩ : node Nat) with data := none } ∧
        s3.nodes_to_reclaim.count ⟨some 1⟩ = 1 ∧
        ∃ ds, s3.deleted = ds ++ watched_node_state.deleted ∧ 1 ∉ ds)) ∧
    (∀ s1 : State Nat, (reclaim_later (some 1) s1).nodes_to_reclaim
        = ⟨some 1⟩ :: s1.nodes_to_reclaim ∧
      (reclaim_later (some 1) s1).heap = s1.heap ∧
      (reclaim_later (some 1) s1).deleted = s1.deleted) ∧
    (∀ s1 : State Nat, reclaim_ok s1 → (⟨some 1⟩ : data_to_reclaim) ∈ s1.nodes_to_reclaim →
      ∃ s2, delete_nodes_with_no_hazards s1 = .ok s2 ∧ reclaim_ok s2 ∧
        (outstanding_hazard_pointers_for s1.hazard_pointers (some 1) = true →
          (⟨some 1⟩ : data_to_reclaim) ∈ s2.nodes_to_reclaim ∧
          s2.heap.read 1 = s1.heap.read 1 ∧ s2.heap.read 1 ≠ none ∧
          ∃ ds, s2.deleted = ds ++ s1.deleted ∧ 1 ∉ ds) ∧
        (outstanding_hazard_pointers_for s1.hazard_pointers (some 1) = false →
          (⟨some 1⟩ : data_to_reclaim) ∉ s2.nodes_to_reclaim ∧
          s2.heap.read 1 = none ∧ 1 ∈ s2.deleted)) :=
  C16_deferred_disposal 0 7 0 watched_node_state 1 ⟨some 5, none⟩
    (by simp [watched_node_state, one_node_state, one_thread_state]) rfl rfl
    ⟨List.nodup_nil, by simp [watched_node_state, one_node_state, one_thread_state, State.init]⟩
    (by simp [watched_node_state, one_node_state, one_thread_state, State.init])

end HazardPtrs

namespace RefCounting

open Mem

/-! ### The destructor of the reference-counted stack -/

/-- The stages of a `pop` on a non-empty stack: the loop unlinks the top node and makes its
former `next` the head; the node's `next` handle is then cleared while the node is still
allocated; finally the node is destroyed and nothing else. -/
theorem rc_pop_detail {T : Type} (fuel : Nat) (s : State T) (a : Addr) (v : T)
    (cs : List (Addr × T)) (hinv : StackInv s ((a, v) :: cs)) :
    ∃ (nxt : Ptr) (h0 : Heap (control_block T)) (s1 : State T) (h2 : Heap (control_block T))
      (s2 : State T),
      s.heap.read a = some ⟨⟨some v, nxt⟩, 1⟩ ∧
      acquire s.head s.heap = .ok h0 ∧
      pop_loop (fuel + 1) s.head { s with heap := h0 } = .ok (some a, s1) ∧
      s1.head = nxt ∧ s1.heap.read a = some ⟨⟨some v, nxt⟩, 1⟩ ∧
      release nxt (s1.heap.write a ⟨⟨some v, none⟩, 1⟩) = .ok h2 ∧
      h2.read a = some ⟨⟨some v, none⟩, 1⟩ ∧
      release (some a) h2 = .ok s2.heap ∧
      pop (fuel + 1) s = .ok (some v, s2) ∧
      s2.head = nxt ∧ s2.heap.read a = none ∧ StackInv s2 cs := by
  obtain ⟨hhead, nxt, hr, hrest⟩ := hinv.linked
  have hnd := List.nodup_cons.1 (by simpa using hinv.nodup : (a :: cs.map Prod.fst).Nodup)
  simp only at hhead hr
  have hacq : acquire s.head s.heap = .ok (s.heap.write a ⟨⟨some v, nxt⟩, 2⟩) := by
    simp [acquire, hhead, hr]
  have key1 : returns (pop_loop (fuel + 1) s.head
      { s with heap := s.heap.write a ⟨⟨some v, nxt⟩, 2⟩ }) (fun r =>
      r.1 = some a ∧ r.2.head = nxt ∧
      r.2.heap.read a = some ⟨⟨some v, nxt⟩, 1⟩ ∧
      (∀ x, x ≠ a → some x ≠ nxt → r.2.heap.read x = s.heap.read x) ∧
      (∀ b, nxt = some b → ∃ ob, s.heap.read b = some ⟨ob, 1⟩ ∧
        r.2.heap.read b = some ⟨ob, 2⟩)) := by
    rcases rc_linked_head hrest with h0 | ⟨b, ob, hb, hrb, hmem⟩
    · simp [returns, pop_loop, acquire, release, release_loop,
        Heap.read_write, hhead, h0]
      intro x hx
      simp [hx]
    · have hba : b ≠ a := fun h => hnd.1 (h ▸ hmem)
      have hab : a ≠ b := fun h => hba h.symm
      simp [returns, pop_loop, acquire, release, release_loop,
        Heap.read_write, hhead, hb, hrb, hba, hab]
      intro x hx hxb
      simp [hx, hxb]
  obtain ⟨⟨r, s1⟩, k1, k2, k3, k4, k5, k6⟩ := returns_iff.1 key1
  simp only at k2 k3 k4 k5 k6
  subst k2
  have key2 : returns (release nxt (s1.heap.write a ⟨⟨some v, none⟩, 1⟩)) (fun h2 =>
      ∀ x, h2.read x = if x = a then some ⟨⟨some v, none⟩, 1⟩ else s.heap.read x) := by
    rcases rc_linked_head hrest with h0 | ⟨b, ob, hb, hrb, hmem⟩
    · simp only [h0, returns, release, release_loop]
      intro x
      by_cases hx : x = a
      · simp [hx, Heap.read_write]
      · simp [hx, Heap.read_write, k5 x hx (by simp [h0])]
    · have hba : b ≠ a := fun h => hnd.1 (h ▸ hmem)
      obtain ⟨ob2, hob1, hob2⟩ := k6 b hb
      have hobeq : ob2 = ob := by
        rw [hrb] at hob1
        simp only [Option.some.injEq, control_block.mk.injEq] at hob1
        exact hob1.1.symm
      subst hobeq
      simp only [hb, returns, release, release_loop, Heap.read_write, if_neg hba, hob2]
      simp only [Nat.reduceLeDiff, if_false]
      intro x
      by_cases hx : x = a
      · subst hx
        have hab : ¬ x = b := fun h => hba h.symm
        simp [Heap.read_write, hab]
      · by_cases hxb : x = b
        · subst hxb; simp [hx, Heap.read_write, hrb]
        · have hxb3 : some x ≠ nxt := by rw [hb]; simpa using hxb
          simp [hx, hxb, Heap.read_write, k5 x hx hxb3]
  obtain ⟨h2, m1, m2⟩ := returns_iff.1 key2
  have hr2 : h2.read a = some ⟨⟨some v, none⟩, 1⟩ := by simp [m2]
  have hrel : release (some a) h2 = .ok (h2.free a) := by
    simp [release, release_loop, hr2]
  have hfin : pop_finish (some a) s1 = .ok (some v, { s1 with heap := h2.free a }) := by
    simp [pop_finish, k4, m1, hrel]
  have hpop : pop (fuel + 1) s = .ok (some v, { s1 with heap := h2.free a }) := by
    simp only [pop, hacq, k1, hfin]
  refine ⟨nxt, _, s1, h2, { s1 with heap := h2.free a }, hr, hacq, k1, k3, k4, m1, hr2,
    hrel, hpop, k3, Heap.read_free_same _ _, ⟨?_, hnd.2⟩⟩
  show Linked (h2.free a) s1.head cs
  rw [k3]
  refine rc_linked_congr cs nxt ?_ hrest
  intro c hc
  have hca : c.1 ≠ a := fun he => hnd.1 (he ▸ List.mem_map_of_mem Prod.fst hc)
  rw [Heap.read_free_ne _ hca, m2]
  simp [hca]

theorem destructor_loop_spec {T : Type} (fuel : Nat) :
    ∀ (cs : List (Addr × T)) (s : State T) (k : Nat), StackInv s cs → cs.length < k →
      ∃ s1, destructor_loop (fuel + 1) k s = .ok (cs.length, s1) ∧ s1.head = none ∧
        pop (fuel + 1) s1 = .ok (none, s1) := by
  intro cs
  induction cs with
  | nil =>
    intro s k hinv hk
    obtain ⟨k, rfl⟩ : ∃ j, k = j + 1 := ⟨k - 1, by simp at hk; omega⟩
    have hp := rc_pop_empty fuel s hinv.linked
    exact ⟨s, by simp [destructor_loop, hp], hinv.linked, hp⟩
  | cons c cs ih =>
    intro s k hinv hk
    obtain ⟨a, v⟩ := c
    obtain ⟨k, rfl⟩ : ∃ j, k = j + 1 := ⟨k - 1, by simp at hk; omega⟩
    obtain ⟨s1, h1, h2⟩ := rc_pop_step fuel s a v cs hinv
    obtain ⟨s2, m1, m2, m3⟩ := ih s1 k h2 (by simpa using hk)
    exact ⟨s2, by simp [destructor_loop, h1, m1], m2, m3⟩

theorem destructor_loop_short {T : Type} (fuel : Nat) :
    ∀ (cs : List (Addr × T)) (s : State T) (k : Nat), StackInv s cs → k ≤ cs.length →
      destructor_loop (fuel + 1) k s = .error .out_of_fuel := by
  intro cs
  induction cs with
  | nil =>
    intro s k _ hk
    have : k = 0 := by simpa using hk
    subst this
    rfl
  | cons c cs ih =>
    intro s k hinv hk
    obtain ⟨a, v⟩ := c
    cases k with
    | zero => rfl
    | succ k =>
      obtain ⟨s1, h1, h2⟩ := rc_pop_step fuel s a v cs hinv
      have := ih s1 k h2 (by simpa using hk)
      simp [destructor_loop, h1, this]

/-- C20: on a stack of `n` linked nodes the loop `while (pop());` of the destructor ends after
exactly `n` pops that return a payload and one that returns none (it has not ended within `n`
passes and has ended within any larger number), and leaves `head` null. Each pop on a
non-empty stack returns the non-null payload of the top node, makes that node's former `next`
the new head, clears the node's own `next` handle while the node is still allocated, and then
destroys this node only. -/
theorem C20_destructor_loop_terminates {T : Type} (fuel : Nat) (s : State T)
    (cs : List (Addr × T)) (hinv : StackInv s cs) :
    (∀ k, cs.length < k →
      ∃ s1, destructor_loop (fuel + 1) k s = .ok (cs.length, s1) ∧ s1.head = none ∧
        pop (fuel + 1) s1 = .ok (none, s1)) ∧
    (∀ k, k ≤ cs.length → destructor_loop (fuel + 1) k s = .error .out_of_fuel) ∧
    (∀ a v cs1, cs = (a, v) :: cs1 →
      ∃ (nxt : Ptr) (h0 : Heap (control_block T)) (s1 : State T)
        (h2 : Heap (control_block T)) (s2 : State T),
        s.heap.read a = some ⟨⟨some v, nxt⟩, 1⟩ ∧
        acquire s.head s.heap = .ok h0 ∧
        pop_loop (fuel + 1) s.head { s with heap := h0 } = .ok (some a, s1) ∧
        s1.head = nxt ∧ s1.heap.read a = some ⟨⟨some v, nxt⟩, 1⟩ ∧
        release nxt (s1.heap.write a ⟨⟨some v, none⟩, 1⟩) = .ok h2 ∧
        h2.read a = some ⟨⟨some v, none⟩, 1⟩ ∧
        release (some a) h2 = .ok s2.heap ∧
        pop (fuel + 1) s = .ok (some v, s2) ∧
        s2.head = nxt ∧ s2.heap.read a = none ∧ StackInv s2 cs1) := by
  refine ⟨fun k hk => destructor_loop_spec fuel cs s k hinv hk,
    fun k hk => destructor_loop_short fuel cs s k hinv hk, ?_⟩
  intro a v cs1 hcs
  subst hcs
  exact rc_pop_detail fuel s a v cs1 hinv

theorem three_node_inv : StackInv three_node_state [(3, 3), (2, 2), (1, 1)] := by
  refine ⟨?_, by decide⟩
  exact ⟨rfl, some 2, rfl, rfl, some 1, rfl, rfl, none, rfl, rfl⟩

/-- C20 at a stack holding 1, 2, 3. -/
theorem C20_destructor_loop_witness :
    (∀ k, ([(3, 3), (2, 2), (1, 1)] : List (Addr × Nat)).length < k →
      ∃ s1, destructor_loop 1 k three_node_state
          = .ok (([(3, 3), (2, 2), (1, 1)] : List (Addr × Nat)).length, s1) ∧
        s1.head = none ∧ pop 1 s1 = .ok (none, s1)) ∧
    (∀ k, k ≤ ([(3, 3), (2, 2), (1, 1)] : List (Addr × Nat)).length →
      destructor_loop 1 k three_node_state = .error .out_of_fuel) ∧
    (∀ a v cs1, ([(3, 3), (2, 2), (1, 1)] : List (Addr × Nat)) = (a, v) :: cs1 →
      ∃ (nxt : Ptr) (h0 : Heap (control_block Nat)) (s1 : State Nat)
        (h2 : Heap (control_block Nat)) (s2 : State Nat),
        three_node_state.heap.read a = some ⟨⟨some v, nxt⟩, 1⟩ ∧
        acquire three_node_state.head three_node_state.heap = .ok h0 ∧
        pop_loop 1 three_node_state.head { three_node_state with heap := h0 }
          = .ok (some a, s1) ∧
        s1.head = nxt ∧ s1.heap.read a = some ⟨⟨some v, nxt⟩, 1⟩ ∧
        release nxt (s1.heap.write a ⟨⟨some v, none⟩, 1⟩) = .ok h2 ∧
        h2.read a = some ⟨⟨some v, none⟩, 1⟩ ∧
        release (some a) h2 = .ok s2.heap ∧
        pop 1 three_node_state = .ok (some v, s2) ∧
        s2.head = nxt ∧ s2.heap.read a = none ∧ StackInv s2 cs1) :=
  C20_destructor_loop_terminates 0 three_node_state [(3, 3), (2, 2), (1, 1)] three_node_inv

end RefCounting

namespace HazardPtrs

open Mem

/-! ### Single-threaded runs of the hazard-pointer stack -/

theorem pop_zero_fuel {T : Type} (me : thread_id) (s : State T) (r : Option T) (s1 : State T) :
    pop 0 me s ≠ .ok (r, s1) := by
  intro h
  obtain ⟨hp, s0, s2, old_head, _, hu, _⟩ := pop_ok_anatomy 0 me s r s1 h
  simp [pop_unlink] at hu

theorem push_zero_fuel {T : Type} (operator_new : Heap (node T) → Addr) (v : T)
    (s s1 : State T) : push operator_new 0 v s ≠ .ok s1 := by
  simp [push, push_loop]

theorem slot_available_get {T : Type} (me : thread_id) (s : State T)
    (h : slot_available s me) :
    ∃ hp s0, get_hazard_pointer_for_current_thread me s = .ok (hp, s0) := by
  cases hm : s.hazard me with
  | some hp => exact ⟨hp, s, get_hazard_pointer_of_owner hm⟩
  | none =>
    rcases h with h | ⟨j, hj⟩
    · exact absurd hm h
    · rcases hp_owner_ctor_cases me s.hazard_pointers with he | ⟨slot, hok⟩
      · exact absurd hj ((hp_owner_ctor_error_iff me _).1 he j)
      · rw [get_hazard_pointer_first hm, hok]
        exact ⟨_, _, rfl⟩

/-- A `pop` starts by looking up the slot; from there on it runs as for a thread that already
owns it. -/
theorem pop_after_get {T : Type} (fuel : Nat) (me : thread_id) (s s0 : State T)
    (hp : Fin max_hazard_pointers)
    (hg : get_hazard_pointer_for_current_thread me s = .ok (hp, s0)) :
    pop fuel me s = pop fuel me s0 := by
  have h0 := get_hazard_pointer_of_owner (get_hazard_pointer_frame hg).2.2.2.2
  simp only [pop, hg, h0]

theorem StackInv_of_same {T : Type} {s s0 : State T} {cs : List (Addr × T)}
    (h : StackInv s cs) (h1 : s0.head_ = s.head_) (h2 : s0.heap = s.heap)
    (h3 : s0.nodes_to_reclaim = s.nodes_to_reclaim) : StackInv s0 cs := by
  refine ⟨?_, h.nodup, ?_, ?_⟩
  · rw [h1, h2]; exact h.linked
  · unfold reclaim_ok
    rw [h2, h3]; exact h.reclaim
  · rw [h3]; exact h.apart

/-- A `pop` by a thread that has or can get a slot, on a stack with linked nodes `cs`. -/
theorem pop_step_any {T : Type} (fuel : Nat) (me : thread_id) (s : State T)
    (cs : List (Addr × T)) (hinv : StackInv s cs) (hav : slot_available s me) :
    ∃ s1, pop (fuel + 1) me s = .ok ((cs.head?).map Prod.snd, s1) ∧ StackInv s1 cs.tail ∧
      s1.hazard me ≠ none := by
  obtain ⟨hp, s0, hg⟩ := slot_available_get me s hav
  obtain ⟨f1, f2, f3, _, f5⟩ := get_hazard_pointer_frame hg
  have hinv0 : StackInv s0 cs := StackInv_of_same hinv f1 f2 f3
  rw [pop_after_get (fuel + 1) me s s0 hp hg]
  cases cs with
  | nil =>
    have hu := pop_unlink_seq_empty hp fuel s0 hinv0.linked
    have hpop : pop (fuel + 1) me s0 = .ok (none,
        { s0 with hazard_pointers :=
            store_pointer (store_pointer s0.hazard_pointers hp none) hp none }) := by
      simp only [pop, get_hazard_pointer_of_owner f5, hu, pop_dispose]
    refine ⟨_, hpop, StackInv_of_same hinv0 rfl rfl rfl, ?_⟩
    show s0.hazard me ≠ none
    rw [f5]; simp
  | cons c cs =>
    obtain ⟨a, v⟩ := c
    obtain ⟨s1, h1, h2, h3⟩ := pop_step fuel me s0 hp f5 a v cs hinv0
    refine ⟨s1, h1, h2, ?_⟩
    rw [h3, f5]; simp

theorem push_step_any {T : Type} (operator_new : Heap (node T) → Addr)
    (hnew : ∀ h : Heap (node T), h.read (operator_new h) = none) (fuel : Nat) (v : T)
    (me : thread_id) (s : State T) (cs : List (Addr × T)) (hinv : StackInv s cs)
    (hav : slot_available s me) :
    ∃ s1, push operator_new (fuel + 1) v s = .ok s1 ∧
      StackInv s1 ((operator_new s.heap, v) :: cs) ∧ slot_available s1 me := by
  obtain ⟨s1, h1, h2, h3, h4, _⟩ := push_step operator_new hnew fuel v s cs hinv
  refine ⟨s1, h1, h2, ?_⟩
  unfold slot_available
  rw [h3, h4]
  exact hav

theorem reachable1_inv {T : Type} (operator_new : Heap (node T) → Addr)
    (hnew : ∀ h : Heap (node T), h.read (operator_new h) = none) (me : thread_id)
    (s : State T) (hr : Reachable1 operator_new me s) :
    (∃ cs, StackInv s cs) ∧ slot_available s me := by
  induction hr with
  | init =>
    refine ⟨⟨[], StackInv_empty_iff.2 ⟨rfl, List.nodup_nil, by simp [State.init]⟩⟩, ?_⟩
    exact Or.inr ⟨0, rfl⟩
  | push fuel v s s1 _ hp ih =>
    obtain ⟨⟨cs, hinv⟩, hav⟩ := ih
    cases fuel with
    | zero => exact absurd hp (push_zero_fuel operator_new v s s1)
    | succ fuel =>
      obtain ⟨s2, h1, h2, h3⟩ := push_step_any operator_new hnew fuel v me s cs hinv hav
      rw [h1] at hp
      simp only [Except.ok.injEq] at hp
      subst hp
      exact ⟨⟨_, h2⟩, h3⟩
  | pop fuel r s s1 _ hp ih =>
    obtain ⟨⟨cs, hinv⟩, hav⟩ := ih
    cases fuel with
    | zero => exact absurd hp (pop_zero_fuel me s r s1)
    | succ fuel =>
      obtain ⟨s2, h1, h2, h3⟩ := pop_step_any fuel me s cs hinv hav
      rw [h1] at hp
      simp only [Except.ok.injEq, Prod.mk.injEq] at hp
      obtain ⟨_, hp2⟩ := hp
      subst hp2
      exact ⟨⟨_, h2⟩, Or.inl h3⟩

/-- C19: in every state reachable by pushes and pops of a single thread, the linked nodes all
carry a payload, `pop` returns, it returns "no value" exactly when `head_` is null before the
call, and `empty()` is true exactly in those states. -/
theorem C19_pop_none_iff_empty {T : Type} (operator_new : Heap (node T) → Addr)
    (hnew : ∀ h : Heap (node T), h.read (operator_new h) = none) (me : thread_id)
    (s : State T) (hr : Reachable1 operator_new me s) (fuel : Nat) :
    (∃ cs, Linked s.heap s.head_ cs) ∧
    (∃ r s1, pop (fuel + 1) me s = .ok (r, s1) ∧ (r = none ↔ s.head_ = none)) ∧
    ((∃ s1, pop (fuel + 1) me s = .ok (none, s1)) ↔ s.head_ = none) ∧
    (empty s = true ↔ s.head_ = none) := by
  obtain ⟨⟨cs, hinv⟩, hav⟩ := reachable1_inv operator_new hnew me s hr
  obtain ⟨s1, h1, _, _⟩ := pop_step_any fuel me s cs hinv hav
  have hiff : ((cs.head?).map Prod.snd = none ↔ s.head_ = none) := by
    cases cs with
    | nil => simpa using hinv.linked
    | cons c cs =>
      obtain ⟨hh, _⟩ := hinv.linked
      simp [hh]
  refine ⟨⟨cs, hinv.linked⟩, ⟨_, s1, h1, hiff⟩, ?_, by simp [empty]⟩
  constructor
  · rintro ⟨s2, h2⟩
    rw [h1] at h2
    simp only [Except.ok.injEq, Prod.mk.injEq] at h2
    exact hiff.1 h2.1
  · intro hnone
    exact ⟨s1, by rw [h1, hiff.2 hnone]⟩

theorem push_five_on_init :
    push bump_allocator 1 5 (State.init : State Nat) = .ok after_push := by
  rfl

theorem pop_five_after_push : pop 1 7 after_push = .ok (some 5, after_push_pop) := by
  rfl

/-- C19 at the state reached by pushing 5 and then popping, on thread 7. -/
theorem C19_pop_none_iff_empty_witness :
    (∃ cs, Linked after_push_pop.heap after_push_pop.head_ cs) ∧
    (∃ r s1, pop 1 7 after_push_pop = .ok (r, s1) ∧ (r = none ↔ after_push_pop.head_ = none)) ∧
    ((∃ s1, pop 1 7 after_push_pop = .ok (none, s1)) ↔ after_push_pop.head_ = none) ∧
    (empty after_push_pop = true ↔ after_push_pop.head_ = none) :=
  C19_pop_none_iff_empty bump_allocator bump_allocator_fresh 7 after_push_pop
    (Reachable1.pop 1 (some 5) _ _
      (Reachable1.push 1 5 _ _ Reachable1.init push_five_on_init) pop_five_after_push) 0

end HazardPtrs

namespace HazardPtrs

open Mem

theorem run_ops_spec {T : Type} (operator_new : Heap (node T) → Addr)
    (hnew : ∀ h : Heap (node T), h.read (operator_new h) = none) (fuel : Nat)
    (me : thread_id) :
    ∀ (ops : List (StackOp T)) (s : State T) (cs : List (Addr × T)),
      StackInv s cs → slot_available s me →
      ∃ s1, run_ops operator_new (fuel + 1) me ops s
        = .ok (run_list ops (cs.map Prod.snd), s1) := by
  intro ops
  induction ops with
  | nil => intro s cs _ _; exact ⟨s, rfl⟩
  | cons op ops ih =>
    intro s cs hinv hav
    cases op with
    | push v =>
      obtain ⟨s1, h1, h2, h3⟩ := push_step_any operator_new hnew fuel v me s cs hinv hav
      obtain ⟨s2, k⟩ := ih s1 _ h2 h3
      exact ⟨s2, by simp only [run_ops, h1, run_list]; exact k⟩
    | pop =>
      obtain ⟨s1, h1, h2, h3⟩ := pop_step_any fuel me s cs hinv hav
      obtain ⟨s2, k⟩ := ih s1 _ h2 (Or.inl h3)
      refine ⟨s2, ?_⟩
      cases cs with
      | nil =>
        simp only [run_ops, h1, List.head?_nil, Option.map_none', List.tail_nil] at k ⊢
        simp only [k, List.map_nil, run_list]
      | cons c cs =>
        simp only [run_ops, h1, List.head?_cons, Option.map_some', List.tail_cons] at k ⊢
        simp only [k, List.map_cons, run_list]

end HazardPtrs

namespace RefCounting

open Mem

theorem rc_run_ops_spec {T : Type} (operator_new : Heap (control_block T) → Addr)
    (hnew : ∀ h : Heap (control_block T), h.read (operator_new h) = none) (fuel : Nat) :
    ∀ (ops : List (StackOp T)) (s : State T) (cs : List (Addr × T)),
      StackInv s cs →
      ∃ s1, run_ops operator_new (fuel + 1) ops s
        = .ok (run_list ops (cs.map Prod.snd), s1) := by
  intro ops
  induction ops with
  | nil => intro s cs _; exact ⟨s, rfl⟩
  | cons op ops ih =>
    intro s cs hinv
    cases op with
    | push v =>
      obtain ⟨s1, h1, h2⟩ := rc_push_step operator_new hnew fuel v s cs hinv
      obtain ⟨s2, k⟩ := ih s1 _ h2
      exact ⟨s2, by simp only [run_ops, h1, run_list]; exact k⟩
    | pop =>
      cases cs with
      | nil =>
        have h1 := rc_pop_empty fuel s hinv.linked
        obtain ⟨s2, k⟩ := ih s [] hinv
        refine ⟨s2, ?_⟩
        simp only [run_ops, h1, k, List.map_nil, run_list]
      | cons c cs =>
        obtain ⟨a, v⟩ := c
        obtain ⟨s1, h1, h2⟩ := rc_pop_step fuel s a v cs hinv
        obtain ⟨s2, k⟩ := ih s1 _ h2
        refine ⟨s2, ?_⟩
        simp only [run_ops, h1, k, List.map_cons, run_list]

/-- C18: for every sequence of `push` and `pop` operations run by one thread, starting from
an empty hazard-pointer stack (with a well-formed pending list and a slot available to the
thread) and from an empty reference-counted stack, both stacks return for every `pop` the
result that a plain list used as a stack returns, hence the same results as each other. -/
theorem C18_stacks_agree_sequentially {T : Type}
    (new_hp : Heap (HazardPtrs.node T) → Addr)
    (hnew_hp : ∀ h : Heap (HazardPtrs.node T), h.read (new_hp h) = none)
    (new_rc : Heap (control_block T) → Addr)
    (hnew_rc : ∀ h : Heap (control_block T), h.read (new_rc h) = none)
    (fuel : Nat) (me : HazardPtrs.thread_id) (s : HazardPtrs.State T) (r : State T)
    (hs : s.head_ = none) (hok : HazardPtrs.reclaim_ok s)
    (hav : HazardPtrs.slot_available s me) (hr : r.head = none)
    (ops : List (StackOp T)) :
    ∃ s1 r1,
      HazardPtrs.run_ops new_hp (fuel + 1) me ops s = .ok (run_list ops [], s1) ∧
      run_ops new_rc (fuel + 1) ops r = .ok (run_list ops [], r1) := by
  obtain ⟨s1, h1⟩ := HazardPtrs.run_ops_spec new_hp hnew_hp fuel me ops s []
    (HazardPtrs.StackInv_empty_iff.2 ⟨hs, hok⟩) hav
  obtain ⟨r1, h2⟩ := rc_run_ops_spec new_rc hnew_rc fuel ops r [] ⟨hr, by simp⟩
  exact ⟨s1, r1, h1, h2⟩

/-- C18 on the two initial states and the operations push 1, push 2, pop, pop, pop, push 3,
pop. -/
theorem C18_stacks_agree_witness :
    ∃ s1 r1,
      HazardPtrs.run_ops bump_allocator 1 7
          [.push 1, .push 2, .pop, .pop, .pop, .push 3, .pop] (HazardPtrs.State.init)
        = .ok (run_list [.push 1, .push 2, .pop, .pop, .pop, .push 3, .pop] [], s1) ∧
      run_ops bump_allocator 1
          [.push 1, .push 2, .pop, .pop, .pop, .push 3, .pop] (State.init : State Nat)
        = .ok (run_list [.push 1, .push 2, .pop, .pop, .pop, .push 3, .pop] [], r1) :=
  C18_stacks_agree_sequentially bump_allocator bump_allocator_fresh
    bump_allocator bump_allocator_fresh 0 7 HazardPtrs.State.init State.init rfl
    ⟨List.nodup_nil, by simp [HazardPtrs.State.init]⟩ (Or.inr ⟨0, rfl⟩) rfl
    [.push 1, .push 2, .pop, .pop, .pop, .push 3, .pop]

end RefCounting

namespace HazardPtrs

open Mem

/-! ### Publish, recheck, compare-and-swap -/

theorem check_trace_append (c : TraceCheck) (a b : List PopEvent) :
    check_trace c (a ++ b) = (check_trace c a).bind (fun c1 => check_trace c1 b) := by
  induction a generalizing c with
  | nil => rfl
  | cons e es ih =>
    simp only [List.cons_append, check_trace]
    cases check_event c e with
    | none => rfl
    | some c1 => exact ih c1

theorem check_trace_cas_mem :
    ∀ (tr : List PopEvent) (c c1 : TraceCheck), check_trace c tr = some c1 →
      ∀ candidate slot ok, PopEvent.cas candidate slot ok ∈ tr → slot = candidate := by
  intro tr
  induction tr with
  | nil => intro c c1 _ candidate slot ok hm; simp at hm
  | cons e es ih =>
    intro c c1 h candidate slot ok hm
    simp only [check_trace] at h
    cases he : check_event c e with
    | none => simp [he] at h
    | some c2 =>
      rw [he] at h
      rcases List.mem_cons.1 hm with hm | hm
      · subst hm
        simp only [check_event] at he
        split_ifs at he with hc
        exact hc.2.2.1
      · exact ih c2 c1 h candidate slot ok hm

/-- The inner loop: its events are accepted from any knowledge, and when it ends the value
last published, the value last read and the content of the slot are all the returned
candidate. -/
theorem pop_publish_env_check {T : Type} (env : Nat → State T → State T)
    (hp : Fin max_hazard_pointers)
    (hframe : ∀ k s, ((env k s).hazard_pointers hp).pointer = (s.hazard_pointers hp).pointer) :
    ∀ (fuel k : Nat) (old_head : Ptr) (s : State T) (c : TraceCheck),
      ∃ c1, check_trace c (pop_publish_env env hp fuel k old_head s).1 = some c1 ∧
        ∀ p k1 s1, (pop_publish_env env hp fuel k old_head s).2 = .ok (p, k1, s1) →
          c1 = ⟨some p, some p, true⟩ ∧ (s1.hazard_pointers hp).pointer = p := by
  intro fuel
  induction fuel with
  | zero =>
    intro k old_head s c
    exact ⟨c, rfl, by intro p k1 s1 h; simp [pop_publish_env] at h⟩
  | succ fuel ih =>
    intro k old_head s c
    unfold pop_publish_env
    simp only
    split_ifs with hne
    · simp only [check_trace, check_event]
      exact ih _ _ _ _
    · simp only [ne_eq, not_not] at hne
      refine ⟨⟨some old_head, some old_head, true⟩, ?_, ?_⟩
      · simp only [check_trace, check_event, ← hne]
      · intro p k1 s1 h
        simp only [Except.ok.injEq, Prod.mk.injEq] at h
        obtain ⟨h1, _, h3⟩ := h
        subst h3
        rw [← h1, ← hne, hframe]
        exact ⟨rfl, by simp [store_pointer_same]⟩

/-- The outer loop: its events are accepted from any knowledge. -/
theorem pop_unlink_env_check {T : Type} (env : Nat → State T → State T)
    (hp : Fin max_hazard_pointers)
    (hframe : ∀ k s, ((env k s).hazard_pointers hp).pointer = (s.hazard_pointers hp).pointer) :
    ∀ (fuel k : Nat) (old_head : Ptr) (s : State T) (c : TraceCheck),
      ∃ c1, check_trace c (pop_unlink_env env hp fuel k old_head s).1 = some c1 := by
  intro fuel
  induction fuel with
  | zero => intro k old_head s c; exact ⟨c, rfl⟩
  | succ fuel ih =>
    intro k old_head s c
    obtain ⟨c1, h1, h2⟩ := pop_publish_env_check env hp hframe (fuel + 1) k old_head s c
    unfold pop_unlink_env
    rcases hpub : pop_publish_env env hp (fuel + 1) k old_head s with ⟨ev, r⟩
    rw [hpub] at h1 h2
    simp only at h1 h2
    rcases r with e | ⟨p, k1, s1⟩
    · exact ⟨c1, h1⟩
    · rcases p with _ | a
      · exact ⟨c1, h1⟩
      · obtain ⟨hc1, hslot⟩ := h2 (some a) k1 s1 rfl
        simp only
        rcases hread : (env k1 s1).heap.read a with _ | n
        · exact ⟨c1, h1⟩
        · have hslot3 : ((env (k1 + 1) (env k1 s1)).hazard_pointers hp).pointer = some a := by
            rw [hframe, hframe, hslot]
          simp only [compare_exchange_head]
          split_ifs with hcas
          · refine ⟨{ c1 with fresh := false }, ?_⟩
            simp only [check_trace_append, h1, Option.some_bind, check_trace, check_event,
              hslot3, hc1, and_self, if_true]
          · obtain ⟨c2, h3⟩ := ih (k1 + 2) (env (k1 + 1) (env k1 s1)).head_
              (env (k1 + 1) (env k1 s1))
              ⟨some (some a), some (env (k1 + 1) (env k1 s1)).head_, false⟩
            refine ⟨c2, ?_⟩
            simp only [check_trace_append, h1, Option.some_bind, check_trace, check_event,
              hslot3, hc1, and_self, if_true]
            exact h3

/-- Without interference the instrumented loops are the loops of `pop`. -/
theorem pop_publish_env_id {T : Type} (hp : Fin max_hazard_pointers) :
    ∀ (fuel k : Nat) (old_head : Ptr) (s : State T),
      ((pop_publish_env (fun _ s => s) hp fuel k old_head s).2).map (fun r => (r.1, r.2.2)) =
        pop_publish hp fuel old_head s := by
  intro fuel
  induction fuel with
  | zero => intro k old_head s; rfl
  | succ fuel ih =>
    intro k old_head s
    unfold pop_publish_env pop_publish
    simp only
    split_ifs with hne
    · exact ih _ _ _
    · rfl

theorem pop_unlink_env_id {T : Type} (hp : Fin max_hazard_pointers) :
    ∀ (fuel k : Nat) (old_head : Ptr) (s : State T),
      (pop_unlink_env (fun _ s => s) hp fuel k old_head s).2 = pop_unlink hp fuel old_head s := by
  intro fuel
  induction fuel with
  | zero => intro k old_head s; rfl
  | succ fuel ih =>
    intro k old_head s
    have hpub := pop_publish_env_id hp (fuel + 1) k old_head s
    unfold pop_unlink_env pop_unlink
    rw [← hpub]
    rcases pop_publish_env (fun _ s => s) hp (fuel + 1) k old_head s with ⟨ev, r⟩
    rcases r with e | ⟨p, k1, s1⟩
    · rfl
    · rcases p with _ | a
      · rfl
      · simp only [Except.map]
        rcases s1.heap.read a with _ | n
        · rfl
        · simp only [compare_exchange_head]
          split_ifs with hcas
          · rfl
          · exact ih _ _ _

/-- A node is unlinked only by a recorded successful compare-and-swap on it, made with the
caller's slot holding it. -/
theorem pop_unlink_env_success_cas {T : Type} (env : Nat → State T → State T)
    (hp : Fin max_hazard_pointers)
    (hframe : ∀ k s, ((env k s).hazard_pointers hp).pointer = (s.hazard_pointers hp).pointer) :
    ∀ (fuel k : Nat) (old_head : Ptr) (s : State T) (a : Addr) (s1 : State T),
      (pop_unlink_env env hp fuel k old_head s).2 = .ok (some a, s1) →
        PopEvent.cas (some a) (some a) true ∈ (pop_unlink_env env hp fuel k old_head s).1 := by
  intro fuel
  induction fuel with
  | zero => intro k old_head s a s1 h; simp [pop_unlink_env] at h
  | succ fuel ih =>
    intro k old_head s a s1
    obtain ⟨c1, _, h2⟩ := pop_publish_env_check env hp hframe (fuel + 1) k old_head s
      ⟨none, none, false⟩
    unfold pop_unlink_env
    rcases hpub : pop_publish_env env hp (fuel + 1) k old_head s with ⟨ev, r⟩
    rw [hpub] at h2
    simp only at h2
    rcases r with e | ⟨p, k1, s2⟩
    · intro h; simp at h
    · rcases p with _ | b
      · intro h; simp at h
      · obtain ⟨_, hslot⟩ := h2 (some b) k1 s2 rfl
        simp only
        rcases hread : (env k1 s2).heap.read b with _ | n
        · intro h; simp at h
        · have hslot3 : ((env (k1 + 1) (env k1 s2)).hazard_pointers hp).pointer = some b := by
            rw [hframe, hframe, hslot]
          simp only [compare_exchange_head]
          split_ifs with hcas
          · intro h
            simp only [Except.ok.injEq, Prod.mk.injEq, Option.some.injEq] at h
            rw [hslot3, ← h.1]
            simp
          · intro h
            have hrec := ih (k1 + 2) (env (k1 + 1) (env k1 s2)).head_
              (env (k1 + 1) (env k1 s2)) a s1 h
            simp only [List.mem_append, List.mem_cons]
            exact Or.inr (Or.inr (Or.inr hrec))

/-- C17: the two nested loops of `pop`, run with arbitrary interference by other threads
between any two atomic operations of the caller (`env k` is what the others do before the
caller's `k`-th operation; they may change `head_`, the heap and every slot but the caller's
own pointer). Whatever the outcome (a node unlinked, an empty stack seen, a fault, or the
fuel used up), the recorded operations satisfy the discipline of `check_trace`: every
compare-and-swap on `head_` is attempted with the caller's slot holding exactly the candidate,
the candidate being the value of the most recent read of `head_` and of the most recent
publication, and a publication separates any two compare-and-swaps. In particular every
recorded compare-and-swap has `slot = candidate`, and a node is unlinked only by a recorded
successful compare-and-swap on it. With no interference the loops compute what `pop_unlink`
computes. -/
theorem C17_cas_candidate_is_published {T : Type} (env : Nat → State T → State T)
    (hp : Fin max_hazard_pointers)
    (hframe : ∀ k s, ((env k s).hazard_pointers hp).pointer = (s.hazard_pointers hp).pointer)
    (fuel : Nat) (s : State T) :
    trace_ok (pop_loops_env env hp fuel s).1 = true ∧
    (∀ candidate slot ok, PopEvent.cas candidate slot ok ∈ (pop_loops_env env hp fuel s).1 →
      slot = candidate) ∧
    (∀ a s1, (pop_loops_env env hp fuel s).2 = .ok (some a, s1) →
      PopEvent.cas (some a) (some a) true ∈ (pop_loops_env env hp fuel s).1) ∧
    (pop_loops_env (fun _ s => s) hp fuel s).2 = pop_unlink hp fuel s.head_ s := by
  obtain ⟨c1, h1⟩ := pop_unlink_env_check env hp hframe fuel 1 (env 0 s).head_ (env 0 s)
    ⟨none, some (env 0 s).head_, false⟩
  have htr : check_trace ⟨none, none, false⟩ (pop_loops_env env hp fuel s).1 = some c1 := by
    simp only [pop_loops_env, check_trace, check_event]
    exact h1
  refine ⟨?_, ?_, ?_, ?_⟩
  · simp only [trace_ok, htr, Option.isSome_some]
  · exact check_trace_cas_mem _ _ _ htr
  · intro a s1 h
    have hmem := pop_unlink_env_success_cas env hp hframe fuel 1 (env 0 s).head_ (env 0 s) a s1 h
    exact List.mem_cons_of_mem _ hmem
  · exact pop_unlink_env_id hp fuel 1 s.head_ s

/-- C17 at a run where thread 7 pops from a stack holding node 1 while another thread links
node 2 right before the compare-and-swap: the first attempt fails on candidate 1 with the slot holding 1, the loop
republishes, and the second attempt succeeds on candidate 2 with the slot holding 2. -/
theorem C17_cas_candidate_witness :
    (∀ k s, ((push_before_cas_env k s).hazard_pointers 0).pointer =
      (s.hazard_pointers 0).pointer) ∧
    (pop_loops_env push_before_cas_env 0 3 racing_state).1 =
      [.read (some 1), .publish (some 1), .read (some 1), .cas (some 1) (some 1) false,
       .read (some 2), .publish (some 2), .read (some 2), .cas (some 2) (some 2) true] ∧
    trace_ok (pop_loops_env push_before_cas_env 0 3 racing_state).1 = true :=
  have hframe : ∀ k s, ((push_before_cas_env k s).hazard_pointers 0).pointer =
      (s.hazard_pointers 0).pointer := by
    intro k s
    unfold push_before_cas_env
    split_ifs <;> rfl
  ⟨hframe, by rfl,
    (C17_cas_candidate_is_published push_before_cas_env 0 hframe 3 racing_state).1⟩

end HazardPtrs

namespace HazardPtrs

open Mem

/-! ### The interleaved stack: bookkeeping lemmas -/

theorem sum_insert_update {T : Type} (val : thread_id → Multiset T) (live : Finset thread_id)
    (hsupp : ∀ t, t ∉ live → val t = 0) (t : thread_id) (v1 : Multiset T) :
    (insert t live).sum (Function.update val t v1) + val t = live.sum val + v1 := by
  by_cases ht : t ∈ live
  · rw [Finset.insert_eq_of_mem ht, Finset.sum_update_of_mem ht,
      Finset.sum_eq_add_sum_diff_singleton ht val]
    abel
  · rw [Finset.sum_insert ht, Function.update_same, Finset.sum_update_of_not_mem ht,
      hsupp t ht]
    abel

theorem support_insert_update {T : Type} (val : thread_id → Multiset T)
    (live : Finset thread_id) (hsupp : ∀ t, t ∉ live → val t = 0) (t : thread_id)
    (v1 : Multiset T) : ∀ u, u ∉ insert t live → Function.update val t v1 u = 0 := by
  intro u hu
  rw [Finset.mem_insert, not_or] at hu
  rw [Function.update_noteq hu.1]
  exact hsupp u hu.2

theorem guard_probe_excl {T : Type} (l : stack_pc T) (hp : Fin max_hazard_pointers) (a : Addr)
    (p : Ptr) (i : Nat) : guard l = some (hp, a) → probe l = some (p, i) → False := by
  cases l <;> simp [guard, probe]

/-- The promise of a position survives any change of the shared state that leaves alone the
thread's owner object, its slot, its own nodes and the node it relies on. -/
theorem pc_ok_frame {T : Type} (place place1 : Addr → Place) (s s1 : State T) (u : thread_id)
    (v : Multiset T) (l : stack_pc T)
    (hhaz : s1.hazard u = s.hazard u)
    (hslot : ∀ hp, s.hazard u = some hp →
      (s1.hazard_pointers hp).pointer = (s.hazard_pointers hp).pointer)
    (hown : ∀ a, place a = .fresh u ∨ place a = .held u → s.heap.read a ≠ none →
      place1 a = place a ∧ s1.heap.read a = s.heap.read a)
    (hguard : ∀ hp a, guard l = some (hp, a) → (place a).published → ∀ n,
      s.heap.read a = some n →
        (place1 a).published ∧ ∃ n1, s1.heap.read a = some n1 ∧ n1.next = n.next)
    (h : pc_ok place s u v l) : pc_ok place1 s1 u v l := by
  have hent : ∀ cur, entries_ok place s u cur → entries_ok place1 s1 u cur := by
    intro cur hc
    refine ⟨hc.1, ?_⟩
    intro e he
    obtain ⟨a, h1, h2, h3⟩ := hc.2 e he
    obtain ⟨h4, h5⟩ := hown a (Or.inr h2) h3
    exact ⟨a, h1, by rw [h4, h2], by rw [h5]; exact h3⟩
  have hcar : ∀ a d, place a = .fresh u ∨ place a = .held u → carries s a d →
      place1 a = place a ∧ carries s1 a d := by
    intro a d ha hc
    obtain ⟨nxt, hn⟩ := hc
    have h1 := hown a ha (by rw [hn]; simp)
    exact ⟨h1.1, nxt, by rw [h1.2]; exact hn⟩
  cases l with
  | idle => exact h
  | push_new data => exact h
  | push_load a =>
    obtain ⟨h1, d, h2, h3⟩ := h
    obtain ⟨h4, h5⟩ := hcar a d (Or.inl h1) h2
    exact ⟨by rw [h4]; exact h1, d, h5, h3⟩
  | push_cas a =>
    obtain ⟨h1, d, h2, h3⟩ := h
    obtain ⟨h4, h5⟩ := hcar a d (Or.inl h1) h2
    exact ⟨by rw [h4]; exact h1, d, h5, h3⟩
  | pop_owner i => exact ⟨h.1, by rw [hhaz]; exact h.2⟩
  | pop_load hp => exact ⟨h.1, by rw [hhaz]; exact h.2⟩
  | pop_publish hp p => exact ⟨h.1, by rw [hhaz]; exact h.2⟩
  | pop_recheck hp temp =>
    exact ⟨h.1, by rw [hhaz]; exact h.2.1, by rw [hslot hp h.2.1]; exact h.2.2⟩
  | pop_next hp a =>
    obtain ⟨h1, h2, h3, h4, h5⟩ := h
    obtain ⟨n, hn⟩ := Option.ne_none_iff_exists'.1 h5
    obtain ⟨h6, n1, h7, _⟩ := hguard hp a rfl h4 n hn
    exact ⟨h1, by rw [hhaz]; exact h2, by rw [hslot hp h2]; exact h3, h6, by rw [h7]; simp⟩
  | pop_cas hp a nxt =>
    obtain ⟨h1, h2, h3, h4, n, hn, h5⟩ := h
    obtain ⟨h6, n1, h7, h8⟩ := hguard hp a rfl h4 n hn
    exact ⟨h1, by rw [hhaz]; exact h2, by rw [hslot hp h2]; exact h3, h6, n1, h7,
      by rw [h8]; exact h5⟩
  | pop_clear hp old =>
    cases old with
    | none => exact ⟨h.1, by rw [hhaz]; exact h.2⟩
    | some a =>
      obtain ⟨h1, h2, d, h3, h4⟩ := h
      obtain ⟨h5, h6⟩ := hcar a d (Or.inr h2) h3
      exact ⟨by rw [hhaz]; exact h1, by rw [h5]; exact h2, d, h6, h4⟩
  | pop_swap a =>
    obtain ⟨h2, d, h3, h4⟩ := h
    obtain ⟨h5, h6⟩ := hcar a d (Or.inr h2) h3
    exact ⟨by rw [h5]; exact h2, d, h6, h4⟩
  | pop_check a r i =>
    obtain ⟨h1, h2, h3⟩ := h
    obtain ⟨h4, h5⟩ := hown a (Or.inr h1) h2
    exact ⟨by rw [h4]; exact h1, by rw [h5]; exact h2, h3⟩
  | pop_later a r =>
    obtain ⟨h1, h2, h3⟩ := h
    obtain ⟨h4, h5⟩ := hown a (Or.inr h1) h2
    exact ⟨by rw [h4]; exact h1, by rw [h5]; exact h2, h3⟩
  | pop_delete a r =>
    obtain ⟨h1, h2, h3⟩ := h
    obtain ⟨h4, h5⟩ := hown a (Or.inr h1) h2
    exact ⟨by rw [h4]; exact h1, by rw [h5]; exact h2, h3⟩
  | sweep_exchange r => exact h
  | sweep_loop r cur => exact ⟨h.1, hent cur h.2⟩
  | sweep_check r e nxt i => exact ⟨h.1, hent _ h.2⟩
  | sweep_delete r e nxt => exact ⟨h.1, hent _ h.2⟩
  | sweep_add r e nxt => exact ⟨h.1, hent _ h.2⟩
  | exit_id hp => exact ⟨h.1, by rw [hhaz]; exact h.2⟩

/-- Rebuilding the invariant after a step of thread `t`. -/
theorem SysInv_update {T : Type} (s : System T) (place : Addr → Place)
    (val : thread_id → Multiset T) (live : Finset thread_id) (cs : List (Addr × T))
    (hinv : SysInv s place val live cs) (t : thread_id) (l1 : stack_pc T) (x1 : State T)
    (place1 : Addr → Place) (v1 : Multiset T) (cs1 : List (Addr × T))
    (pushed1 returned1 : List T)
    (hlinked : Linked x1.heap x1.head_ cs1) (hnodup : (cs1.map Prod.fst).Nodup)
    (hlp : ∀ c ∈ cs1, place1 c.1 = .linked)
    (hpn : x1.nodes_to_reclaim.Nodup)
    (hpp : ∀ e ∈ x1.nodes_to_reclaim,
      ∃ a, e.data = some a ∧ place1 a = .pending ∧ x1.heap.read a ≠ none)
    (howner : ∀ u hp, x1.hazard u = some hp → (x1.hazard_pointers hp).id = some u)
    (hself : pc_ok place1 x1 t v1 l1)
    (hothers : ∀ u, u ≠ t → pc_ok place1 x1 u (val u) (s.pc u))
    (hscan1 : ∀ u, u ≠ t → ∀ hp a i, guard (s.pc u) = some (hp, a) →
      probe l1 = some (some a, i) → i ≤ hp.val)
    (hscan2 : ∀ u, u ≠ t → ∀ hp a i, guard l1 = some (hp, a) →
      probe (s.pc u) = some (some a, i) → i ≤ hp.val)
    (hacc : (pushed1 : Multiset T) + (s.returned : Multiset T) +
        ((cs.map Prod.snd : List T) : Multiset T) + val t =
      (s.pushed : Multiset T) + (returned1 : Multiset T) +
        ((cs1.map Prod.snd : List T) : Multiset T) + v1) :
    SysInv ⟨x1, Function.update s.pc t l1, pushed1, returned1⟩ place1
      (Function.update val t v1) (insert t live) cs1 := by
  refine ⟨hlinked, hnodup, hlp, hpn, hpp, howner, ?_, ?_, ?_, ?_⟩
  · intro u
    by_cases hu : u = t
    · subst hu
      simp only [Function.update_same]
      exact hself
    · simp only [Function.update_noteq hu]
      exact hothers u hu
  · intro u w hp a i hg hpr
    dsimp only at hg hpr
    by_cases hu : u = t
    · by_cases hw : w = t
      · rw [hu, Function.update_same] at hg
        rw [hw, Function.update_same] at hpr
        exact (guard_probe_excl l1 hp a _ i hg hpr).elim
      · rw [hu, Function.update_same] at hg
        rw [Function.update_noteq hw] at hpr
        exact hscan2 w hw hp a i hg hpr
    · rw [Function.update_noteq hu] at hg
      by_cases hw : w = t
      · rw [hw, Function.update_same] at hpr
        exact hscan1 u hu hp a i hg hpr
      · rw [Function.update_noteq hw] at hpr
        exact hinv.scan u w hp a i hg hpr
  · exact support_insert_update val live hinv.support t v1
  · dsimp only
    have hs := sum_insert_update val live hinv.support t v1
    have ha := hinv.account
    refine (add_left_inj ((s.pushed : Multiset T) + val t)).1 ?_
    calc (pushed1 : Multiset T) + ((s.pushed : Multiset T) + val t)
        = (pushed1 : Multiset T) + val t + (s.pushed : Multiset T) := by abel
      _ = (pushed1 : Multiset T) + val t + ((s.returned : Multiset T) +
            ((cs.map Prod.snd : List T) : Multiset T) + live.sum val) := by rw [ha]
      _ = ((pushed1 : Multiset T) + (s.returned : Multiset T) +
            ((cs.map Prod.snd : List T) : Multiset T) + val t) + live.sum val := by abel
      _ = ((s.pushed : Multiset T) + (returned1 : Multiset T) +
            ((cs1.map Prod.snd : List T) : Multiset T) + v1) + live.sum val := by rw [hacc]
      _ = (returned1 : Multiset T) + ((cs1.map Prod.snd : List T) : Multiset T) +
            (live.sum val + v1) + (s.pushed : Multiset T) := by abel
      _ = (returned1 : Multiset T) + ((cs1.map Prod.snd : List T) : Multiset T) +
            ((insert t live).sum (Function.update val t v1) + val t) +
            (s.pushed : Multiset T) := by rw [hs]
      _ = (returned1 : Multiset T) + ((cs1.map Prod.snd : List T) : Multiset T) +
            (insert t live).sum (Function.update val t v1) +
            ((s.pushed : Multiset T) + val t) := by abel

/-- Rebuilding the invariant after a step of thread `t` that changes nothing but its own
position, the payloads in its hands and the histories. -/
theorem SysInv_local {T : Type} (s : System T) (place : Addr → Place)
    (val : thread_id → Multiset T) (live : Finset thread_id) (cs : List (Addr × T))
    (hinv : SysInv s place val live cs) (t : thread_id) (l1 : stack_pc T)
    (v1 : Multiset T) (pushed1 returned1 : List T)
    (hself : pc_ok place s.shared t v1 l1)
    (hscan1 : ∀ u, u ≠ t → ∀ hp a i, guard (s.pc u) = some (hp, a) →
      probe l1 = some (some a, i) → i ≤ hp.val)
    (hscan2 : ∀ u, u ≠ t → ∀ hp a i, guard l1 = some (hp, a) →
      probe (s.pc u) = some (some a, i) → i ≤ hp.val)
    (hacc : (pushed1 : Multiset T) + (s.returned : Multiset T) + val t =
      (s.pushed : Multiset T) + (returned1 : Multiset T) + v1) :
    SysInv ⟨s.shared, Function.update s.pc t l1, pushed1, returned1⟩ place
      (Function.update val t v1) (insert t live) cs := by
  refine SysInv_update s place val live cs hinv t l1 s.shared place v1 cs pushed1 returned1
    hinv.linked hinv.nodup hinv.linked_place hinv.pending_nodup hinv.pending_place hinv.owner
    hself (fun u _ => hinv.threads u) hscan1 hscan2 ?_
  calc (pushed1 : Multiset T) + (s.returned : Multiset T) +
        ((cs.map Prod.snd : List T) : Multiset T) + val t
      = ((pushed1 : Multiset T) + (s.returned : Multiset T) + val t) +
          ((cs.map Prod.snd : List T) : Multiset T) := by abel
    _ = ((s.pushed : Multiset T) + (returned1 : Multiset T) + v1) +
          ((cs.map Prod.snd : List T) : Multiset T) := by rw [hacc]
    _ = _ := by abel

theorem system_step_of_thread_step {T : Type} (operator_new : Heap (node T) → Addr)
    (t : thread_id) (s : System T) (l1 : stack_pc T) (x1 : State T) (out : Option T)
    (h : thread_step operator_new t (s.pc t) s.shared = .ok (l1, x1, out)) :
    system_step operator_new (.step t) s =
      .ok ⟨x1, Function.update s.pc t l1, s.pushed, out.toList ++ s.returned⟩ := by
  simp only [system_step, h]

theorem guard_slot {T : Type} (place : Addr → Place) (x : State T) (u : thread_id)
    (v : Multiset T) (l : stack_pc T) (hp : Fin max_hazard_pointers) (a : Addr)
    (h : pc_ok place x u v l) (hg : guard l = some (hp, a)) :
    x.hazard u = some hp ∧ (x.hazard_pointers hp).pointer = some a ∧ (place a).published ∧
      x.heap.read a ≠ none := by
  cases l <;> simp only [guard, Option.some.injEq, Prod.mk.injEq, reduceCtorEq] at hg
  · obtain ⟨h1, h2⟩ := hg
    subst h1 h2
    exact ⟨h.2.1, h.2.2.1, h.2.2.2.1, h.2.2.2.2⟩
  · obtain ⟨h1, h2⟩ := hg
    subst h1 h2
    obtain ⟨_, h2, h3, h4, n, hn, _⟩ := h
    exact ⟨h2, h3, h4, by rw [hn]; simp⟩

theorem probe_place {T : Type} (place : Addr → Place) (x : State T) (u : thread_id)
    (v : Multiset T) (l : stack_pc T) (a : Addr) (i : Nat)
    (h : pc_ok place x u v l) (hpr : probe l = some (some a, i)) :
    place a = .held u ∧ x.heap.read a ≠ none := by
  cases l <;> simp only [probe, Option.some.injEq, Prod.mk.injEq, reduceCtorEq] at hpr
  · obtain ⟨h1, _⟩ := hpr
    subst h1
    exact ⟨h.1, h.2.1⟩
  · obtain ⟨h1, _⟩ := hpr
    subst h1
    exact ⟨h.1, h.2.1⟩
  · obtain ⟨a1, h1, h2, h3⟩ := h.2.2 _ (List.mem_cons_self _ _)
    rw [hpr.1] at h1
    cases h1
    exact ⟨h2, h3⟩
  · obtain ⟨a1, h1, h2, h3⟩ := h.2.2 _ (List.mem_cons_self _ _)
    rw [hpr.1] at h1
    cases h1
    exact ⟨h2, h3⟩

theorem outstanding_step_none (reg : Registry) (p : Ptr) (i : Nat)
    (h : outstanding_step reg p i = none) :
    ∃ hi : i < max_hazard_pointers, (reg ⟨i, hi⟩).pointer ≠ p := by
  unfold outstanding_step at h
  split_ifs at h with h1 h2
  exact ⟨h1, h2⟩

theorem outstanding_step_false (reg : Registry) (p : Ptr) (i : Nat)
    (h : outstanding_step reg p i = some false) : max_hazard_pointers ≤ i := by
  by_cases h1 : i < max_hazard_pointers
  · unfold outstanding_step at h
    rw [dif_pos h1] at h
    split_ifs at h
    simp at h
  · exact Nat.le_of_not_lt h1

/-- A thread that sees slot `i` not holding `a` can go on to slot `i + 1`: no thread relying
on its protection of `a` sits on slot `i`. -/
theorem scan_advance {T : Type} (s : System T) (place : Addr → Place)
    (val : thread_id → Multiset T) (live : Finset thread_id) (cs : List (Addr × T))
    (hinv : SysInv s place val live cs) (t : thread_id) (a : Addr) (i : Nat)
    (hpr : probe (s.pc t) = some (some a, i))
    (hstep : outstanding_step s.shared.hazard_pointers (some a) i = none) :
    ∀ u hp, guard (s.pc u) = some (hp, a) → i + 1 ≤ hp.val := by
  intro u hp hg
  have h1 := hinv.scan u t hp a i hg hpr
  obtain ⟨hi, hne⟩ := outstanding_step_none _ _ _ hstep
  have h2 := (guard_slot place s.shared u (val u) (s.pc u) hp a (hinv.threads u) hg).2.1
  rcases Nat.lt_or_ge i hp.val with h3 | h3
  · exact h3
  · have h4 : hp = ⟨i, hi⟩ := Fin.ext (Nat.le_antisymm h3 h1)
    rw [h4] at h2
    exact (hne h2).elim

theorem scan_done {T : Type} (s : System T) (place : Addr → Place)
    (val : thread_id → Multiset T) (live : Finset thread_id) (cs : List (Addr × T))
    (hinv : SysInv s place val live cs) (t : thread_id) (a : Addr) (i : Nat)
    (hpr : probe (s.pc t) = some (some a, i))
    (hstep : outstanding_step s.shared.hazard_pointers (some a) i = some false) :
    ∀ u hp, guard (s.pc u) = some (hp, a) → max_hazard_pointers ≤ hp.val := by
  intro u hp hg
  have h1 := hinv.scan u t hp a i hg hpr
  exact Nat.le_trans (outstanding_step_false _ _ _ hstep) h1

theorem linked_head {T : Type} (h : Heap (node T)) (a : Addr) (cs : List (Addr × T))
    (hl : Linked h (some a) cs) :
    ∃ v rest nxt, cs = (a, v) :: rest ∧ h.read a = some ⟨some v, nxt⟩ ∧ Linked h nxt rest := by
  cases cs with
  | nil => simp [Linked] at hl
  | cons c rest =>
    obtain ⟨h1, nxt, h2, h3⟩ := hl
    cases c with
    | mk a1 v =>
      simp only [Option.some.injEq] at h1
      subst h1
      exact ⟨v, rest, nxt, rfl, h2, h3⟩

theorem GoodNext_intro {T : Type} (operator_new : Heap (node T) → Addr)
    (t : thread_id) (s : System T) (l1 : stack_pc T) (x1 : State T) (out : Option T)
    (h : thread_step operator_new t (s.pc t) s.shared = .ok (l1, x1, out))
    {place1 : Addr → Place} {val1 : thread_id → Multiset T} {live1 : Finset thread_id}
    {cs1 : List (Addr × T)}
    (hinv : SysInv ⟨x1, Function.update s.pc t l1, s.pushed, out.toList ++ s.returned⟩
      place1 val1 live1 cs1) : GoodNext operator_new (.step t) s :=
  ⟨_, system_step_of_thread_step operator_new t s l1 x1 out h, place1, val1, live1, cs1, hinv⟩

end HazardPtrs

namespace HazardPtrs

open Mem

/-! ### The interleaved stack: steps that change no shared object -/

theorem step_idle {T : Type} (operator_new : Heap (node T) → Addr) (s : System T)
    (hgood : Good s) (t : thread_id) (hpc : s.pc t = .idle) :
    GoodNext operator_new (.step t) s := by
  obtain ⟨place, val, live, cs, hinv⟩ := hgood
  have hth := hinv.threads t
  rw [hpc] at hth
  apply GoodNext_intro operator_new t s .idle s.shared none
    (by rw [hpc]; rfl)
  exact SysInv_local s place val live cs hinv t .idle (val t) s.pushed s.returned hth
    (by simp [probe]) (by simp [guard]) rfl

theorem step_pop_load {T : Type} (operator_new : Heap (node T) → Addr) (s : System T)
    (hgood : Good s) (t : thread_id) (hp : Fin max_hazard_pointers)
    (hpc : s.pc t = .pop_load hp) : GoodNext operator_new (.step t) s := by
  obtain ⟨place, val, live, cs, hinv⟩ := hgood
  have hth := hinv.threads t
  rw [hpc] at hth
  apply GoodNext_intro operator_new t s (.pop_publish hp s.shared.head_)
    s.shared none (by rw [hpc]; rfl)
  exact SysInv_local s place val live cs hinv t _ (val t) s.pushed s.returned hth
    (by simp [probe]) (by simp [guard]) rfl

theorem step_pop_recheck {T : Type} (operator_new : Heap (node T) → Addr) (s : System T)
    (hgood : Good s) (t : thread_id) (hp : Fin max_hazard_pointers) (temp : Ptr)
    (hpc : s.pc t = .pop_recheck hp temp) : GoodNext operator_new (.step t) s := by
  obtain ⟨place, val, live, cs, hinv⟩ := hgood
  have hth := hinv.threads t
  rw [hpc] at hth
  obtain ⟨hv, hhaz, hslot⟩ := hth
  by_cases hne : temp ≠ s.shared.head_
  · apply GoodNext_intro operator_new t s (.pop_publish hp s.shared.head_)
      s.shared none (by rw [hpc]; simp only [thread_step, if_pos hne])
    exact SysInv_local s place val live cs hinv t _ (val t) s.pushed s.returned ⟨hv, hhaz⟩
      (by simp [probe]) (by simp [guard]) rfl
  · have heq : temp = s.shared.head_ := not_not.1 hne
    rcases hhead : s.shared.head_ with _ | a
    · apply GoodNext_intro operator_new t s (.pop_clear hp none)
        s.shared none (by rw [hpc]; simp only [thread_step, hhead]; rw [if_neg (by rw [← hhead]; exact hne)])
      exact SysInv_local s place val live cs hinv t _ (val t) s.pushed s.returned ⟨hv, hhaz⟩
        (by simp [probe]) (by simp [guard]) rfl
    · apply GoodNext_intro operator_new t s (.pop_next hp a)
        s.shared none (by rw [hpc]; simp only [thread_step, hhead]; rw [if_neg (by rw [← hhead]; exact hne)])
      have hl := hinv.linked
      rw [hhead] at hl
      obtain ⟨v, rest, nxt, hcs, hread, _⟩ := linked_head _ _ _ hl
      have hpl : place a = .linked := hinv.linked_place (a, v) (by rw [hcs]; simp)
      refine SysInv_local s place val live cs hinv t _ (val t) s.pushed s.returned
        ⟨hv, hhaz, by rw [hslot, heq, hhead], by rw [hpl]; trivial, by rw [hread]; simp⟩
        (by simp [probe]) ?_ rfl
      intro u _ hp1 a1 i hg hpr
      simp only [guard, Option.some.injEq, Prod.mk.injEq] at hg
      obtain ⟨_, h2⟩ := hg
      subst h2
      have h3 := (probe_place place s.shared u (val u) (s.pc u) a i (hinv.threads u) hpr).1
      rw [hpl] at h3
      cases h3

theorem step_pop_next {T : Type} (operator_new : Heap (node T) → Addr) (s : System T)
    (hgood : Good s) (t : thread_id) (hp : Fin max_hazard_pointers) (a : Addr)
    (hpc : s.pc t = .pop_next hp a) : GoodNext operator_new (.step t) s := by
  obtain ⟨place, val, live, cs, hinv⟩ := hgood
  have hth := hinv.threads t
  rw [hpc] at hth
  obtain ⟨hv, hhaz, hslot, hpub, hlive⟩ := hth
  obtain ⟨n, hn⟩ := Option.ne_none_iff_exists'.1 hlive
  apply GoodNext_intro operator_new t s (.pop_cas hp a n.next)
    s.shared none (by rw [hpc]; simp only [thread_step, hn])
  refine SysInv_local s place val live cs hinv t _ (val t) s.pushed s.returned
    ⟨hv, hhaz, hslot, hpub, n, hn, rfl⟩ (by simp [probe]) ?_ rfl
  intro u _ hp1 a1 i hg hpr
  exact hinv.scan t u hp1 a1 i (by rw [hpc]; exact hg) hpr

theorem step_pop_check {T : Type} (operator_new : Heap (node T) → Addr) (s : System T)
    (hgood : Good s) (t : thread_id) (a : Addr) (r : Option T) (i : Nat)
    (hpc : s.pc t = .pop_check a r i) : GoodNext operator_new (.step t) s := by
  obtain ⟨place, val, live, cs, hinv⟩ := hgood
  have hth := hinv.threads t
  rw [hpc] at hth
  have hpr : probe (s.pc t) = some (some a, i) := by rw [hpc]; rfl
  rcases hstep : outstanding_step s.shared.hazard_pointers (some a) i with _ | b
  · apply GoodNext_intro operator_new t s (.pop_check a r (i + 1))
      s.shared none (by rw [hpc]; simp only [thread_step, hstep])
    refine SysInv_local s place val live cs hinv t _ (val t) s.pushed s.returned hth ?_
      (by simp [guard]) rfl
    intro u _ hp1 a1 j hg hpr1
    simp only [probe, Option.some.injEq, Prod.mk.injEq] at hpr1
    obtain ⟨h1, h2⟩ := hpr1
    subst h1 h2
    exact scan_advance s place val live cs hinv t a i hpr hstep u hp1 hg
  · cases b with
    | true =>
      apply GoodNext_intro operator_new t s (.pop_later a r)
        s.shared none (by rw [hpc]; simp only [thread_step, hstep])
      exact SysInv_local s place val live cs hinv t _ (val t) s.pushed s.returned hth
        (by simp [probe]) (by simp [guard]) rfl
    | false =>
      apply GoodNext_intro operator_new t s (.pop_delete a r)
        s.shared none (by rw [hpc]; simp only [thread_step, hstep])
      refine SysInv_local s place val live cs hinv t _ (val t) s.pushed s.returned hth ?_
        (by simp [guard]) rfl
      intro u _ hp1 a1 j hg hpr1
      simp only [probe, Option.some.injEq, Prod.mk.injEq] at hpr1
      obtain ⟨h1, h2⟩ := hpr1
      subst h1 h2
      exact scan_done s place val live cs hinv t a i hpr hstep u hp1 hg

theorem step_sweep_check {T : Type} (operator_new : Heap (node T) → Addr) (s : System T)
    (hgood : Good s) (t : thread_id) (r : Option T) (e : data_to_reclaim)
    (nxt : List data_to_reclaim) (i : Nat)
    (hpc : s.pc t = .sweep_check r e nxt i) : GoodNext operator_new (.step t) s := by
  obtain ⟨place, val, live, cs, hinv⟩ := hgood
  have hth := hinv.threads t
  rw [hpc] at hth
  obtain ⟨a, hdata, _, _⟩ := hth.2.2 e (List.mem_cons_self _ _)
  have hpr : probe (s.pc t) = some (some a, i) := by rw [hpc, ← hdata]; rfl
  rcases hstep : outstanding_step s.shared.hazard_pointers e.data i with _ | b
  · apply GoodNext_intro operator_new t s (.sweep_check r e nxt (i + 1))
      s.shared none (by rw [hpc]; simp only [thread_step, hstep])
    refine SysInv_local s place val live cs hinv t _ (val t) s.pushed s.returned hth ?_
      (by simp [guard]) rfl
    intro u _ hp1 a1 j hg hpr1
    simp only [probe, Option.some.injEq, Prod.mk.injEq, hdata] at hpr1
    obtain ⟨h1, h2⟩ := hpr1
    subst h1 h2
    rw [hdata] at hstep
    exact scan_advance s place val live cs hinv t a i hpr hstep u hp1 hg
  · cases b with
    | true =>
      apply GoodNext_intro operator_new t s (.sweep_add r e nxt)
        s.shared none (by rw [hpc]; simp only [thread_step, hstep])
      exact SysInv_local s place val live cs hinv t _ (val t) s.pushed s.returned hth
        (by simp [probe]) (by simp [guard]) rfl
    | false =>
      apply GoodNext_intro operator_new t s (.sweep_delete r e nxt)
        s.shared none (by rw [hpc]; simp only [thread_step, hstep])
      refine SysInv_local s place val live cs hinv t _ (val t) s.pushed s.returned hth ?_
        (by simp [guard]) rfl
      intro u _ hp1 a1 j hg hpr1
      simp only [probe, Option.some.injEq, Prod.mk.injEq, hdata] at hpr1
      obtain ⟨h1, h2⟩ := hpr1
      subst h1 h2
      rw [hdata] at hstep
      exact scan_done s place val live cs hinv t a i hpr hstep u hp1 hg

theorem step_sweep_loop {T : Type} (operator_new : Heap (node T) → Addr) (s : System T)
    (hgood : Good s) (t : thread_id) (r : Option T) (cur : List data_to_reclaim)
    (hpc : s.pc t = .sweep_loop r cur) : GoodNext operator_new (.step t) s := by
  obtain ⟨place, val, live, cs, hinv⟩ := hgood
  have hth := hinv.threads t
  rw [hpc] at hth
  cases cur with
  | nil =>
    apply GoodNext_intro operator_new t s .idle s.shared r
      (by rw [hpc]; rfl)
    refine SysInv_local s place val live cs hinv t .idle 0 s.pushed (r.toList ++ s.returned)
      rfl (by simp [probe]) (by simp [guard]) ?_
    rw [hth.1, ← Multiset.coe_add]
    abel
  | cons e nxt =>
    apply GoodNext_intro operator_new t s (.sweep_check r e nxt 0)
      s.shared none (by rw [hpc]; rfl)
    refine SysInv_local s place val live cs hinv t _ (val t) s.pushed s.returned hth ?_
      (by simp [guard]) rfl
    intro u _ hp1 a1 j hg hpr1
    simp only [probe, Option.some.injEq, Prod.mk.injEq] at hpr1
    omega

end HazardPtrs

namespace HazardPtrs

open Mem

/-! ### The interleaved stack: steps on the registry -/

/-- Rebuilding the invariant after a step of thread `t` that changes the registry and the
owner object of `t` only. -/
theorem SysInv_slots {T : Type} (s : System T) (place : Addr → Place)
    (val : thread_id → Multiset T) (live : Finset thread_id) (cs : List (Addr × T))
    (hinv : SysInv s place val live cs) (t : thread_id) (l1 : stack_pc T) (x1 : State T)
    (hheap : x1.heap = s.shared.heap) (hhead : x1.head_ = s.shared.head_)
    (hpend : x1.nodes_to_reclaim = s.shared.nodes_to_reclaim)
    (howner : ∀ u hp, x1.hazard u = some hp → (x1.hazard_pointers hp).id = some u)
    (hhaz : ∀ u, u ≠ t → x1.hazard u = s.shared.hazard u)
    (hslot : ∀ u, u ≠ t → ∀ hp, s.shared.hazard u = some hp →
      (x1.hazard_pointers hp).pointer = (s.shared.hazard_pointers hp).pointer)
    (hself : pc_ok place x1 t (val t) l1)
    (hscan1 : ∀ u, u ≠ t → ∀ hp a i, guard (s.pc u) = some (hp, a) →
      probe l1 = some (some a, i) → i ≤ hp.val)
    (hscan2 : ∀ u, u ≠ t → ∀ hp a i, guard l1 = some (hp, a) →
      probe (s.pc u) = some (some a, i) → i ≤ hp.val) :
    SysInv ⟨x1, Function.update s.pc t l1, s.pushed, s.returned⟩ place
      (Function.update val t (val t)) (insert t live) cs := by
  refine SysInv_update s place val live cs hinv t l1 x1 place (val t) cs s.pushed s.returned
    (by rw [hheap, hhead]; exact hinv.linked) hinv.nodup hinv.linked_place
    (by rw [hpend]; exact hinv.pending_nodup)
    (by rw [hpend, hheap]; exact hinv.pending_place) howner hself ?_ hscan1 hscan2 rfl
  intro u hu
  refine pc_ok_frame place place s.shared x1 u (val u) (s.pc u) (hhaz u hu) (hslot u hu)
    (fun a _ _ => ⟨rfl, by rw [hheap]⟩) ?_ (hinv.threads u)
  intro hp a _ hpub n hn
  exact ⟨hpub, n, by rw [hheap]; exact hn, rfl⟩

theorem other_slot {T : Type} (s : System T) (place : Addr → Place)
    (val : thread_id → Multiset T) (live : Finset thread_id) (cs : List (Addr × T))
    (hinv : SysInv s place val live cs) (t u : thread_id) (hp hp1 : Fin max_hazard_pointers)
    (ht : s.shared.hazard t = some hp) (hu : s.shared.hazard u = some hp1) (hne : u ≠ t) :
    hp1 ≠ hp := by
  intro h
  have h1 := hinv.owner t hp ht
  have h2 := hinv.owner u hp1 hu
  rw [h, h1] at h2
  exact hne (Option.some.inj h2).symm

theorem step_pop_publish {T : Type} (operator_new : Heap (node T) → Addr) (s : System T)
    (hgood : Good s) (t : thread_id) (hp : Fin max_hazard_pointers) (p : Ptr)
    (hpc : s.pc t = .pop_publish hp p) : GoodNext operator_new (.step t) s := by
  obtain ⟨place, val, live, cs, hinv⟩ := hgood
  have hth := hinv.threads t
  rw [hpc] at hth
  apply GoodNext_intro operator_new t s (.pop_recheck hp p)
    { s.shared with hazard_pointers := store_pointer s.shared.hazard_pointers hp p } none
    (by rw [hpc]; rfl)
  refine SysInv_slots s place val live cs hinv t _ _ rfl rfl rfl ?_ (fun _ _ => rfl) ?_
    ⟨hth.1, hth.2, by simp [store_pointer_same]⟩ (by simp [probe]) (by simp [guard])
  · intro u hp1 hu
    dsimp only at hu ⊢
    rw [store_pointer_id]
    exact hinv.owner u hp1 hu
  · intro u hu hp1 hu1
    dsimp only
    rw [store_pointer_ne _ _ (other_slot s place val live cs hinv t u hp hp1 hth.2 hu1 hu)]

theorem step_pop_clear {T : Type} (operator_new : Heap (node T) → Addr) (s : System T)
    (hgood : Good s) (t : thread_id) (hp : Fin max_hazard_pointers) (old : Ptr)
    (hpc : s.pc t = .pop_clear hp old) : GoodNext operator_new (.step t) s := by
  obtain ⟨place, val, live, cs, hinv⟩ := hgood
  have hth := hinv.threads t
  rw [hpc] at hth
  have hhaz : s.shared.hazard t = some hp := by
    cases old with
    | none => exact hth.2
    | some a => exact hth.1
  cases old with
  | none =>
    apply GoodNext_intro operator_new t s .idle
      { s.shared with hazard_pointers := store_pointer s.shared.hazard_pointers hp none } none
      (by rw [hpc]; rfl)
    refine SysInv_slots s place val live cs hinv t _ _ rfl rfl rfl ?_ (fun _ _ => rfl) ?_
      hth.1 (by simp [probe]) (by simp [guard])
    · intro u hp1 hu
      dsimp only at hu ⊢
      rw [store_pointer_id]
      exact hinv.owner u hp1 hu
    · intro u hu hp1 hu1
      dsimp only
      rw [store_pointer_ne _ _ (other_slot s place val live cs hinv t u hp hp1 hhaz hu1 hu)]
  | some a =>
    apply GoodNext_intro operator_new t s (.pop_swap a)
      { s.shared with hazard_pointers := store_pointer s.shared.hazard_pointers hp none } none
      (by rw [hpc]; rfl)
    refine SysInv_slots s place val live cs hinv t _ _ rfl rfl rfl ?_ (fun _ _ => rfl) ?_
      ⟨hth.2.1, hth.2.2⟩ (by simp [probe]) (by simp [guard])
    · intro u hp1 hu
      dsimp only at hu ⊢
      rw [store_pointer_id]
      exact hinv.owner u hp1 hu
    · intro u hu hp1 hu1
      dsimp only
      rw [store_pointer_ne _ _ (other_slot s place val live cs hinv t u hp hp1 hhaz hu1 hu)]

theorem step_exit_id {T : Type} (operator_new : Heap (node T) → Addr) (s : System T)
    (hgood : Good s) (t : thread_id) (hp : Fin max_hazard_pointers)
    (hpc : s.pc t = .exit_id hp) : GoodNext operator_new (.step t) s := by
  obtain ⟨place, val, live, cs, hinv⟩ := hgood
  have hth := hinv.threads t
  rw [hpc] at hth
  apply GoodNext_intro operator_new t s .idle
    { s.shared with hazard_pointers := store_id s.shared.hazard_pointers hp none
                    hazard := Function.update s.shared.hazard t none } none
    (by rw [hpc]; rfl)
  refine SysInv_slots s place val live cs hinv t _ _ rfl rfl rfl ?_ ?_ ?_
    hth.1 (by simp [probe]) (by simp [guard])
  · intro u hp1 hu
    dsimp only at hu ⊢
    by_cases hut : u = t
    · rw [hut, Function.update_same] at hu
      cases hu
    · rw [Function.update_noteq hut] at hu
      rw [store_id_ne _ _ (other_slot s place val live cs hinv t u hp hp1 hth.2 hu hut)]
      exact hinv.owner u hp1 hu
  · intro u hu
    dsimp only
    rw [Function.update_noteq hu]
  · intro u hu hp1 hu1
    dsimp only
    rw [store_id_pointer]

theorem step_pop_owner {T : Type} (operator_new : Heap (node T) → Addr) (s : System T)
    (hgood : Good s) (t : thread_id) (i : Nat)
    (hpc : s.pc t = .pop_owner i) : GoodNext operator_new (.step t) s := by
  obtain ⟨place, val, live, cs, hinv⟩ := hgood
  have hth := hinv.threads t
  rw [hpc] at hth
  by_cases hi : i < max_hazard_pointers
  · by_cases hid : (s.shared.hazard_pointers ⟨i, hi⟩).id = none
    · apply GoodNext_intro operator_new t s (.pop_load ⟨i, hi⟩)
        { s.shared with
          hazard_pointers := store_id s.shared.hazard_pointers ⟨i, hi⟩ (some t)
          hazard := Function.update s.shared.hazard t (some ⟨i, hi⟩) } none
        (by rw [hpc]; simp only [thread_step, dif_pos hi, compare_exchange_id_ok hid])
      refine SysInv_slots s place val live cs hinv t _ _ rfl rfl rfl ?_ ?_ ?_
        ⟨hth.1, by simp⟩ (by simp [probe]) (by simp [guard])
      · intro u hp1 hu
        dsimp only at hu ⊢
        by_cases hut : u = t
        · rw [hut, Function.update_same] at hu
          cases hu
          rw [store_id_same, hut]
        · rw [Function.update_noteq hut] at hu
          have hne : hp1 ≠ ⟨i, hi⟩ := by
            intro h
            have h1 := hinv.owner u hp1 hu
            rw [h, hid] at h1
            cases h1
          rw [store_id_ne _ _ hne]
          exact hinv.owner u hp1 hu
      · intro u hu
        dsimp only
        rw [Function.update_noteq hu]
      · intro u hu hp1 hu1
        dsimp only
        rw [store_id_pointer]
    · apply GoodNext_intro operator_new t s (.pop_owner (i + 1)) s.shared none
        (by rw [hpc]; simp only [thread_step, dif_pos hi, compare_exchange_id_fail hid])
      exact SysInv_local s place val live cs hinv t _ (val t) s.pushed s.returned hth
        (by simp [probe]) (by simp [guard]) rfl
  · apply GoodNext_intro operator_new t s .idle s.shared none
      (by rw [hpc]; simp only [thread_step, dif_neg hi])
    exact SysInv_local s place val live cs hinv t _ (val t) s.pushed s.returned hth.1
      (by simp [probe]) (by simp [guard]) rfl

end HazardPtrs

namespace HazardPtrs

open Mem

/-! ### The interleaved stack: calls and thread end -/

theorem event_push {T : Type} (operator_new : Heap (node T) → Addr) (s : System T)
    (hgood : Good s) (t : thread_id) (data : T) : GoodNext operator_new (.push t data) s := by
  obtain ⟨place, val, live, cs, hinv⟩ := hgood
  have hth := hinv.threads t
  by_cases hpc : s.pc t = .idle
  · rw [hpc] at hth
    have hinv1 := SysInv_local s place val live cs hinv t (.push_new data) {data}
      (data :: s.pushed) s.returned rfl (by simp [probe]) (by simp [guard])
      (by
        have hv : val t = 0 := hth
        rw [hv, ← Multiset.cons_coe, ← Multiset.singleton_add]
        abel)
    exact ⟨_, by simp only [system_step, hpc], place, Function.update val t {data},
      insert t live, cs, hinv1⟩
  · refine ⟨s, ?_, place, val, live, cs, hinv⟩
    cases hl : s.pc t <;> simp only [system_step, hl]
    exact (hpc hl).elim

theorem event_pop {T : Type} (operator_new : Heap (node T) → Addr) (s : System T)
    (hgood : Good s) (t : thread_id) : GoodNext operator_new (.pop t) s := by
  obtain ⟨place, val, live, cs, hinv⟩ := hgood
  have hth := hinv.threads t
  by_cases hpc : s.pc t = .idle
  · rw [hpc] at hth
    have hv : val t = 0 := hth
    rcases hhaz : s.shared.hazard t with _ | hp
    · have hinv1 := SysInv_local s place val live cs hinv t (.pop_owner 0) (val t)
        s.pushed s.returned ⟨hv, hhaz⟩ (by simp [probe]) (by simp [guard]) rfl
      exact ⟨_, by simp only [system_step, hpc, hhaz], place, Function.update val t (val t),
        insert t live, cs, hinv1⟩
    · have hinv1 := SysInv_local s place val live cs hinv t (.pop_load hp) (val t)
        s.pushed s.returned ⟨hv, hhaz⟩ (by simp [probe]) (by simp [guard]) rfl
      exact ⟨_, by simp only [system_step, hpc, hhaz], place, Function.update val t (val t),
        insert t live, cs, hinv1⟩
  · refine ⟨s, ?_, place, val, live, cs, hinv⟩
    cases hl : s.pc t <;> simp only [system_step, hl]
    exact (hpc hl).elim

theorem event_exit {T : Type} (operator_new : Heap (node T) → Addr) (s : System T)
    (hgood : Good s) (t : thread_id) : GoodNext operator_new (.exit t) s := by
  obtain ⟨place, val, live, cs, hinv⟩ := hgood
  have hth := hinv.threads t
  by_cases hpc : s.pc t = .idle
  · rw [hpc] at hth
    have hv : val t = 0 := hth
    rcases hhaz : s.shared.hazard t with _ | hp
    · exact ⟨s, by simp only [system_step, hpc, hhaz], place, val, live, cs, hinv⟩
    · have hinv1 := SysInv_slots s place val live cs hinv t (.exit_id hp)
        { s.shared with hazard_pointers := store_pointer s.shared.hazard_pointers hp none }
        rfl rfl rfl
        (by
          intro u hp1 hu
          dsimp only at hu ⊢
          rw [store_pointer_id]
          exact hinv.owner u hp1 hu)
        (fun _ _ => rfl)
        (by
          intro u hu hp1 hu1
          dsimp only
          rw [store_pointer_ne _ _
            (other_slot s place val live cs hinv t u hp hp1 hhaz hu1 hu)])
        ⟨hv, hhaz⟩ (by simp [probe]) (by simp [guard])
      exact ⟨_, by simp only [system_step, hpc, hhaz], place, Function.update val t (val t),
        insert t live, cs, hinv1⟩
  · refine ⟨s, ?_, place, val, live, cs, hinv⟩
    cases hl : s.pc t <;> simp only [system_step, hl]
    exact (hpc hl).elim

end HazardPtrs

namespace HazardPtrs

open Mem

/-! ### The interleaved stack: steps on one node -/

/-- Rebuilding the invariant after a step of thread `t` that leaves the registry alone,
changes the heap at most at address `b`, and moves `b` to `pl` in the bookkeeping. No other thread may hold `b`, and a thread relying on its protection of `b`
must still find the node with its `next` field. -/
theorem SysInv_touch {T : Type} (s : System T) (place : Addr → Place)
    (val : thread_id → Multiset T) (live : Finset thread_id) (cs : List (Addr × T))
    (hinv : SysInv s place val live cs) (t : thread_id) (l1 : stack_pc T) (x1 : State T)
    (b : Addr) (pl : Place) (v1 : Multiset T) (cs1 : List (Addr × T))
    (hreg : x1.hazard_pointers = s.shared.hazard_pointers)
    (hhaz : x1.hazard = s.shared.hazard)
    (hheap : ∀ a, a ≠ b → x1.heap.read a = s.shared.heap.read a)
    (hmine : ∀ u, u ≠ t → place b = .fresh u ∨ place b = .held u →
      s.shared.heap.read b = none)
    (hpn : x1.nodes_to_reclaim.Nodup)
    (hpp : ∀ e ∈ x1.nodes_to_reclaim,
      ∃ a, e.data = some a ∧ Function.update place b pl a = .pending ∧ x1.heap.read a ≠ none)
    (hrely : ∀ u, u ≠ t → ∀ hp, guard (s.pc u) = some (hp, b) → (place b).published →
      ∀ n, s.shared.heap.read b = some n →
        pl.published ∧ ∃ n1, x1.heap.read b = some n1 ∧ n1.next = n.next)
    (hlinked : Linked x1.heap x1.head_ cs1) (hnodup : (cs1.map Prod.fst).Nodup)
    (hlp : ∀ c ∈ cs1, Function.update place b pl c.1 = .linked)
    (hself : pc_ok (Function.update place b pl) x1 t v1 l1)
    (hscan1 : ∀ u, u ≠ t → ∀ hp a i, guard (s.pc u) = some (hp, a) →
      probe l1 = some (some a, i) → i ≤ hp.val)
    (hscan2 : ∀ u, u ≠ t → ∀ hp a i, guard l1 = some (hp, a) →
      probe (s.pc u) = some (some a, i) → i ≤ hp.val)
    (hacc : ((cs.map Prod.snd : List T) : Multiset T) + val t =
      ((cs1.map Prod.snd : List T) : Multiset T) + v1) :
    SysInv ⟨x1, Function.update s.pc t l1, s.pushed, s.returned⟩ (Function.update place b pl)
      (Function.update val t v1) (insert t live) cs1 := by
  refine SysInv_update s place val live cs hinv t l1 x1 (Function.update place b pl) v1 cs1
    s.pushed s.returned hlinked hnodup hlp hpn hpp
    (by rw [hreg, hhaz]; exact hinv.owner) hself ?_ hscan1 hscan2 ?_
  · intro u hu
    refine pc_ok_frame place (Function.update place b pl) s.shared x1 u (val u) (s.pc u)
      (by rw [hhaz]) (fun hp _ => by rw [hreg]) ?_ ?_ (hinv.threads u)
    · intro a ha hlive
      have hab : a ≠ b := by
        intro h
        rw [h] at ha hlive
        exact hlive (hmine u hu ha)
      exact ⟨Function.update_noteq hab _ _, hheap a hab⟩
    · intro hp a hg hpub n hn
      by_cases hab : a = b
      · rw [hab] at hg hpub hn ⊢
        rw [Function.update_same]
        exact hrely u hu hp hg hpub n hn
      · rw [Function.update_noteq hab]
        exact ⟨hpub, n, by rw [hheap a hab]; exact hn, rfl⟩
  · calc (s.pushed : Multiset T) + (s.returned : Multiset T) +
          ((cs.map Prod.snd : List T) : Multiset T) + val t
        = (s.pushed : Multiset T) + (s.returned : Multiset T) +
            (((cs.map Prod.snd : List T) : Multiset T) + val t) := by abel
      _ = (s.pushed : Multiset T) + (s.returned : Multiset T) +
            (((cs1.map Prod.snd : List T) : Multiset T) + v1) := by rw [hacc]
      _ = _ := by abel

/-- The linked nodes are untouched by a change of the heap and of the bookkeeping at an
address that is not linked. -/
theorem chain_frame {T : Type} (s : System T) (place : Addr → Place)
    (val : thread_id → Multiset T) (live : Finset thread_id) (cs : List (Addr × T))
    (hinv : SysInv s place val live cs) (h1 : Heap (node T)) (b : Addr) (pl : Place)
    (hheap : ∀ a, a ≠ b → h1.read a = s.shared.heap.read a)
    (hb : place b = .linked → s.shared.heap.read b = none) :
    Linked h1 s.shared.head_ cs ∧ ∀ c ∈ cs, Function.update place b pl c.1 = .linked := by
  have hne : ∀ c ∈ cs, c.1 ≠ b := by
    intro c hc h
    have h2 := hinv.linked_place c hc
    have h3 := Linked_live cs _ hinv.linked c hc
    rw [h] at h2 h3
    exact h3 (hb h2)
  refine ⟨Linked_congr cs _ (fun c hc => hheap c.1 (hne c hc)) hinv.linked, ?_⟩
  intro c hc
  rw [Function.update_noteq (hne c hc)]
  exact hinv.linked_place c hc

/-- The pending list is untouched by a change of the heap and of the bookkeeping at an
address that is not pending. -/
theorem pending_frame {T : Type} (s : System T) (place : Addr → Place)
    (val : thread_id → Multiset T) (live : Finset thread_id) (cs : List (Addr × T))
    (hinv : SysInv s place val live cs) (h1 : Heap (node T)) (b : Addr) (pl : Place)
    (hheap : ∀ a, a ≠ b → h1.read a = s.shared.heap.read a)
    (hb : place b = .pending → s.shared.heap.read b = none) :
    ∀ e ∈ s.shared.nodes_to_reclaim,
      ∃ a, e.data = some a ∧ Function.update place b pl a = .pending ∧ h1.read a ≠ none := by
  intro e he
  obtain ⟨a, h2, h3, h4⟩ := hinv.pending_place e he
  have hab : a ≠ b := by
    intro h
    rw [h] at h3 h4
    exact h4 (hb h3)
  exact ⟨a, h2, by rw [Function.update_noteq hab]; exact h3, by rw [hheap a hab]; exact h4⟩

end HazardPtrs

namespace HazardPtrs

open Mem

/-! ### The interleaved stack: the steps of `push` -/

theorem step_push_new {T : Type} (operator_new : Heap (node T) → Addr)
    (hnew : ∀ h : Heap (node T), h.read (operator_new h) = none) (s : System T)
    (hgood : Good s) (t : thread_id) (data : T)
    (hpc : s.pc t = .push_new data) : GoodNext operator_new (.step t) s := by
  obtain ⟨place, val, live, cs, hinv⟩ := hgood
  have hth := hinv.threads t
  rw [hpc] at hth
  have hv : val t = {data} := hth
  have hfresh := hnew s.shared.heap
  have hheap : ∀ a, a ≠ operator_new s.shared.heap →
      (s.shared.heap.write (operator_new s.shared.heap) ⟨some data, none⟩).read a =
        s.shared.heap.read a := fun a ha => Heap.read_write_ne _ _ ha
  obtain ⟨hl, hlp⟩ := chain_frame s place val live cs hinv _ (operator_new s.shared.heap)
    (.fresh t) hheap (fun _ => hfresh)
  apply GoodNext_intro operator_new t s (.push_load (operator_new s.shared.heap))
    { s.shared with
      heap := s.shared.heap.write (operator_new s.shared.heap) ⟨some data, none⟩ } none
    (by rw [hpc]; rfl)
  refine SysInv_touch s place val live cs hinv t _ _ (operator_new s.shared.heap) (.fresh t)
    (val t) cs rfl rfl hheap (fun _ _ _ => hfresh) hinv.pending_nodup
    (pending_frame s place val live cs hinv _ _ _ hheap (fun _ => hfresh)) ?_ hl hinv.nodup hlp
    ⟨Function.update_same _ _ _, data, ⟨none, Heap.read_write_same _ _ _⟩, hv⟩
    (by simp [probe]) (by simp [guard]) rfl
  intro u _ hp _ _ n hn
  rw [hfresh] at hn
  cases hn

theorem step_push_load {T : Type} (operator_new : Heap (node T) → Addr) (s : System T)
    (hgood : Good s) (t : thread_id) (a : Addr)
    (hpc : s.pc t = .push_load a) : GoodNext operator_new (.step t) s := by
  obtain ⟨place, val, live, cs, hinv⟩ := hgood
  have hth := hinv.threads t
  rw [hpc] at hth
  obtain ⟨hpl, d, ⟨nxt, hread⟩, hv⟩ := hth
  have hheap : ∀ x, x ≠ a →
      (s.shared.heap.write a ⟨some d, s.shared.head_⟩).read x = s.shared.heap.read x :=
    fun x hx => Heap.read_write_ne _ _ hx
  obtain ⟨hl, hlp⟩ := chain_frame s place val live cs hinv _ a (.fresh t) hheap
    (fun h => by rw [hpl] at h; cases h)
  apply GoodNext_intro operator_new t s (.push_cas a)
    { s.shared with heap := s.shared.heap.write a ⟨some d, s.shared.head_⟩ } none
    (by rw [hpc]; simp only [thread_step, hread])
  refine SysInv_touch s place val live cs hinv t _ _ a (.fresh t)
    (val t) cs rfl rfl hheap ?_ hinv.pending_nodup
    (pending_frame s place val live cs hinv _ _ _ hheap (fun h => by rw [hpl] at h; cases h))
    ?_ hl hinv.nodup hlp
    ⟨Function.update_same _ _ _, d, ⟨s.shared.head_, Heap.read_write_same _ _ _⟩, hv⟩
    (by simp [probe]) (by simp [guard]) rfl
  · intro u hu h
    rw [hpl] at h
    rcases h with h | h
    · exact (hu (Place.fresh.inj h).symm).elim
    · cases h
  · intro u _ hp _ hpub
    rw [hpl] at hpub
    exact hpub.elim

theorem step_push_cas {T : Type} (operator_new : Heap (node T) → Addr) (s : System T)
    (hgood : Good s) (t : thread_id) (a : Addr)
    (hpc : s.pc t = .push_cas a) : GoodNext operator_new (.step t) s := by
  obtain ⟨place, val, live, cs, hinv⟩ := hgood
  have hth := hinv.threads t
  rw [hpc] at hth
  obtain ⟨hpl, d, ⟨nxt, hread⟩, hv⟩ := hth
  have hmine : ∀ u, u ≠ t → place a = .fresh u ∨ place a = .held u →
      s.shared.heap.read a = none := by
    intro u hu h
    rw [hpl] at h
    rcases h with h | h
    · exact (hu (Place.fresh.inj h).symm).elim
    · cases h
  have hrely : ∀ (pl : Place) (h1 : Heap (node T)) u, u ≠ t → ∀ hp,
      guard (s.pc u) = some (hp, a) → (place a).published →
      ∀ n, s.shared.heap.read a = some n →
        pl.published ∧ ∃ n1, h1.read a = some n1 ∧ n1.next = n.next := by
    intro pl h1 u _ hp _ hpub
    rw [hpl] at hpub
    exact hpub.elim
  by_cases hcas : s.shared.head_ = nxt
  · -- the node is linked
    have hna : ∀ c ∈ cs, c.1 ≠ a := by
      intro c hc h
      have h2 := hinv.linked_place c hc
      rw [h, hpl] at h2
      cases h2
    apply GoodNext_intro operator_new t s .idle { s.shared with head_ := some a } none
      (by rw [hpc]; simp only [thread_step, hread, compare_exchange_head, if_pos hcas])
    refine SysInv_touch s place val live cs hinv t _ _ a .linked 0 ((a, d) :: cs) rfl rfl
      (fun _ _ => rfl) hmine hinv.pending_nodup
      (pending_frame s place val live cs hinv _ _ _ (fun _ _ => rfl)
        (fun h => by rw [hpl] at h; cases h))
      (hrely .linked s.shared.heap) ?_ ?_ ?_ rfl (by simp [probe]) (by simp [guard]) ?_
    · exact ⟨rfl, nxt, hread, by rw [← hcas]; exact hinv.linked⟩
    · rw [List.map_cons, List.nodup_cons]
      refine ⟨?_, hinv.nodup⟩
      intro hmem
      obtain ⟨c, hc, hca⟩ := List.mem_map.1 hmem
      exact hna c hc hca
    · intro c hc
      rcases List.mem_cons.1 hc with h | h
      · rw [h]
        exact Function.update_same _ _ _
      · rw [Function.update_noteq (hna c h)]
        exact hinv.linked_place c h
    · rw [hv, List.map_cons, ← Multiset.cons_coe, ← Multiset.singleton_add]
      abel
  · -- the compare-and-swap fails and reloads `new_node->next`
    have hheap : ∀ x, x ≠ a →
        (s.shared.heap.write a ⟨some d, s.shared.head_⟩).read x = s.shared.heap.read x :=
      fun x hx => Heap.read_write_ne _ _ hx
    obtain ⟨hl, hlp⟩ := chain_frame s place val live cs hinv _ a (.fresh t) hheap
      (fun h => by rw [hpl] at h; cases h)
    apply GoodNext_intro operator_new t s (.push_cas a)
      { s.shared with heap := s.shared.heap.write a ⟨some d, s.shared.head_⟩ } none
      (by rw [hpc]; simp only [thread_step, hread, compare_exchange_head, if_neg hcas])
    exact SysInv_touch s place val live cs hinv t _ _ a (.fresh t)
      (val t) cs rfl rfl hheap hmine hinv.pending_nodup
      (pending_frame s place val live cs hinv _ _ _ hheap (fun h => by rw [hpl] at h; cases h))
      (hrely (.fresh t) _) hl hinv.nodup hlp
      ⟨Function.update_same _ _ _, d, ⟨s.shared.head_, Heap.read_write_same _ _ _⟩, hv⟩
      (by simp [probe]) (by simp [guard]) rfl

end HazardPtrs

namespace HazardPtrs

open Mem

/-! ### The interleaved stack: unlinking, emptying, retiring and freeing a node -/

theorem held_not_others {T : Type} (place : Addr → Place) (s : State T) (t : thread_id)
    (a : Addr) (hpl : place a = .held t) :
    ∀ u, u ≠ t → place a = .fresh u ∨ place a = .held u → s.heap.read a = none := by
  intro u hu h
  rw [hpl] at h
  rcases h with h | h
  · cases h
  · exact (hu (Place.held.inj h).symm).elim

theorem step_pop_cas {T : Type} (operator_new : Heap (node T) → Addr) (s : System T)
    (hgood : Good s) (t : thread_id) (hp : Fin max_hazard_pointers) (a : Addr) (nxt : Ptr)
    (hpc : s.pc t = .pop_cas hp a nxt) : GoodNext operator_new (.step t) s := by
  obtain ⟨place, val, live, cs, hinv⟩ := hgood
  have hth := hinv.threads t
  rw [hpc] at hth
  obtain ⟨hv, hhaz, hslot, hpub, n, hn, hnext⟩ := hth
  by_cases hcas : s.shared.head_ = some a
  · have hl := hinv.linked
    rw [hcas] at hl
    obtain ⟨v, rest, nxt1, hcs, hread, hrest⟩ := linked_head _ _ _ hl
    have hnn : nxt1 = nxt := by
      rw [hread] at hn
      cases hn
      exact hnext
    have hpl : place a = .linked := hinv.linked_place (a, v) (by rw [hcs]; simp)
    have hnd := hinv.nodup
    rw [hcs, List.map_cons, List.nodup_cons] at hnd
    have hna : ∀ c ∈ rest, c.1 ≠ a := by
      intro c hc h
      exact hnd.1 (List.mem_map.2 ⟨c, hc, h⟩)
    apply GoodNext_intro operator_new t s (.pop_clear hp (some a))
      { s.shared with head_ := nxt } none
      (by rw [hpc]; simp only [thread_step, compare_exchange_head, if_pos hcas])
    refine SysInv_touch s place val live cs hinv t _ _ a (.held t) {v} rest rfl rfl
      (fun _ _ => rfl) ?_ hinv.pending_nodup
      (pending_frame s place val live cs hinv _ _ _ (fun _ _ => rfl)
        (fun h => by rw [hpl] at h; cases h))
      ?_ (by rw [← hnn]; exact hrest) hnd.2 ?_
      ⟨hhaz, Function.update_same _ _ _, v, ⟨nxt1, hread⟩, rfl⟩
      (by simp [probe]) (by simp [guard]) ?_
    · intro u _ h
      rw [hpl] at h
      rcases h with h | h <;> cases h
    · intro u _ hp1 _ _ n1 hn1
      exact ⟨trivial, n1, hn1, rfl⟩
    · intro c hc
      rw [Function.update_noteq (hna c hc)]
      exact hinv.linked_place c (by rw [hcs]; exact List.mem_cons_of_mem _ hc)
    · rw [hv, hcs, List.map_cons, ← Multiset.cons_coe, ← Multiset.singleton_add]
      abel
  · apply GoodNext_intro operator_new t s (.pop_publish hp s.shared.head_) s.shared none
      (by rw [hpc]; simp only [thread_step, compare_exchange_head, if_neg hcas])
    exact SysInv_local s place val live cs hinv t _ (val t) s.pushed s.returned ⟨hv, hhaz⟩
      (by simp [probe]) (by simp [guard]) rfl

theorem step_pop_swap {T : Type} (operator_new : Heap (node T) → Addr) (s : System T)
    (hgood : Good s) (t : thread_id) (a : Addr)
    (hpc : s.pc t = .pop_swap a) : GoodNext operator_new (.step t) s := by
  obtain ⟨place, val, live, cs, hinv⟩ := hgood
  have hth := hinv.threads t
  rw [hpc] at hth
  obtain ⟨hpl, d, ⟨nxt, hread⟩, hv⟩ := hth
  have hheap : ∀ x, x ≠ a →
      (s.shared.heap.write a ⟨none, nxt⟩).read x = s.shared.heap.read x :=
    fun x hx => Heap.read_write_ne _ _ hx
  obtain ⟨hl, hlp⟩ := chain_frame s place val live cs hinv _ a (.held t) hheap
    (fun h => by rw [hpl] at h; cases h)
  apply GoodNext_intro operator_new t s (.pop_check a (some d) 0)
    { s.shared with heap := s.shared.heap.write a ⟨none, nxt⟩ } none
    (by rw [hpc]; simp only [thread_step, hread])
  refine SysInv_touch s place val live cs hinv t _ _ a (.held t)
    (val t) cs rfl rfl hheap (held_not_others place s.shared t a hpl) hinv.pending_nodup
    (pending_frame s place val live cs hinv _ _ _ hheap (fun h => by rw [hpl] at h; cases h))
    ?_ hl hinv.nodup hlp
    ⟨Function.update_same _ _ _, by
      show (s.shared.heap.write a ⟨none, nxt⟩).read a ≠ none
      rw [Heap.read_write_same]; simp, by rw [hv]; rfl⟩
    ?_ (by simp [guard]) rfl
  · intro u _ hp _ _ n hn
    rw [hread] at hn
    cases hn
    exact ⟨trivial, _, Heap.read_write_same _ _ _, rfl⟩
  · intro u _ hp a1 i _ hpr
    simp only [probe, Option.some.injEq, Prod.mk.injEq] at hpr
    omega

theorem step_pop_delete {T : Type} (operator_new : Heap (node T) → Addr) (s : System T)
    (hgood : Good s) (t : thread_id) (a : Addr) (r : Option T)
    (hpc : s.pc t = .pop_delete a r) : GoodNext operator_new (.step t) s := by
  obtain ⟨place, val, live, cs, hinv⟩ := hgood
  have hth := hinv.threads t
  rw [hpc] at hth
  obtain ⟨hpl, hlive, hv⟩ := hth
  obtain ⟨n, hn⟩ := Option.ne_none_iff_exists'.1 hlive
  have hheap : ∀ x, x ≠ a → (s.shared.heap.free a).read x = s.shared.heap.read x :=
    fun x hx => Heap.read_free_ne _ hx
  obtain ⟨hl, hlp⟩ := chain_frame s place val live cs hinv _ a (.held t) hheap
    (fun h => by rw [hpl] at h; cases h)
  apply GoodNext_intro operator_new t s (.sweep_exchange r)
    { s.shared with heap := s.shared.heap.free a, deleted := a :: s.shared.deleted } none
    (by rw [hpc]; simp only [thread_step, do_delete_live a s.shared n hn])
  refine SysInv_touch s place val live cs hinv t _ _ a (.held t)
    (val t) cs rfl rfl hheap (held_not_others place s.shared t a hpl) hinv.pending_nodup
    (pending_frame s place val live cs hinv _ _ _ hheap (fun h => by rw [hpl] at h; cases h))
    ?_ hl hinv.nodup hlp hv (by simp [probe]) (by simp [guard]) rfl
  intro u _ hp hg
  have h1 := hinv.scan u t hp a max_hazard_pointers hg (by rw [hpc]; rfl)
  exact absurd hp.isLt (Nat.not_lt.2 h1)

theorem step_pop_later {T : Type} (operator_new : Heap (node T) → Addr) (s : System T)
    (hgood : Good s) (t : thread_id) (a : Addr) (r : Option T)
    (hpc : s.pc t = .pop_later a r) : GoodNext operator_new (.step t) s := by
  obtain ⟨place, val, live, cs, hinv⟩ := hgood
  have hth := hinv.threads t
  rw [hpc] at hth
  obtain ⟨hpl, hlive, hv⟩ := hth
  obtain ⟨hl, hlp⟩ := chain_frame s place val live cs hinv s.shared.heap a .pending
    (fun _ _ => rfl) (fun h => by rw [hpl] at h; cases h)
  have hnotin : (⟨some a⟩ : data_to_reclaim) ∉ s.shared.nodes_to_reclaim := by
    intro hmem
    obtain ⟨a1, h1, h2, _⟩ := hinv.pending_place _ hmem
    cases h1
    rw [hpl] at h2
    cases h2
  apply GoodNext_intro operator_new t s (.sweep_exchange r)
    (reclaim_later (some a) s.shared) none (by rw [hpc]; rfl)
  refine SysInv_touch s place val live cs hinv t _ _ a .pending
    (val t) cs rfl rfl (fun _ _ => rfl) (held_not_others place s.shared t a hpl)
    (List.nodup_cons.2 ⟨hnotin, hinv.pending_nodup⟩) ?_ ?_ hl hinv.nodup hlp hv
    (by simp [probe]) (by simp [guard]) rfl
  · intro e he
    rcases List.mem_cons.1 he with h | h
    · rw [h]
      exact ⟨a, rfl, Function.update_same _ _ _, hlive⟩
    · exact pending_frame s place val live cs hinv s.shared.heap a .pending (fun _ _ => rfl)
        (fun h => by rw [hpl] at h; cases h) e h
  · intro u _ hp _ _ n hn
    exact ⟨trivial, n, hn, rfl⟩

end HazardPtrs

namespace HazardPtrs

open Mem

/-! ### The interleaved stack: the steps of the sweep -/

/-- The rest of a detached list stays in order while its first entry is freed or put back. -/
theorem entries_tail {T : Type} (place : Addr → Place) (s s1 : State T) (t : thread_id)
    (e : data_to_reclaim) (nxt : List data_to_reclaim) (a : Addr) (pl : Place)
    (hdata : e.data = some a)
    (hheap : ∀ x, x ≠ a → s1.heap.read x = s.heap.read x)
    (h : entries_ok place s t (e :: nxt)) :
    entries_ok (Function.update place a pl) s1 t nxt := by
  have hnd := List.nodup_cons.1 h.1
  refine ⟨hnd.2, ?_⟩
  intro e1 he1
  obtain ⟨a1, h2, h3, h4⟩ := h.2 e1 (List.mem_cons_of_mem _ he1)
  have hne : a1 ≠ a := by
    intro heq
    have : e1 = e := by
      cases e1
      cases e
      simp only at h2 hdata
      rw [h2, hdata, heq]
    rw [this] at he1
    exact hnd.1 he1
  exact ⟨a1, h2, by rw [Function.update_noteq hne]; exact h3, by rw [hheap a1 hne]; exact h4⟩

theorem step_sweep_delete {T : Type} (operator_new : Heap (node T) → Addr) (s : System T)
    (hgood : Good s) (t : thread_id) (r : Option T) (e : data_to_reclaim)
    (nxt : List data_to_reclaim)
    (hpc : s.pc t = .sweep_delete r e nxt) : GoodNext operator_new (.step t) s := by
  obtain ⟨place, val, live, cs, hinv⟩ := hgood
  have hth := hinv.threads t
  rw [hpc] at hth
  obtain ⟨hv, hent⟩ := hth
  obtain ⟨a, hdata, hpl, hlive⟩ := hent.2 e (List.mem_cons_self _ _)
  obtain ⟨n, hn⟩ := Option.ne_none_iff_exists'.1 hlive
  have hheap : ∀ x, x ≠ a → (s.shared.heap.free a).read x = s.shared.heap.read x :=
    fun x hx => Heap.read_free_ne _ hx
  obtain ⟨hl, hlp⟩ := chain_frame s place val live cs hinv _ a (.held t) hheap
    (fun h => by rw [hpl] at h; cases h)
  apply GoodNext_intro operator_new t s (.sweep_loop r nxt)
    { s.shared with heap := s.shared.heap.free a, deleted := a :: s.shared.deleted } none
    (by rw [hpc]; simp only [thread_step, hdata, do_delete_live a s.shared n hn])
  refine SysInv_touch s place val live cs hinv t _ _ a (.held t)
    (val t) cs rfl rfl hheap (held_not_others place s.shared t a hpl) hinv.pending_nodup
    (pending_frame s place val live cs hinv _ _ _ hheap (fun h => by rw [hpl] at h; cases h))
    ?_ hl hinv.nodup hlp
    ⟨hv, entries_tail place s.shared _ t e nxt a (.held t) hdata hheap hent⟩
    (by simp [probe]) (by simp [guard]) rfl
  intro u _ hp hg
  have h1 := hinv.scan u t hp a max_hazard_pointers hg (by rw [hpc, ← hdata]; rfl)
  exact absurd hp.isLt (Nat.not_lt.2 h1)

theorem step_sweep_add {T : Type} (operator_new : Heap (node T) → Addr) (s : System T)
    (hgood : Good s) (t : thread_id) (r : Option T) (e : data_to_reclaim)
    (nxt : List data_to_reclaim)
    (hpc : s.pc t = .sweep_add r e nxt) : GoodNext operator_new (.step t) s := by
  obtain ⟨place, val, live, cs, hinv⟩ := hgood
  have hth := hinv.threads t
  rw [hpc] at hth
  obtain ⟨hv, hent⟩ := hth
  obtain ⟨a, hdata, hpl, hlive⟩ := hent.2 e (List.mem_cons_self _ _)
  obtain ⟨hl, hlp⟩ := chain_frame s place val live cs hinv s.shared.heap a .pending
    (fun _ _ => rfl) (fun h => by rw [hpl] at h; cases h)
  have hnotin : e ∉ s.shared.nodes_to_reclaim := by
    intro hmem
    obtain ⟨a1, h1, h2, _⟩ := hinv.pending_place _ hmem
    rw [hdata] at h1
    cases h1
    rw [hpl] at h2
    cases h2
  apply GoodNext_intro operator_new t s (.sweep_loop r nxt)
    (add_to_reclaim_list e s.shared) none (by rw [hpc]; rfl)
  refine SysInv_touch s place val live cs hinv t _ _ a .pending
    (val t) cs rfl rfl (fun _ _ => rfl) (held_not_others place s.shared t a hpl)
    (List.nodup_cons.2 ⟨hnotin, hinv.pending_nodup⟩) ?_ ?_ hl hinv.nodup hlp
    ⟨hv, entries_tail place s.shared _ t e nxt a .pending hdata (fun _ _ => rfl) hent⟩
    (by simp [probe]) (by simp [guard]) rfl
  · intro e1 he1
    rcases List.mem_cons.1 he1 with h | h
    · rw [h]
      exact ⟨a, hdata, Function.update_same _ _ _, hlive⟩
    · exact pending_frame s place val live cs hinv s.shared.heap a .pending (fun _ _ => rfl)
        (fun h => by rw [hpl] at h; cases h) e1 h
  · intro u _ hp _ _ n hn
    exact ⟨trivial, n, hn, rfl⟩

theorem step_sweep_exchange {T : Type} (operator_new : Heap (node T) → Addr) (s : System T)
    (hgood : Good s) (t : thread_id) (r : Option T)
    (hpc : s.pc t = .sweep_exchange r) : GoodNext operator_new (.step t) s := by
  obtain ⟨place, val, live, cs, hinv⟩ := hgood
  have hth := hinv.threads t
  rw [hpc] at hth
  have hv : val t = r.toList := hth
  have hkeep : ∀ a, place a ≠ .pending ∨ s.shared.heap.read a = none →
      (if (⟨some a⟩ : data_to_reclaim) ∈ s.shared.nodes_to_reclaim then Place.held t
        else place a) = place a := by
    intro a ha
    rw [if_neg]
    intro hmem
    obtain ⟨a1, h1, h2, h3⟩ := hinv.pending_place _ hmem
    cases h1
    rcases ha with ha | ha
    · exact ha h2
    · exact h3 ha
  apply GoodNext_intro operator_new t s (.sweep_loop r s.shared.nodes_to_reclaim)
    { s.shared with nodes_to_reclaim := [] } none (by rw [hpc]; rfl)
  refine SysInv_update s place val live cs hinv t _ _
    (fun a => if (⟨some a⟩ : data_to_reclaim) ∈ s.shared.nodes_to_reclaim then Place.held t
      else place a)
    (val t) cs s.pushed s.returned hinv.linked hinv.nodup ?_ List.nodup_nil ?_ hinv.owner
    ⟨hv, hinv.pending_nodup, ?_⟩ ?_ (by simp [probe]) (by simp [guard]) rfl
  · intro c hc
    have h1 := hinv.linked_place c hc
    show (if (⟨some c.1⟩ : data_to_reclaim) ∈ s.shared.nodes_to_reclaim then Place.held t
      else place c.1) = .linked
    rw [hkeep c.1 (Or.inl (by rw [h1]; simp)), h1]
  · intro e he
    simp at he
  · intro e he
    obtain ⟨a, h1, _, h3⟩ := hinv.pending_place e he
    refine ⟨a, h1, ?_, h3⟩
    have hmem : (⟨some a⟩ : data_to_reclaim) ∈ s.shared.nodes_to_reclaim := by
      have : e = ⟨some a⟩ := by
        cases e
        simp only at h1
        rw [h1]
      rw [← this]
      exact he
    show (if (⟨some a⟩ : data_to_reclaim) ∈ s.shared.nodes_to_reclaim then Place.held t
      else place a) = .held t
    rw [if_pos hmem]
  · intro u hu
    refine pc_ok_frame place _ s.shared _ u (val u) (s.pc u) rfl (fun _ _ => rfl) ?_ ?_
      (hinv.threads u)
    · intro a ha _
      refine ⟨hkeep a (Or.inl ?_), rfl⟩
      rcases ha with ha | ha <;> rw [ha] <;> simp
    · intro hp a _ hpub n hn
      refine ⟨?_, n, hn, rfl⟩
      show (if (⟨some a⟩ : data_to_reclaim) ∈ s.shared.nodes_to_reclaim then Place.held t
        else place a).published
      split_ifs
      · trivial
      · exact hpub

end HazardPtrs

namespace HazardPtrs

open Mem

/-! ### The interleaved stack: every schedule keeps the invariant -/

theorem thread_step_good {T : Type} (operator_new : Heap (node T) → Addr)
    (hnew : ∀ h : Heap (node T), h.read (operator_new h) = none) (s : System T)
    (hgood : Good s) (t : thread_id) : GoodNext operator_new (.step t) s := by
  cases hpc : s.pc t with
  | idle => exact step_idle operator_new s hgood t hpc
  | push_new data => exact step_push_new operator_new hnew s hgood t data hpc
  | push_load a => exact step_push_load operator_new s hgood t a hpc
  | push_cas a => exact step_push_cas operator_new s hgood t a hpc
  | pop_owner i => exact step_pop_owner operator_new s hgood t i hpc
  | pop_load hp => exact step_pop_load operator_new s hgood t hp hpc
  | pop_publish hp p => exact step_pop_publish operator_new s hgood t hp p hpc
  | pop_recheck hp temp => exact step_pop_recheck operator_new s hgood t hp temp hpc
  | pop_next hp a => exact step_pop_next operator_new s hgood t hp a hpc
  | pop_cas hp a nxt => exact step_pop_cas operator_new s hgood t hp a nxt hpc
  | pop_clear hp old => exact step_pop_clear operator_new s hgood t hp old hpc
  | pop_swap a => exact step_pop_swap operator_new s hgood t a hpc
  | pop_check a r i => exact step_pop_check operator_new s hgood t a r i hpc
  | pop_later a r => exact step_pop_later operator_new s hgood t a r hpc
  | pop_delete a r => exact step_pop_delete operator_new s hgood t a r hpc
  | sweep_exchange r => exact step_sweep_exchange operator_new s hgood t r hpc
  | sweep_loop r cur => exact step_sweep_loop operator_new s hgood t r cur hpc
  | sweep_check r e nxt i => exact step_sweep_check operator_new s hgood t r e nxt i hpc
  | sweep_delete r e nxt => exact step_sweep_delete operator_new s hgood t r e nxt hpc
  | sweep_add r e nxt => exact step_sweep_add operator_new s hgood t r e nxt hpc
  | exit_id hp => exact step_exit_id operator_new s hgood t hp hpc

theorem system_step_good {T : Type} (operator_new : Heap (node T) → Addr)
    (hnew : ∀ h : Heap (node T), h.read (operator_new h) = none) (e : Event T) (s : System T)
    (hgood : Good s) : GoodNext operator_new e s := by
  cases e with
  | push t data => exact event_push operator_new s hgood t data
  | pop t => exact event_pop operator_new s hgood t
  | step t => exact thread_step_good operator_new hnew s hgood t
  | exit t => exact event_exit operator_new s hgood t

theorem good_init {T : Type} : Good (System.init : System T) := by
  refine ⟨fun _ => .linked, fun _ => 0, ∅, [], ?_⟩
  refine ⟨rfl, List.nodup_nil, ?_, List.nodup_nil, ?_, ?_, ?_, ?_, ?_, ?_⟩
  · intro c hc
    simp at hc
  · intro e he
    simp [System.init, State.init] at he
  · intro t hp h
    simp [System.init, State.init] at h
  · intro t
    show pc_ok _ _ t 0 .idle
    rfl
  · intro t u hp a i hg
    simp [System.init, guard] at hg
  · intro t _
    rfl
  · simp [System.init]

/-- Every schedule runs without a fault, and the invariant holds in the state it reaches. -/
theorem system_run_good {T : Type} (operator_new : Heap (node T) → Addr)
    (hnew : ∀ h : Heap (node T), h.read (operator_new h) = none) :
    ∀ (es : List (Event T)) (s : System T), Good s →
      ∃ s1, system_run operator_new es s = .ok s1 ∧ Good s1 := by
  intro es
  induction es with
  | nil => intro s hs; exact ⟨s, rfl, hs⟩
  | cons e es ih =>
    intro s hs
    obtain ⟨s1, h1, h2⟩ := system_step_good operator_new hnew e s hs
    obtain ⟨s2, h3, h4⟩ := ih s1 h2
    exact ⟨s2, by simp only [system_run, h1, h3], h4⟩

theorem reachable_good {T : Type} (operator_new : Heap (node T) → Addr)
    (hnew : ∀ h : Heap (node T), h.read (operator_new h) = none)
    (es : List (Event T)) (s : System T)
    (hrun : system_run operator_new es System.init = .ok s) : Good s := by
  obtain ⟨s1, h1, h2⟩ := system_run_good operator_new hnew es System.init good_init
  rw [hrun] at h1
  cases h1
  exact h2

end HazardPtrs
